import Mathlib

/-!
# Verification of the aries reasoning kernel

Shallow embedding of the backtrackable integer domain store
(`model/src/int_model/domains.rs`) and of the STN theory
(`tnet/src/theory.rs`) of the aries constraint solver, together with
proofs about the behaviour of their operations.

Machine integers (`IntCst = i32`, bound values, edge weights) are modelled
as unbounded `Int`: the source documents that avoiding overflow is the
caller's responsibility ("Requirement for weight: ... It is the
responsibility of the caller to ensure that no overflow occurs"), so the
reasoning code itself is overflow-agnostic.

Rust collections are modelled as lists:
* `RefVec<K, V>` (dense vector keyed by an index newtype) becomes
  `List V`, indexed with `List.getD` / updated with `List.set`;
* `VecDeque` becomes a list used with head-pop / tail-push;
* the `HashMap<Edge, u32>` lookup table becomes an association list.

The types of the `aries_model::bounds` module (`VarBound`, `BoundValue`,
`BoundValueAdd`, `Bound`, `Watches`) are not part of the sources; they are
modelled from the spec (see the doc comments below).
-/

/- `IntCst` (`aries_model::lang::IntCst`), `VarBound`, `BoundValue` and
`BoundValueAdd` are all represented directly as `Int` / `Nat` (the `omega`
decision procedure cannot see through type synonyms); the operations of
each type keep their source names below. -/

/-! ## Signed variable bounds

Modelled from the spec: the `aries_model::bounds::VarBound` type is absent
from the sources.  Per the spec, a signed variable is a pair
(variable, sign) yielding `2V` slots for `V` variables; `+v` tracks the
upper bound of `v` and `−v` the negation of the lower bound.  We represent
a `VarBound` by its raw dense index.  `Domains::new_var` pushes the
lower-bound slot first, so the slot of `−v` is `2v` and the slot of `+v`
is `2v + 1` (matching `debug_assert!(var_lb.is_lb())` in `new_var`).
-/

/-- Slot of the lower bound (`−v`) of variable `v`. -/
def VarBound.lb (v : Nat) : Nat := 2 * v

/-- Slot of the upper bound (`+v`) of variable `v`. -/
def VarBound.ub (v : Nat) : Nat := 2 * v + 1

/-- The variable of a signed-variable slot. -/
def VarBound.var (b : Nat) : Nat := b / 2

/-- Whether the slot tracks an upper bound. -/
def VarBound.is_ub (b : Nat) : Bool := b % 2 = 1

/-- Whether the slot tracks a lower bound. -/
def VarBound.is_lb (b : Nat) : Bool := b % 2 = 0

/-- The other slot (`+v` for `−v` and vice versa) of the same variable. -/
def VarBound.symmetric_bound (b : Nat) : Nat :=
  if b % 2 = 0 then b + 1 else b - 1

/-! ## Bound values

Modelled from the spec: `aries_model::bounds::BoundValue` is absent from
the sources.  Per the spec, an upper-bound value is a signed integer; for
the slot `+v` it bounds `v ≤ value`, for `−v` it expresses `v ≥ −value`,
and "stronger" is numerically smaller.  The spec's domain-store invariant
`bounds[+v] + bounds[−v] ≥ 0` (unless the domain is empty) fixes the
compatibility test with the symmetric bound.
-/

/-- Encode an upper bound `v ≤ x` as a bound value. -/
def BoundValue.ub (x : Int) : Int := x

/-- Encode a lower bound `v ≥ x` as a bound value (stored negated). -/
def BoundValue.lb (x : Int) : Int := -x

/-- Read back an upper bound. -/
def BoundValue.as_ub (v : Int) : Int := v

/-- Read back a lower bound. -/
def BoundValue.as_lb (v : Int) : Int := -v

/-- `a.stronger(b)`: `a` is at least as strong as `b` (numerically smaller). -/
def BoundValue.stronger (a b : Int) : Bool := decide (a ≤ b)

/-- Compatibility of a bound value with the value of the symmetric bound:
the spec invariant `bounds[+v] + bounds[−v] ≥ 0`. -/
def BoundValue.compatible_with_symmetric (a b : Int) : Bool := decide (0 ≤ a + b)

/-! ## Bound value deltas

Modelled from the spec: `aries_model::bounds::BoundValueAdd` (the weight
of a directional constraint, expressed as an addition on raw bound
values) is absent from the sources. -/

/-- Delta adding `w` to an upper bound. -/
def BoundValueAdd.on_ub (w : Int) : Int := w

/-- Delta adding `d` to a lower bound (lower bounds are stored negated). -/
def BoundValueAdd.on_lb (d : Int) : Int := -d

/-- Read a delta back as an upper-bound addition. -/
def BoundValueAdd.as_ub_add (v : Int) : Int := v

/-- Read a delta back as a lower-bound addition. -/
def BoundValueAdd.as_lb_add (v : Int) : Int := -v

/-- Raw value of the delta. -/
def BoundValueAdd.raw_value (v : Int) : Int := v

/-- A strictly tightening delta (used for the negative self-loop test). -/
def BoundValueAdd.is_tightening (v : Int) : Bool := decide (v < 0)

/-! ## Literals

Modelled from the spec (`aries_model::bounds::Bound` is absent from the
sources, but its successor `Lit` in `solver/src/core/lit.rs` documents the
same representation): a literal is an upper bound on a signed variable;
negation maps `(s, ub)` to `(¬s, −ub − 1)`; `a` entails `b` iff they share
a signed variable and `a.ub ≤ b.ub`. -/
structure Bound where
  affected_bound : Nat
  bound_value : Int
deriving DecidableEq, Repr

instance : Inhabited Bound := ⟨⟨0, 0⟩⟩

/-- `Bound::from_parts`. -/
def Bound.from_parts (vb : Nat) (v : Int) : Bound := ⟨vb, v⟩

/-- The variable a literal bears on. -/
def Bound.var (b : Bound) : Nat := VarBound.var b.affected_bound

/-- `Bound::leq(var, val)`: the literal `var ≤ val`. -/
def Bound.leq (v : Nat) (val : Int) : Bound := ⟨VarBound.ub v, BoundValue.ub val⟩

/-- `Bound::geq(var, val)`: the literal `var ≥ val`. -/
def Bound.geq (v : Nat) (val : Int) : Bound := ⟨VarBound.lb v, BoundValue.lb val⟩

/-- Literal negation: `!(x ≤ d) = (x > d)`, i.e. `(¬s, −d − 1)`. -/
def Bound.not (b : Bound) : Bound :=
  ⟨VarBound.symmetric_bound b.affected_bound, -b.bound_value - 1⟩

/-- Literal entailment: same signed variable and a stronger value. -/
def Bound.entails (a b : Bound) : Bool :=
  decide (a.affected_bound = b.affected_bound) && BoundValue.stronger a.bound_value b.bound_value

/-! ## Causes and errors (`aries_model::int_model`)

Modelled from the spec: `Cause` is the tagged union
`Decision | Encoding | Inference {writer_id, payload}` where the payload
is an opaque token a propagator later expands into an explanation. -/
inductive Cause where
  | decision
  | encoding
  | inference (writer : Nat) (payload : Nat)
deriving DecidableEq, Repr

instance : Inhabited Cause := ⟨Cause.decision⟩

/-- `EmptyDomain(v)`: local failure during bound setting. -/
structure EmptyDomain where
  v : Nat
deriving DecidableEq, Repr

/-! ## The domain store (`model/src/int_model/domains.rs`) -/

/-- The `Event` struct of `domains.rs`: one domain mutation on the trail. -/
structure DomainEvent where
  affected_bound : Nat
  cause : Cause
  previous_value : Int
  new_value : Int
  previous_event : Option Nat
deriving DecidableEq, Repr

instance : Inhabited DomainEvent := ⟨⟨0, Cause.decision, 0, 0, none⟩⟩

/-- `Event::makes_true(lit)`: the new value entails the literal's bound
while the previous value did not. -/
def DomainEvent.makes_true (ev : DomainEvent) (lit : Bound) : Bool :=
  BoundValue.stronger ev.new_value lit.bound_value &&
    !(BoundValue.stronger ev.previous_value lit.bound_value)

/-- The strongest literal entailed by the event (`Event::new_literal` of the
model-event type consumed by the STN). -/
def DomainEvent.new_literal (ev : DomainEvent) : Bound :=
  Bound.from_parts ev.affected_bound ev.new_value

/-- The `Domains` struct: per-slot bounds, per-slot index of the last event
affecting it, and the event trail.  `saved` is the stack of backtrack-point
markers of the underlying `ObsTrail` (positions in `events`, most recent
first). -/
structure Domains where
  bounds : List Int
  causes_index : List (Option Nat)
  events : List DomainEvent
  saved : List Nat
deriving DecidableEq, Repr

/-- `Domains::default()`: the empty store. -/
def Domains.empty : Domains := ⟨[], [], [], []⟩

/-- `Domains::new_var(lb, ub)`: push the two slots (lower-bound slot first,
as in the source) and their `None` cause indices; return the new variable. -/
def Domains.new_var (d : Domains) (lb ub : Int) : Nat × Domains :=
  (d.bounds.length / 2,
   { d with
     bounds := d.bounds ++ [BoundValue.lb lb, BoundValue.ub ub],
     causes_index := d.causes_index ++ [none, none] })

/-- Current raw value of a signed-variable slot (`DiscreteModel::domains.get_bound`). -/
def Domains.get_bound (d : Domains) (vb : Nat) : Int :=
  d.bounds.getD vb 0

/-- `Domains::ub`. -/
def Domains.ub (d : Domains) (v : Nat) : Int :=
  BoundValue.as_ub (d.get_bound (VarBound.ub v))

/-- `Domains::lb`. -/
def Domains.lb (d : Domains) (v : Nat) : Int :=
  BoundValue.as_lb (d.get_bound (VarBound.lb v))

/-- `Domains::entails(lit)`. -/
def Domains.entails (d : Domains) (lit : Bound) : Bool :=
  BoundValue.stronger (d.get_bound lit.affected_bound) lit.bound_value

/-- `Domains::set_bound(affected, new, cause)`: if the current value is
already at least as strong, report no change; otherwise write the bound,
push one event, and fail with `EmptyDomain` exactly when the new value is
incompatible with the symmetric bound. -/
def Domains.set_bound (d : Domains) (affected : Nat) (new : Int)
    (cause : Cause) : Domains × Except EmptyDomain Bool :=
  let prev := d.get_bound affected
  if BoundValue.stronger prev new then (d, Except.ok false)
  else
    let previous_event := d.causes_index.getD affected none
    let d1 : Domains :=
      { d with
        bounds := d.bounds.set affected new,
        causes_index := d.causes_index.set affected (some d.events.length),
        events := d.events ++ [⟨affected, cause, prev, new, previous_event⟩] }
    let other := d1.get_bound (VarBound.symmetric_bound affected)
    if BoundValue.compatible_with_symmetric new other then (d1, Except.ok true)
    else (d1, Except.error ⟨VarBound.var affected⟩)

/-- `Domains::set(literal, cause)`. -/
def Domains.set (d : Domains) (literal : Bound) (cause : Cause) :
    Domains × Except EmptyDomain Bool :=
  d.set_bound literal.affected_bound literal.bound_value cause

/-- `Domains::set_lb`. -/
def Domains.set_lb (d : Domains) (v : Nat) (new_lb : Int) (cause : Cause) :
    Domains × Except EmptyDomain Bool :=
  d.set_bound (VarBound.lb v) (BoundValue.lb new_lb) cause

/-- `Domains::set_ub`. -/
def Domains.set_ub (d : Domains) (v : Nat) (new_ub : Int) (cause : Cause) :
    Domains × Except EmptyDomain Bool :=
  d.set_bound (VarBound.ub v) (BoundValue.ub new_ub) cause

/-- The static helper `Domains::undo_event`: restore the slot's value and
cause index from the event's `previous_*` fields. -/
def Domains.undo_event (bounds : List Int) (causes_index : List (Option Nat))
    (ev : DomainEvent) : List Int × List (Option Nat) :=
  (bounds.set ev.affected_bound ev.previous_value,
   causes_index.set ev.affected_bound ev.previous_event)

/-- `Domains::undo_last_event` (sans the returned cause): pop the last trail
event and undo it. -/
def Domains.undo_last_event (d : Domains) : Domains :=
  match d.events.getLast? with
  | none => d
  | some ev =>
    let bc := Domains.undo_event d.bounds d.causes_index ev
    { d with bounds := bc.1, causes_index := bc.2, events := d.events.dropLast }

/-- Undo the `n` most recent trail events (the loop of `restore_last_with`). -/
def Domains.popN (d : Domains) : Nat → Domains
  | 0 => d
  | n + 1 => Domains.popN d.undo_last_event n

/-- `Backtrack::save_state` for `Domains`: record a marker on the trail. -/
def Domains.save_state (d : Domains) : Domains :=
  { d with saved := d.events.length :: d.saved }

/-- `Backtrack::restore_last` for `Domains`: pop events down to the last
marker, undoing each one. -/
def Domains.restore_last (d : Domains) : Domains :=
  match d.saved with
  | [] => d
  | m :: rest => Domains.popN { d with saved := rest } (d.events.length - m)

/-- One step of `Domains::implying_event`'s backward walk: stop at the
first chain event that made the literal true, else follow `previous_event`.
The fuel is instantiated with the trail length, which suffices on
well-formed trails whose `previous_event` links strictly decrease. -/
def Domains.implying_event_aux (d : Domains) (lit : Bound) :
    Nat → Option Nat → Option Nat
  | _, none => none
  | 0, some loc => some loc
  | fuel + 1, some loc =>
    let ev := d.events.getD loc default
    if ev.makes_true lit then some loc
    else Domains.implying_event_aux d lit fuel ev.previous_event

/-- `Domains::implying_event(lit)`: walk `causes_index` backward along
`previous_event` links until an event making `lit` true is found. -/
def Domains.implying_event (d : Domains) (lit : Bound) : Option Nat :=
  Domains.implying_event_aux d lit d.events.length
    (d.causes_index.getD lit.affected_bound none)

/-! ## List helper lemmas -/

theorem list_getD_set_self {α : Type} (l : List α) (i : Nat) (x dflt : α)
    (h : i < l.length) : (l.set i x).getD i dflt = x := by
  induction l generalizing i with
  | nil => simp at h
  | cons a t ih =>
    cases i with
    | zero => rfl
    | succ n =>
      simp only [List.set_cons_succ, List.getD_cons_succ]
      exact ih n (by simpa using h)

theorem list_getD_set_ne {α : Type} (l : List α) (i j : Nat) (x dflt : α)
    (h : i ≠ j) : (l.set i x).getD j dflt = l.getD j dflt := by
  induction l generalizing i j with
  | nil => rfl
  | cons a t ih =>
    cases i with
    | zero =>
      cases j with
      | zero => exact absurd rfl h
      | succ m => rfl
    | succ n =>
      cases j with
      | zero => rfl
      | succ m =>
        simp only [List.set_cons_succ, List.getD_cons_succ]
        exact ih n m (by omega)

theorem list_set_getD_self {α : Type} (l : List α) (i : Nat) (dflt : α) :
    l.set i (l.getD i dflt) = l := by
  induction l generalizing i with
  | nil => rfl
  | cons a t ih =>
    cases i with
    | zero => rfl
    | succ n => simp only [List.getD_cons_succ, List.set_cons_succ, ih]

theorem list_set_set {α : Type} (l : List α) (i : Nat) (x y : α) :
    (l.set i x).set i y = l.set i y := by
  induction l generalizing i with
  | nil => rfl
  | cons a t ih =>
    cases i with
    | zero => rfl
    | succ n => simp only [List.set_cons_succ, ih]

/-- The symmetric slot is always a different slot. -/
theorem varBound_symmetric_ne (b : Nat) : VarBound.symmetric_bound b ≠ b := by
  unfold VarBound.symmetric_bound
  split <;> omega


/-! ## Normal forms of `Domains::set_bound` -/

/-- If the current value is already at least as strong, `set_bound` is a
no-op returning `Ok(false)`. -/
theorem set_bound_already (d : Domains) (a : Nat) (nv : Int) (cause : Cause)
    (h : BoundValue.stronger (d.get_bound a) nv = true) :
    d.set_bound a nv cause = (d, Except.ok false) := by
  unfold Domains.set_bound
  simp [h]

/-- Otherwise `set_bound` writes the bound, records the event, and succeeds
or fails according to the compatibility test against the (unchanged)
symmetric bound. -/
theorem set_bound_write (d : Domains) (a : Nat) (nv : Int) (cause : Cause)
    (h : BoundValue.stronger (d.get_bound a) nv = false) :
    d.set_bound a nv cause =
      (⟨d.bounds.set a nv,
        d.causes_index.set a (some d.events.length),
        d.events ++ [⟨a, cause, d.get_bound a, nv, d.causes_index.getD a none⟩],
        d.saved⟩,
       if BoundValue.compatible_with_symmetric nv
            (d.bounds.getD (VarBound.symmetric_bound a) 0)
       then Except.ok true
       else Except.error ⟨VarBound.var a⟩) := by
  have hne : a ≠ VarBound.symmetric_bound a := (varBound_symmetric_ne a).symm
  have h' : BoundValue.stronger (d.bounds.getD a 0) nv = false := h
  unfold Domains.set_bound
  simp only [Domains.get_bound, h', Bool.false_eq_true, if_false]
  rw [list_getD_set_ne d.bounds a (VarBound.symmetric_bound a) nv 0 hne]
  split <;> rfl

/-- Incompatibility of the written value with the symmetric bound is the
same as `lb(v) > ub(v)` in the post-write state. -/
theorem incompatible_iff_lb_gt_ub (d : Domains) (a : Nat) (nv : Int)
    (hin : a < d.bounds.length) :
    (BoundValue.compatible_with_symmetric nv
        (d.bounds.getD (VarBound.symmetric_bound a) 0) = false) ↔
      -((d.bounds.set a nv).getD (VarBound.lb (VarBound.var a)) 0) >
        (d.bounds.set a nv).getD (VarBound.ub (VarBound.var a)) 0 := by
  have hself : (d.bounds.set a nv).getD a 0 = nv := list_getD_set_self _ _ _ _ hin
  have hother : (d.bounds.set a nv).getD (VarBound.symmetric_bound a) 0
      = d.bounds.getD (VarBound.symmetric_bound a) 0 :=
    list_getD_set_ne _ _ _ _ _ (varBound_symmetric_ne a).symm
  simp only [BoundValue.compatible_with_symmetric, decide_eq_false_iff_not, not_le]
  rcases Nat.even_or_odd a with he | ho
  · have h2 : a % 2 = 0 := Nat.even_iff.mp he
    have hsv : VarBound.symmetric_bound a = a + 1 := by
      simp [VarBound.symmetric_bound, h2]
    have hlbs : VarBound.lb (VarBound.var a) = a := by
      simp only [VarBound.lb, VarBound.var]; omega
    have hubs : VarBound.ub (VarBound.var a) = a + 1 := by
      simp only [VarBound.ub, VarBound.var]; omega
    rw [hlbs, hubs, ← hsv, hself, hother]
    omega
  · have h2 : a % 2 = 1 := Nat.odd_iff.mp ho
    have hsv : VarBound.symmetric_bound a = a - 1 := by
      unfold VarBound.symmetric_bound
      rw [if_neg (by omega)]
    have hlbs : VarBound.lb (VarBound.var a) = a - 1 := by
      simp only [VarBound.lb, VarBound.var]; omega
    have hubs : VarBound.ub (VarBound.var a) = a := by
      simp only [VarBound.ub, VarBound.var]; omega
    rw [hlbs, hubs, ← hsv, hself, hother]
    omega

/-! ## Claim theorems about `Domains::set` -/

/-- **C2.** Contract of `Domains::set(lit, cause)` on a state holding the
literal's slots: if `lit` is already entailed the call returns `Ok(false)`
and leaves the state unchanged; otherwise it writes the new bound, pushes
exactly one event on the trail, and either returns `Ok(true)` or
`Err(EmptyDomain(v))` for the literal's variable `v`, the error occurring
exactly when the new bound is incompatible with the symmetric bound of
`v`, i.e. exactly when `lb(v) > ub(v)` after the write. -/
theorem domains_set_contract (d : Domains) (lit : Bound) (cause : Cause)
    (hin : lit.affected_bound < d.bounds.length)
    (hsym : VarBound.symmetric_bound lit.affected_bound < d.bounds.length) :
    (d.entails lit = true → d.set lit cause = (d, Except.ok false)) ∧
    (d.entails lit = false →
      ((d.set lit cause).1.bounds = d.bounds.set lit.affected_bound lit.bound_value ∧
       (d.set lit cause).1.causes_index
         = d.causes_index.set lit.affected_bound (some d.events.length) ∧
       (d.set lit cause).1.events
         = d.events ++ [⟨lit.affected_bound, cause, d.get_bound lit.affected_bound,
                          lit.bound_value, d.causes_index.getD lit.affected_bound none⟩]) ∧
      ((d.set lit cause).2 = Except.ok true ∨
        (d.set lit cause).2 = Except.error ⟨Bound.var lit⟩) ∧
      ((d.set lit cause).2 = Except.error ⟨Bound.var lit⟩ ↔
        Domains.lb (d.set lit cause).1 (Bound.var lit)
          > Domains.ub (d.set lit cause).1 (Bound.var lit))) := by
  constructor
  · intro hent
    exact set_bound_already d _ _ cause hent
  · intro hnent
    have hw := set_bound_write d lit.affected_bound lit.bound_value cause hnent
    have hiff := incompatible_iff_lb_gt_ub d lit.affected_bound lit.bound_value hin
    rw [Domains.set, hw]
    refine ⟨⟨rfl, rfl, rfl⟩, ?_, ?_⟩
    · by_cases hc : BoundValue.compatible_with_symmetric lit.bound_value
          (d.bounds.getD (VarBound.symmetric_bound lit.affected_bound) 0) = true
      · left; simp only [hc, if_true]
      · right
        simp only [Bool.not_eq_true] at hc
        simp only [hc, Bool.false_eq_true, if_false, Bound.var]
    · by_cases hc : BoundValue.compatible_with_symmetric lit.bound_value
          (d.bounds.getD (VarBound.symmetric_bound lit.affected_bound) 0) = true
      · simp only [hc, if_true]
        constructor
        · intro habs; exact absurd habs (by simp)
        · intro habs
          exfalso
          have := hiff.mpr (by
            simpa [Domains.lb, Domains.ub, Domains.get_bound, Bound.var,
              BoundValue.as_lb, BoundValue.as_ub] using habs)
          rw [this] at hc
          exact Bool.false_ne_true hc
      · simp only [Bool.not_eq_true] at hc
        simp only [hc, Bool.false_eq_true, if_false]
        constructor
        · intro _
          have := hiff.mp hc
          simpa [Domains.lb, Domains.ub, Domains.get_bound, Bound.var,
            BoundValue.as_lb, BoundValue.as_ub] using this
        · intro _; rfl

/-- Witness for C2: concrete uses of both branches.  On `x ∈ [0, 10]`
(slots `[-0, 10]`), the literal `x ≤ 12` is already entailed and `set`
returns `Ok(false)`; the literal `x ≤ -2` is not entailed, `set` writes
the bound, pushes the event, and returns `Err(EmptyDomain(0))` because
`lb(0) = 0 > -2 = ub(0)` afterwards. -/
theorem domains_set_contract_witness :
    (Domains.set ⟨[0, 10], [none, none], [], []⟩ (Bound.leq 0 12) Cause.decision
        = (⟨[0, 10], [none, none], [], []⟩, Except.ok false)) ∧
      (Domains.set ⟨[0, 10], [none, none], [], []⟩ (Bound.leq 0 (-2)) Cause.decision).2
        = Except.error ⟨0⟩ := by
  constructor
  · exact (domains_set_contract ⟨[0, 10], [none, none], [], []⟩ (Bound.leq 0 12)
      Cause.decision (by decide) (by decide)).1 (by decide)
  · have h := (domains_set_contract ⟨[0, 10], [none, none], [], []⟩ (Bound.leq 0 (-2))
      Cause.decision (by decide) (by decide)).2 (by decide)
    have hiff := h.2.2
    exact hiff.mpr (by decide)

/-! ## Claim theorems about `Domains::new_var` (C8) -/

/-- **C8 (counterexample).** The claim states that `new_var` pushes
initial-bound events on the event trail.  It does not: on a fresh store,
`new_var(0, 10)` allocates the two slots but the trail stays empty. -/
theorem domains_new_var_pushes_no_event_cex :
    (Domains.new_var Domains.empty 0 10).2.events = [] ∧
      (Domains.new_var Domains.empty 0 10).2.bounds.length = 2 := by
  constructor <;> rfl

/-- **C8 (amended).** `Domains::new_var(lb, ub)` allocates exactly two new
signed-variable slots — the lower-bound slot `−v` (holding `-lb`) first and
the upper-bound slot `+v` (holding `ub`) second — with `None` cause
indices, returns the new variable, and pushes **no** event on the trail
(the trail and saved markers are unchanged). -/
theorem domains_new_var_allocates_two_slots (d : Domains) (lb ub : Int) :
    Domains.new_var d lb ub =
      (d.bounds.length / 2,
       { bounds := d.bounds ++ [BoundValue.lb lb, BoundValue.ub ub],
         causes_index := d.causes_index ++ [none, none],
         events := d.events,
         saved := d.saved }) := by
  rfl

/-! ## Claim theorem C9: failing `set` still writes the bound -/

/-- **C9.** Non-atomicity of failing bound updates: if `lit` is not yet
entailed and `Domains::set(lit, cause)` returns `Err(EmptyDomain(v))`,
the bound has nevertheless been written and exactly one event pushed, so
`entails(lit)` holds afterwards and `lb(v) > ub(v)`; undoing that one
event (what `restore_last` does for it) restores the previous bounds and
cause indices. -/
theorem domains_set_failure_nonatomic (d : Domains) (lit : Bound) (cause : Cause)
    (v : Nat)
    (hin : lit.affected_bound < d.bounds.length)
    (hnent : d.entails lit = false)
    (herr : (d.set lit cause).2 = Except.error ⟨v⟩) :
    v = Bound.var lit ∧
    (d.set lit cause).1.bounds = d.bounds.set lit.affected_bound lit.bound_value ∧
    (d.set lit cause).1.events.length = d.events.length + 1 ∧
    (d.set lit cause).1.entails lit = true ∧
    Domains.lb (d.set lit cause).1 v > Domains.ub (d.set lit cause).1 v ∧
    ((d.set lit cause).1.undo_last_event.bounds = d.bounds ∧
      (d.set lit cause).1.undo_last_event.causes_index = d.causes_index) := by
  have hw := set_bound_write d lit.affected_bound lit.bound_value cause hnent
  have hv : v = Bound.var lit := by
    rw [Domains.set, hw] at herr
    by_cases hc : BoundValue.compatible_with_symmetric lit.bound_value
        (d.bounds.getD (VarBound.symmetric_bound lit.affected_bound) 0) = true
    · rw [if_pos hc] at herr; exact absurd herr (by simp)
    · simp only [Bool.not_eq_true] at hc
      rw [if_neg (by simp only [hc]; exact Bool.false_ne_true)] at herr
      simp only [Except.error.injEq, EmptyDomain.mk.injEq] at herr
      exact herr.symm
  subst hv
  have hiff := incompatible_iff_lb_gt_ub d lit.affected_bound lit.bound_value hin
  refine ⟨rfl, ?_, ?_, ?_, ?_, ?_, ?_⟩
  · rw [Domains.set, hw]
  · rw [Domains.set, hw]; simp
  · rw [Domains.set, hw]
    simp only [Domains.entails, Domains.get_bound]
    rw [list_getD_set_self d.bounds lit.affected_bound lit.bound_value 0 hin]
    simp [BoundValue.stronger]
  · -- lb(v) > ub(v) in the post state
    rw [Domains.set, hw] at herr ⊢
    by_cases hc : BoundValue.compatible_with_symmetric lit.bound_value
        (d.bounds.getD (VarBound.symmetric_bound lit.affected_bound) 0) = true
    · rw [if_pos hc] at herr; exact absurd herr (by simp)
    · simp only [Bool.not_eq_true] at hc
      have := hiff.mp hc
      simpa [Domains.lb, Domains.ub, Domains.get_bound, Bound.var,
        BoundValue.as_lb, BoundValue.as_ub] using this
  · rw [Domains.set, hw]
    simp only [Domains.undo_last_event, List.getLast?_concat, Domains.undo_event,
      Domains.get_bound]
    rw [list_set_set, list_set_getD_self]
  · rw [Domains.set, hw]
    simp only [Domains.undo_last_event, List.getLast?_concat, Domains.undo_event]
    rw [list_set_set, list_set_getD_self]

/-- Witness for C9: on `x ∈ [0, 10]` the literal `x ≤ -2` fails with
`EmptyDomain(0)`, yet afterwards `x ≤ -2` is entailed and `lb(0) > ub(0)`. -/
theorem domains_set_failure_nonatomic_witness :
    (Domains.set ⟨[0, 10], [none, none], [], []⟩ (Bound.leq 0 (-2)) Cause.decision).1.entails
        (Bound.leq 0 (-2)) = true ∧
      Domains.lb (Domains.set ⟨[0, 10], [none, none], [], []⟩
          (Bound.leq 0 (-2)) Cause.decision).1 0
        > Domains.ub (Domains.set ⟨[0, 10], [none, none], [], []⟩
          (Bound.leq 0 (-2)) Cause.decision).1 0 := by
  have h := domains_set_failure_nonatomic ⟨[0, 10], [none, none], [], []⟩
    (Bound.leq 0 (-2)) Cause.decision 0 (by decide) (by decide) (by rfl)
  exact ⟨h.2.2.2.1, h.2.2.2.2.1⟩

/-! ## Claim C3: backtracking round-trip -/

/-- A sequence of `Domains::set` operations, applied in order. -/
def Domains.apply_sets (d : Domains) (ops : List (Bound × Cause)) : Domains :=
  ops.foldl (fun s p => (s.set p.1 p.2).1) d

/-- `set` never touches the saved markers. -/
theorem set_preserves_saved (d : Domains) (lit : Bound) (cause : Cause) :
    (d.set lit cause).1.saved = d.saved := by
  by_cases h : BoundValue.stronger (d.get_bound lit.affected_bound) lit.bound_value = true
  · rw [Domains.set, set_bound_already d _ _ cause h]
  · rw [Domains.set, set_bound_write d _ _ cause (by simpa using h)]

/-- Each `set` either leaves the state unchanged or pushes exactly one
event whose undo restores the state exactly. -/
theorem set_step (d : Domains) (lit : Bound) (cause : Cause) :
    (d.set lit cause).1 = d ∨
    ((d.set lit cause).1.events.length = d.events.length + 1 ∧
      (d.set lit cause).1.undo_last_event = d) := by
  by_cases h : BoundValue.stronger (d.get_bound lit.affected_bound) lit.bound_value = true
  · left; rw [Domains.set, set_bound_already d _ _ cause h]
  · right
    rw [Domains.set, set_bound_write d _ _ cause (by simpa using h)]
    refine ⟨by simp, ?_⟩
    obtain ⟨b, c, e, s⟩ := d
    simp only [Domains.undo_last_event, List.getLast?_concat, Domains.undo_event,
      Domains.get_bound, List.dropLast_concat]
    have h1 : (b.set lit.affected_bound lit.bound_value).set lit.affected_bound
        (b.getD lit.affected_bound 0) = b := by
      rw [list_set_set, list_set_getD_self]
    have h2 : (c.set lit.affected_bound (some e.length)).set lit.affected_bound
        (c.getD lit.affected_bound none) = c := by
      rw [list_set_set, list_set_getD_self]
    rw [h1, h2]

/-- Popping `n + 1` events is popping `n` events and then one more. -/
theorem popN_succ_right (d : Domains) (n : Nat) :
    Domains.popN d (n + 1) = (Domains.popN d n).undo_last_event := by
  induction n generalizing d with
  | zero => rfl
  | succ m ih =>
    show Domains.popN d.undo_last_event (m + 1) = _
    rw [ih d.undo_last_event]
    rfl

/-- Undoing events commutes with replacing the saved markers. -/
theorem undo_last_event_saved (d : Domains) (s : List Nat) :
    Domains.undo_last_event { d with saved := s }
      = { d.undo_last_event with saved := s } := by
  unfold Domains.undo_last_event
  cases d.events.getLast? <;> rfl

/-- `popN` commutes with replacing the saved markers. -/
theorem popN_saved (d : Domains) (s : List Nat) (n : Nat) :
    Domains.popN { d with saved := s } n = { Domains.popN d n with saved := s } := by
  induction n generalizing d with
  | zero => rfl
  | succ m ih =>
    show Domains.popN (Domains.undo_last_event { d with saved := s }) m = _
    rw [undo_last_event_saved, ih]
    rfl

/-- Reduction of `restore_last` when the top marker is known. -/
theorem restore_last_cons (x : Domains) (m : Nat) (rest : List Nat)
    (h : x.saved = m :: rest) :
    x.restore_last = Domains.popN { x with saved := rest } (x.events.length - m) := by
  obtain ⟨b, c, e, s⟩ := x
  simp only at h
  subst h
  rfl

/-- After any sequence of `set` operations, popping the events pushed since
the start restores the state exactly. -/
theorem apply_sets_restore (ops : List (Bound × Cause)) (d : Domains) :
    (Domains.apply_sets d ops).saved = d.saved ∧
    d.events.length ≤ (Domains.apply_sets d ops).events.length ∧
    Domains.popN (Domains.apply_sets d ops)
      ((Domains.apply_sets d ops).events.length - d.events.length) = d := by
  induction ops generalizing d with
  | nil =>
    refine ⟨rfl, Nat.le_refl _, ?_⟩
    show Domains.popN d (d.events.length - d.events.length) = d
    rw [Nat.sub_self]
    rfl
  | cons op rest ih =>
    have hfold : Domains.apply_sets d (op :: rest)
        = Domains.apply_sets (d.set op.1 op.2).1 rest := rfl
    obtain ⟨ihs, ihlen, ihpop⟩ := ih (d.set op.1 op.2).1
    rcases set_step d op.1 op.2 with hsame | ⟨hlen, hundo⟩
    · rw [hsame] at ihs ihlen ihpop
      rw [hfold, hsame]
      exact ⟨ihs, ihlen, ihpop⟩
    · rw [hfold]
      refine ⟨by rw [ihs, set_preserves_saved], by omega, ?_⟩
      have harith : (Domains.apply_sets (d.set op.1 op.2).1 rest).events.length
            - d.events.length
          = ((Domains.apply_sets (d.set op.1 op.2).1 rest).events.length
            - (d.set op.1 op.2).1.events.length) + 1 := by omega
      rw [harith, popN_succ_right, ihpop, hundo]

/-- **C3 (amended).** Backtracking round-trip for `set`: after
`save_state` followed by any sequence of `set` operations followed by
`restore_last`, the `bounds` and `causes_index` maps (indeed the whole
store) are identical to their values at the time of `save_state`.
(The original claim also allowed `new_var` in the sequence; see the
counterexample below.) -/
theorem domains_backtrack_roundtrip (d : Domains) (ops : List (Bound × Cause)) :
    (Domains.restore_last (Domains.apply_sets (Domains.save_state d) ops)).bounds
        = d.bounds ∧
      (Domains.restore_last (Domains.apply_sets (Domains.save_state d) ops)).causes_index
        = d.causes_index ∧
      Domains.restore_last (Domains.apply_sets (Domains.save_state d) ops) = d := by
  have hmain : Domains.restore_last (Domains.apply_sets (Domains.save_state d) ops) = d := by
    obtain ⟨hs, hlen, hpop⟩ := apply_sets_restore ops (Domains.save_state d)
    have hs' : (Domains.apply_sets (Domains.save_state d) ops).saved
        = d.events.length :: d.saved := hs
    have hpop' : Domains.popN (Domains.apply_sets (Domains.save_state d) ops)
        ((Domains.apply_sets (Domains.save_state d) ops).events.length - d.events.length)
        = Domains.save_state d := hpop
    rw [restore_last_cons _ _ _ hs', popN_saved, hpop']
    cases d
    rfl
  exact ⟨by rw [hmain], by rw [hmain], hmain⟩

/-- **C3 (counterexample).** The round-trip fails when the sequence
contains `new_var`: `new_var` pushes no event, so `restore_last` does not
deallocate the two slots and `bounds` differs from its saved value. -/
theorem domains_backtrack_roundtrip_cex :
    (Domains.restore_last ((Domains.save_state Domains.empty).new_var 0 0).2).bounds
      ≠ Domains.empty.bounds := by
  decide

/-! ## Claim C7: `implying_event` returns the earliest event making the
literal true

The `causes_index`/`previous_event` chain structure is an invariant of the
store (each slot's chain enumerates exactly the trail events on that slot,
newest first, with linked values that strictly decrease over time); the
following well-formedness checkers state it explicitly. -/

/-- Chain head well-formedness for slot `vb`: `causes_index[vb]` is the
most recent trail event on `vb` (or `None` when there is none). -/
def Domains.chain_head_wf (d : Domains) (vb : Nat) : Bool :=
  match d.causes_index.getD vb none with
  | none =>
    decide (∀ k, k < d.events.length → (d.events.getD k default).affected_bound ≠ vb)
  | some j =>
    decide (j < d.events.length ∧ (d.events.getD j default).affected_bound = vb ∧
      ∀ k, k < d.events.length → j < k → (d.events.getD k default).affected_bound ≠ vb)

/-- Chain link well-formedness for event `i` on slot `vb`: `previous_event`
is the immediately preceding trail event on `vb` (or `None` when there is
none), and the event's `previous_value` is that event's `new_value`. -/
def Domains.chain_link_wf (d : Domains) (vb i : Nat) : Bool :=
  match (d.events.getD i default).previous_event with
  | none => decide (∀ k, k < i → (d.events.getD k default).affected_bound ≠ vb)
  | some j =>
    decide (j < i ∧ (d.events.getD j default).affected_bound = vb ∧
      (d.events.getD i default).previous_value = (d.events.getD j default).new_value ∧
      ∀ k, k < i → j < k → (d.events.getD k default).affected_bound ≠ vb)

/-- Full chain well-formedness for slot `vb`; this is the trail invariant
maintained by `set_bound` / `undo_event`. -/
def Domains.chain_wf (d : Domains) (vb : Nat) : Bool :=
  Domains.chain_head_wf d vb &&
    decide (∀ i, i < d.events.length →
      ((d.events.getD i default).affected_bound = vb →
        Domains.chain_link_wf d vb i = true ∧
        (d.events.getD i default).new_value
          < (d.events.getD i default).previous_value))

/-- One-step unfolding of the walk. -/
theorem implying_event_aux_succ (d : Domains) (lit : Bound) (f loc : Nat) :
    Domains.implying_event_aux d lit (f + 1) (some loc)
      = (if (d.events.getD loc default).makes_true lit = true then some loc
         else Domains.implying_event_aux d lit f
           (d.events.getD loc default).previous_event) := by
  simp only [Domains.implying_event_aux]

/-- Along a well-formed chain, the `previous_value` of an event is at most
the `new_value` of every earlier event on the same slot (bounds only get
stronger over time). -/
theorem chain_mono (d : Domains) (vb : Nat)
    (hwf : ∀ i, i < d.events.length →
      ((d.events.getD i default).affected_bound = vb →
        Domains.chain_link_wf d vb i = true ∧
        (d.events.getD i default).new_value
          < (d.events.getD i default).previous_value)) :
    ∀ i, i < d.events.length → (d.events.getD i default).affected_bound = vb →
      ∀ j, j < i → (d.events.getD j default).affected_bound = vb →
        (d.events.getD i default).previous_value
          ≤ (d.events.getD j default).new_value := by
  intro i
  induction i using Nat.strong_induction_on with
  | _ i ih =>
    intro hi honb j hj honbj
    obtain ⟨hlink, _⟩ := hwf i hi honb
    rcases hpe : (d.events.getD i default).previous_event with _ | p
    · exfalso
      unfold Domains.chain_link_wf at hlink
      rw [hpe] at hlink
      rw [decide_eq_true_eq] at hlink
      exact hlink j hj honbj
    · unfold Domains.chain_link_wf at hlink
      rw [hpe] at hlink
      rw [decide_eq_true_eq] at hlink
      obtain ⟨hpi, honbp, hval, hgap⟩ := hlink
      rcases Nat.lt_trichotomy j p with hjp | hjp | hjp
      · have hrec := ih p hpi (by omega) honbp j hjp honbj
        obtain ⟨_, hdec⟩ := hwf p (by omega) honbp
        omega
      · subst hjp
        omega
      · exact absurd honbj (hgap j hj hjp)

/-- The backward walk of `implying_event` finds an event making the
literal true whenever one exists at or below the starting point. -/
theorem implying_walk (d : Domains) (lit : Bound)
    (hwf : ∀ i, i < d.events.length →
      ((d.events.getD i default).affected_bound = lit.affected_bound →
        Domains.chain_link_wf d lit.affected_bound i = true ∧
        (d.events.getD i default).new_value
          < (d.events.getD i default).previous_value)) :
    ∀ loc, loc < d.events.length →
      (d.events.getD loc default).affected_bound = lit.affected_bound →
      (∃ t, t ≤ loc ∧ (d.events.getD t default).affected_bound = lit.affected_bound ∧
        (d.events.getD t default).makes_true lit = true) →
      ∀ fuel, loc + 1 ≤ fuel →
        ∃ i0, Domains.implying_event_aux d lit fuel (some loc) = some i0 ∧
          i0 ≤ loc ∧ (d.events.getD i0 default).affected_bound = lit.affected_bound ∧
          (d.events.getD i0 default).makes_true lit = true := by
  intro loc
  induction loc using Nat.strong_induction_on with
  | _ loc ih =>
    intro hloc honb hex fuel hfuel
    rcases fuel with _ | f
    · omega
    rw [implying_event_aux_succ]
    by_cases hmk : (d.events.getD loc default).makes_true lit = true
    · exact ⟨loc, by rw [if_pos hmk], Nat.le_refl _, honb, hmk⟩
    · rw [if_neg hmk]
      obtain ⟨hlink, _⟩ := hwf loc hloc honb
      rcases hpe : (d.events.getD loc default).previous_event with _ | p
      · exfalso
        unfold Domains.chain_link_wf at hlink
        rw [hpe] at hlink
        rw [decide_eq_true_eq] at hlink
        obtain ⟨t, htle, htonb, htmk⟩ := hex
        rcases Nat.lt_or_ge t loc with htlt | htge
        · exact hlink t htlt htonb
        · have : t = loc := by omega
          subst this
          exact hmk htmk
      · unfold Domains.chain_link_wf at hlink
        rw [hpe] at hlink
        rw [decide_eq_true_eq] at hlink
        obtain ⟨hpl, honbp, _, hgap⟩ := hlink
        obtain ⟨t, htle, htonb, htmk⟩ := hex
        have htp : t ≤ p := by
          rcases Nat.lt_or_ge t loc with htlt | htge
          · by_contra habs
            exact absurd htonb (hgap t htlt (by omega))
          · exfalso
            have : t = loc := by omega
            subst this
            exact hmk htmk
        exact (ih p hpl (by omega) honbp ⟨t, htp, htonb, htmk⟩ f (by omega)).imp
          (fun i0 h => ⟨h.1, by omega, h.2.2.1, h.2.2.2⟩)

/-- **C7.** For an entailed literal whose bound was made true by some trail
event, `implying_event(lit)` walks the `causes_index` chain backward along
`previous_event` links and returns the index of the earliest event that
made `lit` true: the returned event makes `lit` true (its `new_value`
entails the bound while its `previous_value` does not) and every earlier
trail event on the literal's slot does not. -/
theorem domains_implying_event_earliest (d : Domains) (lit : Bound)
    (hwf : Domains.chain_wf d lit.affected_bound = true)
    (hent : d.entails lit = true)
    (hex : ∃ t, t < d.events.length ∧
      (d.events.getD t default).affected_bound = lit.affected_bound ∧
      (d.events.getD t default).makes_true lit = true) :
    ∃ i0, d.implying_event lit = some i0 ∧
      i0 < d.events.length ∧
      (d.events.getD i0 default).affected_bound = lit.affected_bound ∧
      (d.events.getD i0 default).makes_true lit = true ∧
      ∀ j, j < i0 → (d.events.getD j default).affected_bound = lit.affected_bound →
        (d.events.getD j default).makes_true lit = false := by
  unfold Domains.chain_wf at hwf
  rw [Bool.and_eq_true] at hwf
  obtain ⟨hhead, hlinks⟩ := hwf
  rw [decide_eq_true_eq] at hlinks
  obtain ⟨t, htlen, htonb, htmk⟩ := hex
  unfold Domains.implying_event
  rcases hh : d.causes_index.getD lit.affected_bound none with _ | h
  · exfalso
    unfold Domains.chain_head_wf at hhead
    rw [hh] at hhead
    rw [decide_eq_true_eq] at hhead
    exact hhead t htlen htonb
  · unfold Domains.chain_head_wf at hhead
    rw [hh] at hhead
    rw [decide_eq_true_eq] at hhead
    obtain ⟨hhlen, hhonb, habove⟩ := hhead
    have hth : t ≤ h := by
      by_contra habs
      exact absurd htonb (habove t htlen (by omega))
    obtain ⟨i0, heq, hile, hionb, himk⟩ :=
      implying_walk d lit hlinks h hhlen hhonb ⟨t, hth, htonb, htmk⟩
        d.events.length (by omega)
    refine ⟨i0, heq, by omega, hionb, himk, ?_⟩
    intro j hj honbj
    have hmono := chain_mono d lit.affected_bound hlinks i0 (by omega) hionb j hj honbj
    unfold DomainEvent.makes_true at himk ⊢
    rw [Bool.and_eq_true] at himk
    obtain ⟨_, hprev⟩ := himk
    simp only [BoundValue.stronger, Bool.not_eq_true', decide_eq_false_iff_not, not_le] at hprev
    simp only [BoundValue.stronger, Bool.and_eq_false_iff, decide_eq_false_iff_not, not_le]
    left
    omega

/-- Witness for C7: a two-event trail on slot `+x` (`x ≤ 5` then `x ≤ 2`);
for the literal `x ≤ 7` the earliest implying event is event 0. -/
theorem domains_implying_event_earliest_witness :
    ∃ i0, Domains.implying_event
        ⟨[0, 2], [none, some 1],
         [⟨1, Cause.decision, 10, 5, none⟩, ⟨1, Cause.decision, 5, 2, some 0⟩], []⟩
        (Bound.leq 0 7) = some i0 ∧
      i0 < 2 ∧
      (List.getD [⟨1, Cause.decision, 10, 5, none⟩,
        (⟨1, Cause.decision, 5, 2, some 0⟩ : DomainEvent)] i0 default).affected_bound
        = (Bound.leq 0 7).affected_bound ∧
      (List.getD [⟨1, Cause.decision, 10, 5, none⟩,
        (⟨1, Cause.decision, 5, 2, some 0⟩ : DomainEvent)] i0 default).makes_true
        (Bound.leq 0 7) = true ∧
      ∀ j, j < i0 → (List.getD [⟨1, Cause.decision, 10, 5, none⟩,
          (⟨1, Cause.decision, 5, 2, some 0⟩ : DomainEvent)] j default).affected_bound
          = (Bound.leq 0 7).affected_bound →
        (List.getD [⟨1, Cause.decision, 10, 5, none⟩,
          (⟨1, Cause.decision, 5, 2, some 0⟩ : DomainEvent)] j default).makes_true
          (Bound.leq 0 7) = false :=
  domains_implying_event_earliest
    ⟨[0, 2], [none, some 1],
     [⟨1, Cause.decision, 10, 5, none⟩, ⟨1, Cause.decision, 5, 2, some 0⟩], []⟩
    (Bound.leq 0 7) (by decide) (by decide) ⟨0, by decide, by decide, by decide⟩

/-! ## The STN theory (`tnet/src/theory.rs`): data model -/

/-- `TheoryPropagationLevel`: which part of theory propagation is enabled. -/
inductive TheoryPropagationLevel where
  | none
  | bounds
  | edges
  | full
deriving DecidableEq, Repr

/-- `TheoryPropagationLevel::bounds()`. -/
def TheoryPropagationLevel.boundsEnabled : TheoryPropagationLevel → Bool
  | TheoryPropagationLevel.none | TheoryPropagationLevel.edges => false
  | TheoryPropagationLevel.bounds | TheoryPropagationLevel.full => true

/-- `TheoryPropagationLevel::edges()`. -/
def TheoryPropagationLevel.edgesEnabled : TheoryPropagationLevel → Bool
  | TheoryPropagationLevel.none | TheoryPropagationLevel.bounds => false
  | TheoryPropagationLevel.edges | TheoryPropagationLevel.full => true

/-- `StnConfig`. -/
structure StnConfig where
  theory_propagation : TheoryPropagationLevel
  deep_explanation : Bool
  extensive_tests : Bool
deriving DecidableEq, Repr

/-- `StnConfig::default()`: the environment-parameter defaults are
`bounds` / `false` / `false` (`STN_THEORY_PROPAGATION` et al.). -/
def StnConfig.default : StnConfig := ⟨TheoryPropagationLevel.bounds, false, false⟩

/-- An `EdgeId` is represented by its raw `u32`:
`base_id << 1 | is_negated`. -/
def EdgeId.new (base_id : Nat) (negated : Bool) : Nat :=
  if negated then 2 * base_id + 1 else 2 * base_id

/-- `EdgeId::base_id`. -/
def EdgeId.base_id (e : Nat) : Nat := e / 2

/-- `EdgeId::is_negated`. -/
def EdgeId.is_negated (e : Nat) : Bool := e % 2 = 1

/-- `!EdgeId`: the other polarity of the same base edge. -/
def EdgeId.not (e : Nat) : Nat := if e % 2 = 0 then e + 1 else e - 1

/-- An edge in the STN, representing `target - source ≤ weight`. -/
structure Edge where
  source : Nat
  target : Nat
  weight : Int
deriving DecidableEq, Repr

/-- `Edge::new`. -/
def Edge.new (source target : Nat) (weight : Int) : Edge := ⟨source, target, weight⟩

/-- `Edge::is_canonical`. -/
def Edge.is_canonical (e : Edge) : Bool :=
  decide (e.source < e.target) || (decide (e.source = e.target) && decide (e.weight ≥ 0))

/-- `Edge::is_negated`. -/
def Edge.is_negated (e : Edge) : Bool := !e.is_canonical

/-- `Edge::negated`: `not(b - a ≤ w) = (a - b ≤ -w - 1)`. -/
def Edge.negated (e : Edge) : Edge := ⟨e.target, e.source, -e.weight - 1⟩

/-- A `DirEdge` (edge + propagation direction) is represented by its raw
`u32`: `edge_id << 1 | backward`. -/
def DirEdge.forward (e : Nat) : Nat := 2 * e

/-- Backward view of the given edge. -/
def DirEdge.backward (e : Nat) : Nat := 2 * e + 1

/-- `DirEdge::is_forward`. -/
def DirEdge.is_forward (d : Nat) : Bool := d % 2 = 0

/-- `DirEdge::edge`: the edge underlying this directional view. -/
def DirEdge.edge (d : Nat) : Nat := d / 2

/-- A directional constraint: an update of the `source` bound must be
reflected on the `target` bound (shifted by `weight`). -/
structure DirConstraint where
  source : Nat
  target : Nat
  weight : Int
  enabler : Option Bound
  enablers : List Bound
deriving DecidableEq, Repr

instance : Inhabited DirConstraint := ⟨⟨0, 0, 0, none, []⟩⟩

/-- `DirConstraint::forward(edge)`: `ub(source) ≤ X ⟹ ub(target) ≤ X + w`. -/
def DirConstraint.forward (e : Edge) : DirConstraint :=
  ⟨VarBound.ub e.source, VarBound.ub e.target, BoundValueAdd.on_ub e.weight, none, []⟩

/-- `DirConstraint::backward(edge)`: `lb(target) ≥ X ⟹ lb(source) ≥ X - w`. -/
def DirConstraint.backward (e : Edge) : DirConstraint :=
  ⟨VarBound.lb e.target, VarBound.lb e.source, BoundValueAdd.on_lb (-e.weight), none, []⟩

/-- `DirConstraint::as_edge`. -/
def DirConstraint.as_edge (c : DirConstraint) : Edge :=
  if VarBound.is_ub c.source then
    ⟨VarBound.var c.source, VarBound.var c.target, BoundValueAdd.as_ub_add c.weight⟩
  else
    ⟨VarBound.var c.target, VarBound.var c.source, -(BoundValueAdd.as_lb_add c.weight)⟩

/-- `ConstraintPair::new_inactives(edge)`: the four directional views of a
base edge (canonicalised) and its negation. -/
structure ConstraintPair where
  base_forward : DirConstraint
  base_backward : DirConstraint
  negated_forward : DirConstraint
  negated_backward : DirConstraint
deriving Repr

/-- `ConstraintPair::new_inactives`. -/
def ConstraintPair.new_inactives (edge : Edge) : ConstraintPair :=
  let edge := if edge.is_canonical then edge else edge.negated
  ⟨DirConstraint.forward edge, DirConstraint.backward edge,
   DirConstraint.forward edge.negated, DirConstraint.backward edge.negated⟩

/-- An entry of the potential-out-edges adjacency lists. -/
structure EdgeTarget where
  target : Nat
  weight : Int
  enabler : Bound
deriving DecidableEq, Repr

/-- The watches structure (`aries_model::bounds::Watches<DirEdge>`,
modelled from the spec: "watches: map from literals to directional edges
to activate"): a list of (watched dir-edge, guard literal) pairs;
`watches_on(lit)` returns the dir-edges whose guard is entailed by `lit`. -/
structure Watches where
  entries : List (Nat × Bound)
deriving DecidableEq, Repr

/-- `Watches::add_watch`. -/
def Watches.add_watch (w : Watches) (edge : Nat) (literal : Bound) : Watches :=
  ⟨w.entries ++ [(edge, literal)]⟩

/-- `Watches::watches_on(lit)`. -/
def Watches.watches_on (w : Watches) (lit : Bound) : List Nat :=
  (w.entries.filter fun e => Bound.entails lit e.2).map (·.1)

/-- `ConstraintDb`: all directional constraints (4 per base edge, indexed
by raw `DirEdge`), the canonical-edge lookup table (`HashMap<Edge, u32>`
as an association list), the watches, and the potential-out-edge
adjacency lists (indexed by raw `VarBound`). -/
structure ConstraintDb where
  constraints : List DirConstraint
  lookup : List (Edge × Nat)
  watches : Watches
  edges : List (List EdgeTarget)
deriving Repr

/-- `ConstraintDb::new()`. -/
def ConstraintDb.new : ConstraintDb := ⟨[], [], ⟨[]⟩, []⟩

/-- Lookup in the `HashMap<Edge, u32>`. -/
def ConstraintDb.lookup_get (db : ConstraintDb) (e : Edge) : Option Nat :=
  (db.lookup.find? fun p => p.1 = e).map (·.2)

/-- `RefVec::fill_with(key, Vec::new)`: extend the adjacency vector with
empty lists so that `key` is a valid index. -/
def ConstraintDb.fill_edges_with (edges : List (List EdgeTarget)) (key : Nat) :
    List (List EdgeTarget) :=
  if edges.length ≤ key then edges ++ List.replicate (key + 1 - edges.length) [] else edges

/-- `ConstraintDb::add_directed_enabler(edge, literal)`. -/
def ConstraintDb.add_directed_enabler (db : ConstraintDb) (edge : Nat) (literal : Bound) :
    ConstraintDb :=
  let c := db.constraints.getD edge default
  let db := { db with
    watches := db.watches.add_watch edge literal,
    constraints := db.constraints.set edge { c with enablers := c.enablers ++ [literal] } }
  let edges := ConstraintDb.fill_edges_with db.edges c.source
  { db with
    edges := edges.set c.source
      (edges.getD c.source [] ++ [⟨c.target, c.weight, literal⟩]) }

/-- `ConstraintDb::add_enabler(edge, literal)`: watch both directions. -/
def ConstraintDb.add_enabler (db : ConstraintDb) (edge : Nat) (literal : Bound) :
    ConstraintDb :=
  (db.add_directed_enabler (DirEdge.forward edge) literal).add_directed_enabler
    (DirEdge.backward edge) literal

/-- `ConstraintDb::potential_out_edges(source)`. -/
def ConstraintDb.potential_out_edges (db : ConstraintDb) (source : Nat) : List EdgeTarget :=
  db.edges.getD source []

/-- `ConstraintDb::find_existing(edge)`. -/
def ConstraintDb.find_existing (db : ConstraintDb) (edge : Edge) : Option Nat :=
  if edge.is_canonical then
    (db.lookup_get edge).map fun id => EdgeId.new id false
  else
    (db.lookup_get edge.negated).map fun id => EdgeId.new id true

/-- `ConstraintDb::push_edge(source, target, weight)`: unify with an
existing edge when possible, otherwise push the four directional views of
the canonicalised pair and register the canonical edge in the lookup
table.  Returns `(created, edge_id)`. -/
def ConstraintDb.push_edge (db : ConstraintDb) (source target : Nat) (weight : Int) :
    (Bool × Nat) × ConstraintDb :=
  let edge := Edge.new source target weight
  match db.find_existing edge with
  | some id => ((false, id), db)
  | none =>
    let pair := ConstraintPair.new_inactives edge
    let base := pair.base_forward.as_edge
    let id1 := db.constraints.length
    let constraints := db.constraints ++
      [pair.base_forward, pair.base_backward, pair.negated_forward, pair.negated_backward]
    let id2 := id1 + 2
    let db := { db with
      constraints := constraints,
      lookup := (base, EdgeId.base_id (DirEdge.edge id1)) :: db.lookup }
    let edge_id := if edge.is_negated then id2 else id1
    ((true, DirEdge.edge edge_id), db)

/-- `ConstraintDb::pop_last()`: remove the four directional views of the
most recently created pair, and its lookup entry. -/
def ConstraintDb.pop_last (db : ConstraintDb) : ConstraintDb :=
  let constraints := db.constraints.dropLast.dropLast.dropLast
  match constraints.getLast? with
  | none => { db with constraints := constraints.dropLast }
  | some c =>
    { db with
      constraints := constraints.dropLast,
      lookup := db.lookup.filter fun p => p.1 ≠ c.as_edge }

/-- `ConstraintDb::has_edge(id)`. -/
def ConstraintDb.has_edge (db : ConstraintDb) (id : Nat) : Bool :=
  decide (EdgeId.base_id id ≤ db.constraints.length)

/-! ## The STN theory: state -/

/-- The theory's trail events (`theory.rs` `enum Event`). -/
inductive StnEvent where
  | edgeAdded
  | edgeActivated (e : Nat)
  | addedTheoryPropagationCause
deriving DecidableEq, Repr

/-- `aries_backtrack::Trail<Event>`: the event list plus the stack of
backtrack-point markers (positions, most recent first). -/
structure StnTrail where
  events : List StnEvent
  saved : List Nat
deriving DecidableEq, Repr

/-- `Trail::push`. -/
def StnTrail.push (t : StnTrail) (e : StnEvent) : StnTrail :=
  { t with events := t.events ++ [e] }

/-- `Stats` (propagation counters; excluded from state comparisons). -/
structure Stats where
  num_propagations : Nat
  distance_updates : Nat
deriving DecidableEq, Repr

/-- An active propagator: outgoing arc of the propagation graph. -/
structure Propagator where
  target : Nat
  weight : Int
  id : Nat
deriving DecidableEq, Repr

/-- `ActivationEvent::ToActivate(dir_edge, enabler)`. -/
inductive ActivationEvent where
  | toActivate (edge : Nat) (enabler : Bound)
deriving DecidableEq, Repr

/-- A theory-propagation cause record. -/
inductive TheoryPropagationCause where
  | path (source target : Nat)
  | bounds (source target : Bound)
deriving DecidableEq, Repr

instance : Inhabited TheoryPropagationCause := ⟨TheoryPropagationCause.path 0 0⟩

/-- `ModelUpdateCause`: the STN's inference payload. -/
inductive ModelUpdateCause where
  | edgePropagation (edge : Nat)
  | theoryPropagation (index : Nat)
deriving DecidableEq, Repr

/-- `u32::from(ModelUpdateCause)`: `EdgePropagation(e) ↦ e << 1`,
`TheoryPropagation(i) ↦ (i << 1) | 1`. -/
def ModelUpdateCause.encode : ModelUpdateCause → Nat
  | ModelUpdateCause.edgePropagation e => 2 * e
  | ModelUpdateCause.theoryPropagation i => 2 * i + 1

/-- `ModelUpdateCause::from(u32)`. -/
def ModelUpdateCause.decode (enc : Nat) : ModelUpdateCause :=
  if enc % 2 = 0 then ModelUpdateCause.edgePropagation (enc / 2)
  else ModelUpdateCause.theoryPropagation (enc / 2)

/-- `Contradiction` (`aries_solver`): either the conversion of an
`EmptyDomain` or a literal-list explanation. -/
inductive Contradiction where
  | fromEmptyDomain (e : EmptyDomain)
  | explanation (lits : List Bound)
deriving DecidableEq, Repr

/-- The `DiscreteModel` as used by the STN: it owns the domain store.
(The full `DiscreteModel` of `aries_model` carries more — expression
tables, queues — none of which the theory reads.) -/
structure DiscreteModel where
  domains : Domains
deriving DecidableEq, Repr

/-- `DiscreteModel::entails`. -/
def DiscreteModel.entails (m : DiscreteModel) (lit : Bound) : Bool :=
  m.domains.entails lit

/-- Decision level of trail position `i`: the number of saved markers at
or before it.  Modelled from the spec: the `TrailLoc`/decision-level
bookkeeping of `aries_backtrack` is absent from the sources; "all events
pushed before the next `save_state` belong to the current level". -/
def Domains.loc_decision_level (d : Domains) (i : Nat) : Nat :=
  (d.saved.filter fun m => m ≤ i).length

/-- `DiscreteModel::entailing_level(lit)`: the decision level of the
implying event (`ROOT = 0` when the literal holds from the initial
bounds).  Modelled from the spec (the method body is absent from the
sources). -/
def DiscreteModel.entailing_level (m : DiscreteModel) (lit : Bound) : Nat :=
  match m.domains.implying_event lit with
  | none => 0
  | some i => m.domains.loc_decision_level i

/-- The `StnTheory` state.  The two `DijkstraState` scratch buffers of the
source are an allocation-reuse device (`internal_dijkstra_states`); the
distance computations below are pure functions, so they carry no state
here. -/
structure StnTheory where
  config : StnConfig
  constraints : ConstraintDb
  active_propagators : List (List Propagator)
  pending_updates : List Nat
  trail : StnTrail
  pending_activations : List ActivationEvent
  stats : Stats
  identity : Nat
  model_events : Nat
  explanation : List Nat
  theory_propagation_causes : List TheoryPropagationCause
  internal_propagate_queue : List Nat
deriving Repr

/-- `StnTheory::new(identity, config)`. -/
def StnTheory.new (identity : Nat) (config : StnConfig) : StnTheory :=
  ⟨config, ConstraintDb.new, [], [], ⟨[], []⟩, [], ⟨0, 0⟩, identity, 0, [], [], []⟩

/-- `StnTheory::num_nodes`. -/
def StnTheory.num_nodes (stn : StnTheory) : Nat := stn.active_propagators.length / 2

/-- `StnTheory::reserve_timepoint`: slots for the propagators of both
bounds. -/
def StnTheory.reserve_timepoint (stn : StnTheory) : StnTheory :=
  { stn with active_propagators := stn.active_propagators ++ [[], []] }

/-- The `while … reserve_timepoint()` loop of `add_inactive_constraint`,
in closed form. -/
def StnTheory.reserve_until (stn : StnTheory) (source target : Nat) : StnTheory :=
  { stn with active_propagators :=
      stn.active_propagators ++
        List.replicate (2 * (max source target + 1) - stn.active_propagators.length) [] }

/-- `StnTheory::add_inactive_constraint(source, target, weight)`:
reserve the timepoints, push the edge (unifying when it already exists),
and record `EdgeAdded` on the theory trail when a new pair was created.
Returns `(id, created)`. -/
def StnTheory.add_inactive_constraint (stn : StnTheory) (source target : Nat)
    (weight : Int) : (Nat × Bool) × StnTheory :=
  let stn := if stn.num_nodes ≤ max source target
    then stn.reserve_until source target else stn
  let r := stn.constraints.push_edge source target weight
  let created := r.1.1
  let id := r.1.2
  let stn := { stn with constraints := r.2 }
  if created then ((id, created), { stn with trail := stn.trail.push StnEvent.edgeAdded })
  else ((id, created), stn)

/-- `StnTheory::mark_active(edge, enabler)`: enqueue the activation of
both directional views. -/
def StnTheory.mark_active (stn : StnTheory) (edge : Nat) (enabler : Bound) : StnTheory :=
  { stn with pending_activations := stn.pending_activations ++
      [ActivationEvent.toActivate (DirEdge.forward edge) enabler,
       ActivationEvent.toActivate (DirEdge.backward edge) enabler] }

/-- `StnTheory::add_reified_edge(literal, source, target, weight, model)`:
add the inactive constraint; if the literal is already entailed (the
source asserts this only happens at decision level 0) mark the edge
active, otherwise record the literal as enabler of both views of the edge
and its negation as enabler of both views of the negated edge. -/
def StnTheory.add_reified_edge (stn : StnTheory) (literal : Bound)
    (source target : Nat) (weight : Int) (model : DiscreteModel) : Nat × StnTheory :=
  let r := stn.add_inactive_constraint source target weight
  let e := r.1.1
  let stn := r.2
  if model.entails literal then
    (e, stn.mark_active e literal)
  else
    (e, { stn with constraints :=
      (stn.constraints.add_enabler e literal).add_enabler (EdgeId.not e) literal.not })

/-- `StnTheory::active(dir_edge)`. -/
def StnTheory.active (stn : StnTheory) (e : Nat) : Bool :=
  (stn.constraints.constraints.getD e default).enabler.isSome

/-- `StnTheory::has_edges(var)`. -/
def StnTheory.has_edges (stn : StnTheory) (v : Nat) : Bool :=
  decide (v < stn.num_nodes)

/-- `StnTheory::build_contradiction(culprits, model)`: the enablers of the
culprit edges. -/
def StnTheory.build_contradiction (stn : StnTheory) (culprits : List Nat) : Contradiction :=
  Contradiction.explanation (culprits.map fun e =>
    ((stn.constraints.constraints.getD e default).enabler).getD default)

/-! ## Claim C10: `push_edge` unification is idempotent -/

/-- The forward view of an edge converts back to the edge itself. -/
theorem dirConstraint_forward_as_edge (e : Edge) :
    (DirConstraint.forward e).as_edge = e := by
  obtain ⟨s, t, w⟩ := e
  simp only [DirConstraint.forward, DirConstraint.as_edge, VarBound.ub, VarBound.is_ub,
    VarBound.var, BoundValueAdd.on_ub, BoundValueAdd.as_ub_add]
  rw [if_pos (by simp only [decide_eq_true_eq]; omega)]
  simp only [Edge.mk.injEq]
  refine ⟨?_, ?_, trivial⟩ <;> omega

/-- `Edge::negated` is an involution. -/
theorem edge_negated_negated (e : Edge) : e.negated.negated = e := by
  obtain ⟨s, t, w⟩ := e
  simp only [Edge.negated, Edge.mk.injEq]
  exact ⟨trivial, trivial, by omega⟩

/-- The negation of a non-canonical edge is canonical. -/
theorem edge_negated_canonical (e : Edge) (h : e.is_canonical = false) :
    e.negated.is_canonical = true := by
  obtain ⟨s, t, w⟩ := e
  simp only [Edge.is_canonical, Edge.negated, Bool.or_eq_false_iff, Bool.and_eq_false_iff,
    decide_eq_false_iff_not, not_lt] at h
  simp only [Edge.is_canonical, Edge.negated, Bool.or_eq_true, Bool.and_eq_true,
    decide_eq_true_eq]
  rcases h with ⟨hle, h2⟩
  rcases Nat.lt_or_ge t s with hts | hts
  · left; exact hts
  · have hst : s = t := by omega
    rcases h2 with hne | hw
    · exact absurd hst hne
    · right
      refine ⟨hst.symm, by omega⟩


/-- **C10.** Edge unification is idempotent: if the canonicalised edge is
already present in the lookup table (`find_existing` succeeds), then
`push_edge(s, t, w)` returns `(false, id)` with the existing id and leaves
the store unchanged; and for any two successive `push_edge` calls with
identical arguments (on a well-formed store whose directional-constraint
count is a multiple of 4), the second returns `(false, id)` with the id
returned by the first and changes nothing. -/
theorem constraintDb_push_edge_idempotent (db : ConstraintDb) (s t : Nat) (w : Int) :
    (∀ id, db.find_existing (Edge.new s t w) = some id →
      db.push_edge s t w = ((false, id), db)) ∧
    (db.constraints.length % 4 = 0 →
      (db.push_edge s t w).2.push_edge s t w
        = ((false, (db.push_edge s t w).1.2), (db.push_edge s t w).2)) := by
  have hfound : ∀ (db2 : ConstraintDb) (id : Nat),
      db2.find_existing (Edge.new s t w) = some id →
      db2.push_edge s t w = ((false, id), db2) := by
    intro db2 id h
    simp only [ConstraintDb.push_edge, h]
  refine ⟨hfound db, ?_⟩
  intro h4
  rcases hfe : db.find_existing (Edge.new s t w) with _ | id
  · -- the first call creates the pair; the second finds it
    have hpush : db.push_edge s t w
        = ((true, DirEdge.edge (if (Edge.new s t w).is_negated
              then db.constraints.length + 2 else db.constraints.length)),
           { db with
             constraints := db.constraints ++
               [(ConstraintPair.new_inactives (Edge.new s t w)).base_forward,
                (ConstraintPair.new_inactives (Edge.new s t w)).base_backward,
                (ConstraintPair.new_inactives (Edge.new s t w)).negated_forward,
                (ConstraintPair.new_inactives (Edge.new s t w)).negated_backward],
             lookup := ((ConstraintPair.new_inactives (Edge.new s t w)).base_forward.as_edge,
               EdgeId.base_id (DirEdge.edge db.constraints.length)) :: db.lookup }) := by
      simp only [ConstraintDb.push_edge, hfe]
    rw [hpush]
    apply hfound
    -- compute find_existing on the grown store
    by_cases hcan : (Edge.new s t w).is_canonical = true
    · have hbase : (ConstraintPair.new_inactives (Edge.new s t w)).base_forward.as_edge
          = Edge.new s t w := by
        unfold ConstraintPair.new_inactives
        rw [if_pos hcan]
        exact dirConstraint_forward_as_edge _
      have hneg : (Edge.new s t w).is_negated = false := by
        simp [Edge.is_negated, hcan]
      unfold ConstraintDb.find_existing
      rw [if_pos hcan]
      simp only [ConstraintDb.lookup_get, List.find?_cons]
      rw [hbase]
      simp only [decide_True, Option.map_some']
      rw [hneg]
      simp only [Bool.false_eq_true, if_false, Option.some.injEq]
      unfold EdgeId.new EdgeId.base_id DirEdge.edge
      simp only [Bool.false_eq_true, if_false]
      omega
    · have hcan' : (Edge.new s t w).is_canonical = false := by
        simpa using hcan
      have hbase : (ConstraintPair.new_inactives (Edge.new s t w)).base_forward.as_edge
          = (Edge.new s t w).negated := by
        unfold ConstraintPair.new_inactives
        rw [if_neg (by simp [hcan'])]
        exact dirConstraint_forward_as_edge _
      have hneg : (Edge.new s t w).is_negated = true := by
        simp [Edge.is_negated, hcan']
      unfold ConstraintDb.find_existing
      rw [if_neg (by simp [hcan'])]
      simp only [ConstraintDb.lookup_get, List.find?_cons]
      rw [hbase]
      simp only [decide_True, Option.map_some']
      rw [hneg]
      simp only [if_true, Option.some.injEq]
      unfold EdgeId.new EdgeId.base_id DirEdge.edge
      simp only [if_true]
      omega
  · -- already present: both calls are no-ops with the same id
    have h1 := hfound db id hfe
    rw [h1]
    exact hfound db id hfe

/-- Witness for C10: pushing `b - a ≤ 3` twice on an empty store returns
the same id (0) and the second call changes nothing; and `find_existing`
on the grown store succeeds. -/
theorem constraintDb_push_edge_idempotent_witness :
    ((ConstraintDb.new.push_edge 0 1 3).2.push_edge 0 1 3
        = ((false, (ConstraintDb.new.push_edge 0 1 3).1.2),
           (ConstraintDb.new.push_edge 0 1 3).2)) ∧
      (ConstraintDb.new.push_edge 0 1 3).2.push_edge 0 1 3
        = ((false, 0), (ConstraintDb.new.push_edge 0 1 3).2) :=
  ⟨(constraintDb_push_edge_idempotent ConstraintDb.new 0 1 3).2 (by decide),
   ((constraintDb_push_edge_idempotent (ConstraintDb.new.push_edge 0 1 3).2 0 1 3).1
      0 (by decide))⟩

/-! ## Claim C5: `add_reified_edge` -/

/-- `add_directed_enabler` records the literal in the constraint's enabler
list and in the watches. -/
theorem add_directed_enabler_mem (db : ConstraintDb) (edge : Nat) (literal : Bound)
    (h : edge < db.constraints.length) :
    literal ∈ ((db.add_directed_enabler edge literal).constraints.getD edge default).enablers ∧
      (edge, literal) ∈ (db.add_directed_enabler edge literal).watches.entries := by
  unfold ConstraintDb.add_directed_enabler
  constructor
  · simp only [list_getD_set_self _ _ _ _ h]
    exact List.mem_append_right _ (List.mem_singleton.mpr rfl)
  · unfold Watches.add_watch
    exact List.mem_append_right _ (List.mem_singleton.mpr rfl)

/-- `add_directed_enabler` keeps the constraint count. -/
theorem add_directed_enabler_length (db : ConstraintDb) (edge : Nat) (literal : Bound) :
    (db.add_directed_enabler edge literal).constraints.length
      = db.constraints.length := by
  unfold ConstraintDb.add_directed_enabler
  simp

/-- `add_directed_enabler` touches no other constraint. -/
theorem add_directed_enabler_other (db : ConstraintDb) (edge : Nat) (literal : Bound)
    (j : Nat) (hne : j ≠ edge) :
    (db.add_directed_enabler edge literal).constraints.getD j default
      = db.constraints.getD j default := by
  unfold ConstraintDb.add_directed_enabler
  exact list_getD_set_ne _ _ _ _ _ (fun he => hne he.symm)

/-- Arithmetic facts about the polarity flip of an edge id. -/
theorem edgeId_not_facts (e : Nat) :
    EdgeId.not e ≠ e ∧ EdgeId.base_id (EdgeId.not e) = EdgeId.base_id e ∧
      ((EdgeId.not e = e + 1 ∧ e % 2 = 0) ∨ (EdgeId.not e + 1 = e ∧ e % 2 = 1)) := by
  unfold EdgeId.not EdgeId.base_id
  split <;> rename_i h
  · refine ⟨by omega, by omega, Or.inl ⟨rfl, h⟩⟩
  · refine ⟨by omega, by omega, Or.inr ⟨by omega, by omega⟩⟩

/-- **C5.** Contract of `add_reified_edge(lit, s, t, w)`: when `lit` is
already entailed (the source asserts this only happens at decision level
0), the edge is marked active unconditionally — both directional views are
queued for activation enabled by `lit` and the constraint store is left
untouched; otherwise `lit` is recorded as an enabler of both the forward
and backward views of the edge, and `¬lit` as an enabler of both views of
the negated edge.  (The range hypothesis states that the four directional
views of the returned edge id exist in the store, which `push_edge`
guarantees.) -/
theorem stn_add_reified_edge_contract (stn : StnTheory) (literal : Bound)
    (s t : Nat) (w : Int) (model : DiscreteModel) :
    (model.entails literal = true → model.entailing_level literal = 0 →
      (stn.add_reified_edge literal s t w model).2.pending_activations
        = (stn.add_inactive_constraint s t w).2.pending_activations ++
          [ActivationEvent.toActivate
             (DirEdge.forward (stn.add_inactive_constraint s t w).1.1) literal,
           ActivationEvent.toActivate
             (DirEdge.backward (stn.add_inactive_constraint s t w).1.1) literal] ∧
      (stn.add_reified_edge literal s t w model).2.constraints
        = (stn.add_inactive_constraint s t w).2.constraints) ∧
    (model.entails literal = false →
      4 * EdgeId.base_id (stn.add_inactive_constraint s t w).1.1 + 4
          ≤ (stn.add_inactive_constraint s t w).2.constraints.constraints.length →
      (literal ∈ ((stn.add_reified_edge literal s t w model).2.constraints.constraints.getD
          (DirEdge.forward (stn.add_inactive_constraint s t w).1.1) default).enablers ∧
        literal ∈ ((stn.add_reified_edge literal s t w model).2.constraints.constraints.getD
          (DirEdge.backward (stn.add_inactive_constraint s t w).1.1) default).enablers) ∧
      (Bound.not literal ∈
          ((stn.add_reified_edge literal s t w model).2.constraints.constraints.getD
            (DirEdge.forward (EdgeId.not (stn.add_inactive_constraint s t w).1.1))
            default).enablers ∧
        Bound.not literal ∈
          ((stn.add_reified_edge literal s t w model).2.constraints.constraints.getD
            (DirEdge.backward (EdgeId.not (stn.add_inactive_constraint s t w).1.1))
            default).enablers)) := by
  constructor
  · intro hent _
    unfold StnTheory.add_reified_edge
    rw [if_pos hent]
    exact ⟨rfl, rfl⟩
  · intro hent hrange
    unfold StnTheory.add_reified_edge
    rw [if_neg (by simp [hent])]
    unfold ConstraintDb.add_enabler
    set e := (stn.add_inactive_constraint s t w).1.1 with he
    set db0 := (stn.add_inactive_constraint s t w).2.constraints with hdb0
    obtain ⟨hnn, _, hcases⟩ := edgeId_not_facts e
    have hb : EdgeId.base_id e = e / 2 := rfl
    rw [hb] at hrange
    have hfe : DirEdge.forward e = 2 * e := rfl
    have hbe : DirEdge.backward e = 2 * e + 1 := rfl
    have hfn : DirEdge.forward (EdgeId.not e) = 2 * EdgeId.not e := rfl
    have hbn : DirEdge.backward (EdgeId.not e) = 2 * EdgeId.not e + 1 := rfl
    set db1 := db0.add_directed_enabler (DirEdge.forward e) literal with hdb1
    set db2 := db1.add_directed_enabler (DirEdge.backward e) literal with hdb2
    set db3 := db2.add_directed_enabler (DirEdge.forward (EdgeId.not e)) literal.not
      with hdb3
    have hlen1 := add_directed_enabler_length db0 (DirEdge.forward e) literal
    have hlen2 := add_directed_enabler_length db1 (DirEdge.backward e) literal
    have hlen3 := add_directed_enabler_length db2 (DirEdge.forward (EdgeId.not e))
      literal.not
    rw [← hdb1] at hlen1
    rw [← hdb2] at hlen2
    rw [← hdb3] at hlen3
    constructor
    · constructor
      · -- literal is an enabler of the forward view of e
        have hm := (add_directed_enabler_mem db0 (DirEdge.forward e) literal
          (by omega)).1
        rw [← hdb1] at hm
        rw [add_directed_enabler_other db3 _ _ _ (by rw [hbn, hfe]; omega),
          add_directed_enabler_other db2 _ _ _ (by rw [hfn, hfe]; omega),
          add_directed_enabler_other db1 _ _ _ (by rw [hbe, hfe]; omega)]
        exact hm
      · have hm := (add_directed_enabler_mem db1 (DirEdge.backward e) literal
          (by omega)).1
        rw [← hdb2] at hm
        rw [add_directed_enabler_other db3 _ _ _ (by rw [hbn, hbe]; omega),
          add_directed_enabler_other db2 _ _ _ (by rw [hfn, hbe]; omega)]
        exact hm
    · constructor
      · have hm := (add_directed_enabler_mem db2 (DirEdge.forward (EdgeId.not e))
          literal.not (by omega)).1
        rw [← hdb3] at hm
        rw [add_directed_enabler_other db3 _ _ _ (by rw [hbn, hfn]; omega)]
        exact hm
      · exact (add_directed_enabler_mem db3 (DirEdge.backward (EdgeId.not e))
          literal.not (by omega)).1

/-- Witness for C5: both branches at concrete inputs.  With the zero
variable fixed to `[0, 0]`, the literal `x0 ≤ 0` is entailed at level 0 and
`add_reified_edge` queues both views for activation; the non-entailed
literal `x2 ≥ 1` is registered as enabler of the edge's views and its
negation as enabler of the negated edge's views. -/
theorem stn_add_reified_edge_contract_witness :
    (((StnTheory.new 0 StnConfig.default).add_reified_edge (Bound.leq 0 0) 0 1 5
        ⟨⟨[0, 0], [none, none], [], []⟩⟩).2.pending_activations
      = ((StnTheory.new 0 StnConfig.default).add_inactive_constraint 0 1 5).2.pending_activations
          ++ [ActivationEvent.toActivate
                (DirEdge.forward ((StnTheory.new 0 StnConfig.default).add_inactive_constraint
                  0 1 5).1.1) (Bound.leq 0 0),
              ActivationEvent.toActivate
                (DirEdge.backward ((StnTheory.new 0 StnConfig.default).add_inactive_constraint
                  0 1 5).1.1) (Bound.leq 0 0)]) ∧
    (Bound.geq 2 1 ∈ (((StnTheory.new 0 StnConfig.default).add_reified_edge (Bound.geq 2 1)
        0 1 5 ⟨⟨[0, 0], [none, none], [], []⟩⟩).2.constraints.constraints.getD
          (DirEdge.forward (((StnTheory.new 0 StnConfig.default).add_inactive_constraint
            0 1 5).1.1)) default).enablers ∧
      Bound.not (Bound.geq 2 1) ∈
        (((StnTheory.new 0 StnConfig.default).add_reified_edge (Bound.geq 2 1)
          0 1 5 ⟨⟨[0, 0], [none, none], [], []⟩⟩).2.constraints.constraints.getD
            (DirEdge.backward (EdgeId.not (((StnTheory.new 0 StnConfig.default
              ).add_inactive_constraint 0 1 5).1.1))) default).enablers) :=
  ⟨((stn_add_reified_edge_contract (StnTheory.new 0 StnConfig.default) (Bound.leq 0 0)
      0 1 5 ⟨⟨[0, 0], [none, none], [], []⟩⟩).1 (by decide) (by decide)).1,
   (((stn_add_reified_edge_contract (StnTheory.new 0 StnConfig.default) (Bound.geq 2 1)
      0 1 5 ⟨⟨[0, 0], [none, none], [], []⟩⟩).2 (by decide) (by decide)).1).1,
   (((stn_add_reified_edge_contract (StnTheory.new 0 StnConfig.default) (Bound.geq 2 1)
      0 1 5 ⟨⟨[0, 0], [none, none], [], []⟩⟩).2 (by decide) (by decide)).2).2⟩

/-! ## STN propagation -/

/-- Propagation outcome: the updated theory and model plus `Ok`/`Err`.
The looping functions below wrap it in `Option`, `none` marking fuel
exhaustion (`some` results are the values the Rust code computes). -/
abbrev PropRes := StnTheory × DiscreteModel × Except Contradiction Unit

/-- `RefSet::insert`. -/
def RefSet.insert (l : List Nat) (v : Nat) : List Nat :=
  if v ∈ l then l else l ++ [v]

/-- The cycle-extraction walk of `extract_cycle`: follow the implying
events of the current bounds backward through the responsible edge
propagations, collecting each edge's enabler, until the walk returns to
the starting bound.  The `unreachable!` arms of the source (causes that
are not STN edge propagations) are modelled by edge 0; the fuel (trail
length + 1) covers every real cycle. -/
def StnTheory.extract_cycle_aux (stn : StnTheory) (model : DiscreteModel) (vb : Nat) :
    Nat → Nat → List Bound → List Bound
  | 0, _, expl => expl
  | fuel + 1, curr, expl =>
    let value := model.domains.get_bound curr
    let lit := Bound.from_parts curr value
    let edge := match model.domains.implying_event lit with
      | some idx =>
        (match (model.domains.events.getD idx default).cause with
         | Cause.inference _ payload =>
           (match ModelUpdateCause.decode payload with
            | ModelUpdateCause.edgePropagation e => e
            | ModelUpdateCause.theoryPropagation _ => 0)
         | _ => 0)
      | none => 0
    let c := stn.constraints.constraints.getD edge default
    let trigger := c.enabler.getD default
    let expl := expl ++ [trigger]
    if c.source = vb then expl
    else StnTheory.extract_cycle_aux stn model vb fuel c.source expl

/-- `StnTheory::extract_cycle(vb, model)`. -/
def StnTheory.extract_cycle (stn : StnTheory) (vb : Nat) (model : DiscreteModel) :
    List Bound :=
  StnTheory.extract_cycle_aux stn model vb (model.domains.events.length + 1) vb []

/-- `dist_to_origin` of `theory_propagate_bound`: distance from the origin
(a virtual timepoint fixed at 0) implied by a bound literal. -/
def StnTheory.dist_to_origin (bound : Bound) : Int :=
  let x := bound.affected_bound
  let origin := if VarBound.is_ub x then Bound.from_parts x (BoundValue.ub 0)
    else Bound.from_parts x (BoundValue.lb 0)
  bound.bound_value - origin.bound_value

/-- The loop of `theory_propagate_bound` over the potential out-edges of
the updated bound: any inactive edge that would close a negative virtual
cycle through the origin has its enabler forced to false (recording a
`Bounds` cause). -/
def StnTheory.theory_propagate_bound_aux (stn : StnTheory) (model : DiscreteModel)
    (bound : Bound) (dist_o_x : Int) : List EdgeTarget → PropRes
  | [] => (stn, model, Except.ok ())
  | out :: rest =>
    if model.entails (Bound.not out.enabler) then
      StnTheory.theory_propagate_bound_aux stn model bound dist_o_x rest
    else
      let y := out.target
      let w := out.weight
      let y_sym := VarBound.symmetric_bound y
      let y_sym_lit := Bound.from_parts y_sym (model.domains.get_bound y_sym)
      let dist_y_o := StnTheory.dist_to_origin y_sym_lit
      let cycle_length := dist_o_x + w + dist_y_o
      if BoundValueAdd.raw_value cycle_length < 0 then
        let cause_index := stn.theory_propagation_causes.length
        let stn := { stn with
          theory_propagation_causes := stn.theory_propagation_causes ++
            [TheoryPropagationCause.bounds bound y_sym_lit],
          trail := stn.trail.push StnEvent.addedTheoryPropagationCause }
        let cause := Cause.inference stn.identity
          (ModelUpdateCause.encode (ModelUpdateCause.theoryPropagation cause_index))
        match model.domains.set (Bound.not out.enabler) cause with
        | (d, Except.error e) => (stn, ⟨d⟩, Except.error (Contradiction.fromEmptyDomain e))
        | (d, Except.ok _) =>
          StnTheory.theory_propagate_bound_aux stn ⟨d⟩ bound dist_o_x rest
      else
        StnTheory.theory_propagate_bound_aux stn model bound dist_o_x rest

/-- `StnTheory::theory_propagate_bound(bound, model)`. -/
def StnTheory.theory_propagate_bound (stn : StnTheory) (model : DiscreteModel)
    (bound : Bound) : PropRes :=
  StnTheory.theory_propagate_bound_aux stn model bound (StnTheory.dist_to_origin bound)
    (stn.constraints.potential_out_edges bound.affected_bound)

/-! ### Reduced-cost Dijkstra

`DijkstraState` lives in `tnet/src/distances.rs`, which is absent from the
sources; it is modelled from the spec ("run single-source shortest-path
computations … using Dijkstra over reduced costs"): a candidate queue of
(reduced distance, node) pairs and the settled distances. -/

/-- Modelled from the spec: the priority queue and settled-distance map of
the Dijkstra scratch state (`tnet/src/distances.rs` is not in the
sources). -/
structure DijkstraState where
  queue : List (Int × Nat)
  distances : List (Nat × Int)
deriving DecidableEq, Repr

/-- A node with a settled distance. -/
def DijkstraState.is_final (s : DijkstraState) (n : Nat) : Bool :=
  (s.distances.find? fun p => p.1 = n).isSome

/-- Enqueue a candidate. -/
def DijkstraState.enqueue (s : DijkstraState) (n : Nat) (d : Int) : DijkstraState :=
  { s with queue := s.queue ++ [(d, n)] }

/-- Minimum entry of the candidate queue. -/
def DijkstraState.min_entry (l : List (Int × Nat)) : Option (Int × Nat) :=
  l.foldl (fun acc x => match acc with
    | none => some x
    | some m => if x.1 < m.1 then some x else some m) none

/-- Pop the closest unsettled candidate, settling it. -/
def DijkstraState.dequeue_aux : Nat → DijkstraState → Option ((Nat × Int) × DijkstraState)
  | 0, _ => none
  | fuel + 1, s =>
    match DijkstraState.min_entry s.queue with
    | none => none
    | some (d, n) =>
      let s1 : DijkstraState := { s with queue := s.queue.erase (d, n) }
      if s1.is_final n then DijkstraState.dequeue_aux fuel s1
      else some ((n, d), { s1 with distances := s1.distances ++ [(n, d)] })

/-- `DijkstraState::dequeue`. -/
def DijkstraState.dequeue (s : DijkstraState) : Option ((Nat × Int) × DijkstraState) :=
  DijkstraState.dequeue_aux s.queue.length s

/-- The main loop of `distances_from`: settle nodes in order of reduced
distance, relaxing the active propagators out of each settled node. -/
def StnTheory.distances_from_loop (stn : StnTheory) (model : DiscreteModel) :
    Nat → DijkstraState → DijkstraState
  | 0, s => s
  | fuel + 1, s =>
    match s.dequeue with
    | none => s
    | some ((curr_node, curr_rdist), s) =>
      let curr_bound := model.domains.get_bound curr_node
      let s := (stn.active_propagators.getD curr_node []).foldl
        (fun s prop =>
          if s.is_final prop.target then s
          else
            let target_bound := model.domains.get_bound prop.target
            let reduced_cost := prop.weight + (curr_bound - target_bound)
            s.enqueue prop.target (curr_rdist + reduced_cost)) s
      StnTheory.distances_from_loop stn model fuel s

/-- `StnTheory::distances_from(origin, model)`: one-to-all shortest paths
using reduced costs, converted back to true distances at the end. -/
def StnTheory.distances_from (stn : StnTheory) (model : DiscreteModel) (origin : Nat) :
    DijkstraState :=
  let s := StnTheory.distances_from_loop stn model (stn.active_propagators.length + 1)
    ⟨[((0 : Int), origin)], []⟩
  { s with distances := s.distances.map fun p =>
      (p.1, p.2 + (model.domains.get_bound p.1 - model.domains.get_bound origin)) }

/-- Inner loop of `theory_propagate_edge`: for one predecessor of the new
edge, examine every potential edge targeting it and force to false any
that would close a negative cycle (recording a `Path` cause). -/
def StnTheory.tpe_inner (stn : StnTheory) (model : DiscreteModel) (cweight : Int)
    (pred : Nat) (pred_dist : Int) (successors : DijkstraState) :
    List EdgeTarget → PropRes
  | [] => (stn, model, Except.ok ())
  | potential :: rest =>
    match successors.distances.find? fun p =>
        p.1 = VarBound.symmetric_bound potential.target with
    | none => StnTheory.tpe_inner stn model cweight pred pred_dist successors rest
    | some fd =>
      let forward_dist := fd.2
      let back_dist := pred_dist + potential.weight
      let total_dist := back_dist + cweight + forward_dist
      if BoundValueAdd.raw_value total_dist < 0 &&
          !(model.domains.entails (Bound.not potential.enabler)) then
        let cause_index := stn.theory_propagation_causes.length
        let stn := { stn with
          theory_propagation_causes := stn.theory_propagation_causes ++
            [TheoryPropagationCause.path (VarBound.symmetric_bound pred)
              (VarBound.symmetric_bound potential.target)],
          trail := stn.trail.push StnEvent.addedTheoryPropagationCause }
        match model.domains.set (Bound.not potential.enabler)
            (Cause.inference stn.identity
              (ModelUpdateCause.encode (ModelUpdateCause.theoryPropagation cause_index))) with
        | (d, Except.error e) => (stn, ⟨d⟩, Except.error (Contradiction.fromEmptyDomain e))
        | (d, Except.ok _) =>
          StnTheory.tpe_inner stn ⟨d⟩ cweight pred pred_dist successors rest
      else StnTheory.tpe_inner stn model cweight pred pred_dist successors rest

/-- Outer loop of `theory_propagate_edge` over the predecessors. -/
def StnTheory.tpe_outer (stn : StnTheory) (model : DiscreteModel) (cweight : Int)
    (successors : DijkstraState) : List (Nat × Int) → PropRes
  | [] => (stn, model, Except.ok ())
  | (pred, pred_dist) :: rest =>
    match StnTheory.tpe_inner stn model cweight pred pred_dist successors
        (stn.constraints.potential_out_edges pred) with
    | (stn, model, Except.ok ()) =>
      StnTheory.tpe_outer stn model cweight successors rest
    | err => err

/-- `StnTheory::theory_propagate_edge(edge, model)`: find the shortest
paths through the new edge and disable any inactive edge that would close
a negative cycle with one of them. -/
def StnTheory.theory_propagate_edge (stn : StnTheory) (model : DiscreteModel)
    (edge : Nat) : PropRes :=
  let constraint := stn.constraints.constraints.getD edge default
  let successors := stn.distances_from model constraint.target
  let predecessors := stn.distances_from model (VarBound.symmetric_bound constraint.source)
  StnTheory.tpe_outer stn model constraint.weight successors predecessors.distances

/-- `StnTheory::clean_up_propagation_state`. -/
def StnTheory.clean_up_propagation_state (stn : StnTheory) : StnTheory :=
  { stn with
    pending_updates := stn.pending_updates.filter
      fun v => !(decide (v ∈ stn.internal_propagate_queue)),
    internal_propagate_queue := [] }

/-- The `for e in &self.active_propagators[source]` loop of
`run_propagation_loop`: relax each propagator out of `source` against the
bound read at pop time; a changed target is re-enqueued, and reaching the
original bound with `cycle_on_update` reports the extracted negative
cycle. -/
def StnTheory.prop_targets (stn : StnTheory) (model : DiscreteModel)
    (cycle_on_update : Bool) (original source : Nat) (source_bound : Int) :
    List Propagator → PropRes
  | [] => (stn, model, Except.ok ())
  | e :: rest =>
    let cause := Cause.inference stn.identity
      (ModelUpdateCause.encode (ModelUpdateCause.edgePropagation e.id))
    let target := e.target
    let candidate := source_bound + e.weight
    match model.domains.set_bound target candidate cause with
    | (d, Except.error em) => (stn, ⟨d⟩, Except.error (Contradiction.fromEmptyDomain em))
    | (d, Except.ok changed) =>
      if changed then
        let stn := { stn with stats :=
          { stn.stats with distance_updates := stn.stats.distance_updates + 1 } }
        if cycle_on_update && decide (target = original) then
          (stn, ⟨d⟩, Except.error (Contradiction.explanation
            (stn.extract_cycle target ⟨d⟩)))
        else
          let stn := { stn with
            internal_propagate_queue := stn.internal_propagate_queue ++ [target],
            pending_updates := RefSet.insert stn.pending_updates target }
          StnTheory.prop_targets stn ⟨d⟩ cycle_on_update original source source_bound rest
      else StnTheory.prop_targets stn ⟨d⟩ cycle_on_update original source source_bound rest

/-- The worklist loop of `run_propagation_loop`. -/
def StnTheory.prop_queue_loop (cycle_on_update : Bool) (original : Nat) :
    Nat → StnTheory → DiscreteModel → Option PropRes
  | 0, _, _ => none
  | fuel + 1, stn, model =>
    match stn.internal_propagate_queue with
    | [] => some (stn, model, Except.ok ())
    | source :: qrest =>
      let stn := { stn with internal_propagate_queue := qrest }
      let source_bound := model.domains.get_bound source
      if source ∈ stn.pending_updates then
        let stn := { stn with
          pending_updates := stn.pending_updates.filter fun v => !(decide (v = source)) }
        match StnTheory.prop_targets stn model cycle_on_update original source source_bound
            (stn.active_propagators.getD source []) with
        | (stn, model, Except.ok ()) =>
          StnTheory.prop_queue_loop cycle_on_update original fuel stn model
        | err => some err
      else StnTheory.prop_queue_loop cycle_on_update original fuel stn model

/-- `StnTheory::run_propagation_loop(original, model, cycle_on_update)`. -/
def StnTheory.run_propagation_loop (fuel : Nat) (stn : StnTheory)
    (model : DiscreteModel) (original : Nat) (cycle_on_update : Bool) :
    Option PropRes :=
  let stn := stn.clean_up_propagation_state
  let stn := { stn with
    stats := { stn.stats with num_propagations := stn.stats.num_propagations + 1 },
    internal_propagate_queue := [original],
    pending_updates := RefSet.insert stn.pending_updates original }
  StnTheory.prop_queue_loop cycle_on_update original fuel stn model

/-- `StnTheory::propagate_bound_change(bound, model)`. -/
def StnTheory.propagate_bound_change (fuel : Nat) (stn : StnTheory)
    (model : DiscreteModel) (bound : Bound) : Option PropRes :=
  if !(stn.has_edges (Bound.var bound)) then some (stn, model, Except.ok ())
  else stn.run_propagation_loop fuel model bound.affected_bound false

/-- `StnTheory::propagate_new_edge(new_edge, model)` ([Cesta96]). -/
def StnTheory.propagate_new_edge (fuel : Nat) (stn : StnTheory)
    (model : DiscreteModel) (new_edge : Nat) : Option PropRes :=
  let c := stn.constraints.constraints.getD new_edge default
  let cause := Cause.inference stn.identity
    (ModelUpdateCause.encode (ModelUpdateCause.edgePropagation new_edge))
  let source_bound := model.domains.get_bound c.source
  match model.domains.set_bound c.target (source_bound + c.weight) cause with
  | (d, Except.error e) =>
    some (stn, ⟨d⟩, Except.error (Contradiction.fromEmptyDomain e))
  | (d, Except.ok changed) =>
    if changed then stn.run_propagation_loop fuel ⟨d⟩ c.target true
    else some (stn, ⟨d⟩, Except.ok ())

/-- Whether a model event was produced by this theory's own edge
propagation (such events are skipped by the event-drain loop: they were
handled immediately by the propagation loop that produced them). -/
def Cause.is_own_edge_propagation (ident : Nat) (c : Cause) : Bool :=
  match c with
  | Cause.inference writer payload =>
    decide (writer = ident) &&
      (match ModelUpdateCause.decode payload with
       | ModelUpdateCause.edgePropagation _ => true
       | ModelUpdateCause.theoryPropagation _ => false)
  | _ => false

/-- See `Cause.is_own_edge_propagation`. -/
def StnTheory.own_edge_propagation (stn : StnTheory) (c : Cause) : Bool :=
  Cause.is_own_edge_propagation stn.identity c

/-- The first inner loop of `propagate_all`: drain pending model events;
for each, queue the watched activations, run bound-driven theory
propagation when enabled, and propagate the bound change (unless the event
was produced by this theory's own edge propagation). -/
def StnTheory.drain_events : Nat → StnTheory → DiscreteModel → Option PropRes
  | 0, _, _ => none
  | fuel + 1, stn, model =>
    if stn.model_events < model.domains.events.length then
      let ev := model.domains.events.getD stn.model_events default
      let stn := { stn with model_events := stn.model_events + 1 }
      let literal := ev.new_literal
      let stn := { stn with pending_activations := stn.pending_activations ++
        ((stn.constraints.watches.watches_on literal).map
          fun edge => ActivationEvent.toActivate edge literal) }
      match (if stn.config.theory_propagation.boundsEnabled then
          stn.theory_propagate_bound model literal
        else (stn, model, Except.ok ())) with
      | (stn, model, Except.ok ()) =>
        if stn.own_edge_propagation ev.cause then
          StnTheory.drain_events fuel stn model
        else
          match StnTheory.propagate_bound_change fuel stn model literal with
          | none => none
          | some (stn, model, Except.ok ()) => StnTheory.drain_events fuel stn model
          | some err => some err
      | err => some err
    else some (stn, model, Except.ok ())

/-- The second inner loop of `propagate_all`: drain pending activations.
A newly enabled non-self-loop edge is added to the active propagators,
recorded on the theory trail, propagated ([Cesta96]), and — when enabled —
submitted to edge-driven theory propagation.  A tightening self-loop is an
immediate contradiction; a non-tightening one is ignored. -/
def StnTheory.drain_activations : Nat → StnTheory → DiscreteModel → Option PropRes
  | 0, _, _ => none
  | fuel + 1, stn, model =>
    match stn.pending_activations with
    | [] => some (stn, model, Except.ok ())
    | ActivationEvent.toActivate edge enabler :: rest =>
      let stn := { stn with pending_activations := rest }
      let c := stn.constraints.constraints.getD edge default
      if c.enabler.isNone then
        let stn := { stn with constraints := { stn.constraints with
          constraints := stn.constraints.constraints.set edge
            { c with enabler := some enabler } } }
        if c.source = c.target then
          if BoundValueAdd.is_tightening c.weight then
            let stn := { stn with explanation := [edge] }
            some (stn, model, Except.error (stn.build_contradiction [edge]))
          else StnTheory.drain_activations fuel stn model
        else
          let stn := { stn with
            active_propagators := stn.active_propagators.set c.source
              (stn.active_propagators.getD c.source [] ++ [⟨c.target, c.weight, edge⟩]),
            trail := stn.trail.push (StnEvent.edgeActivated edge) }
          match StnTheory.propagate_new_edge fuel stn model edge with
          | none => none
          | some (stn, model, Except.ok ()) =>
            if stn.config.theory_propagation.edgesEnabled then
              match stn.theory_propagate_edge model edge with
              | (stn, model, Except.ok ()) => StnTheory.drain_activations fuel stn model
              | err => some err
            else StnTheory.drain_activations fuel stn model
          | some err => some err
      else StnTheory.drain_activations fuel stn model

/-- `StnTheory::propagate_all(model)`: alternate draining model events and
pending activations until both are empty. -/
def StnTheory.propagate_all : Nat → StnTheory → DiscreteModel → Option PropRes
  | 0, _, _ => none
  | fuel + 1, stn, model =>
    if stn.model_events < model.domains.events.length ∨ stn.pending_activations ≠ [] then
      match StnTheory.drain_events fuel stn model with
      | none => none
      | some (stn, model, Except.ok ()) =>
        match StnTheory.drain_activations fuel stn model with
        | none => none
        | some (stn, model, Except.ok ()) => StnTheory.propagate_all fuel stn model
        | some err => some err
      | some err => some err
    else some (stn, model, Except.ok ())

/-! ## Claim C4: the simple-propagation scenario -/

/-- The model of the scenario: the reserved zero variable (var 0, fixed to
`[0, 0]`) and the timepoints `a = var 1` and `b = var 2`, both `[0, 10]`. -/
def c4_model : DiscreteModel :=
  ⟨⟨[0, 0, 0, 10, 0, 10], [none, none, none, none, none, none], [], []⟩⟩

/-- The theory of the scenario: a fresh STN (default configuration) with
the edge `b - a ≤ 5` added reified to the entailed literal `x0 ≤ 0`
(hence queued for activation). -/
def c4_stn : StnTheory :=
  ((StnTheory.new 0 StnConfig.default).add_reified_edge (Bound.leq 0 0) 1 2 5 c4_model).2

/-- The model after `set_ub(a) = 3`. -/
def c4_model2 : DiscreteModel :=
  ⟨(c4_model.domains.set_ub 1 3 Cause.decision).1⟩

/-- **C4.** Simple propagation: from a fresh STN with `a, b ∈ [0, 10]`,
after activating `b - a ≤ 5`, setting `ub(a) = 3` and running
`propagate_all`, propagation succeeds and the bounds are `ub(b) = 8`,
`ub(a) = 3`, `lb(a) = 0`, `lb(b) = 0`. -/
theorem stn_simple_propagation_scenario :
    (StnTheory.propagate_all 50 c4_stn c4_model2).map
        (fun r => (r.2.2.isOk, Domains.ub r.2.1.domains 2, Domains.ub r.2.1.domains 1,
          Domains.lb r.2.1.domains 1, Domains.lb r.2.1.domains 2))
      = some (true, 8, 3, 0, 0) := by
  rfl

/-! ## STN backtracking and explanations -/

/-- `StnTheory::set_backtrack_point` (the source asserts that no
activations are pending). -/
def StnTheory.set_backtrack_point (stn : StnTheory) : StnTheory :=
  { stn with trail := { stn.trail with
      saved := stn.trail.events.length :: stn.trail.saved } }

/-- `StnTheory::undo_last_event`: pop one theory-trail event
(`Trail::pop_within_level`) and undo it.  On an empty trail the source
panics on `unwrap`; here the state is returned unchanged (the theorems
using this assume a non-empty trail). -/
def StnTheory.undo_last_event (stn : StnTheory) : StnTheory :=
  match stn.trail.events.getLast? with
  | none => stn
  | some ev =>
    let stn := { stn with trail := { stn.trail with events := stn.trail.events.dropLast } }
    match ev with
    | StnEvent.edgeAdded => { stn with constraints := stn.constraints.pop_last }
    | StnEvent.edgeActivated e =>
      let c := stn.constraints.constraints.getD e default
      { stn with
        active_propagators := stn.active_propagators.set c.source
          ((stn.active_propagators.getD c.source []).dropLast),
        constraints := { stn.constraints with
          constraints := stn.constraints.constraints.set e { c with enabler := none } } }
    | StnEvent.addedTheoryPropagationCause =>
      { stn with theory_propagation_causes := stn.theory_propagation_causes.dropLast }

/-- `StnTheory::undo_to_last_backtrack_point`: clear pending activations
and undo the trail down to the last marker. -/
def StnTheory.undo_to_last_backtrack_point (stn : StnTheory) : StnTheory :=
  let stn := { stn with pending_activations := [] }
  match stn.trail.saved with
  | [] => stn
  | m :: rest =>
    let stn := { stn with trail := { stn.trail with saved := rest } }
    (stn.trail.events.length - m).fold (fun _ s => s.undo_last_event) stn

/-- The propagator responsible for a literal being set, or `None` when it
was not set by an STN bound propagation (the closure `propagator_of` of
`explain_bound_propagation`). -/
def StnTheory.propagator_of (stn : StnTheory) (model : DiscreteModel) (lit : Bound) :
    Option Nat :=
  match model.domains.implying_event lit with
  | some idx =>
    (match (model.domains.events.getD idx default).cause with
     | Cause.inference writer payload =>
       if writer = stn.identity then
         match ModelUpdateCause.decode payload with
         | ModelUpdateCause.edgePropagation e => some e
         | ModelUpdateCause.theoryPropagation _ => none
       else none
     | _ => none)
  | none => none

/-- The deep-explanation walk: follow the chain of STN propagations
backward, pushing each propagator's enabler, until a literal not produced
by STN bound propagation is reached (returned as the primitive cause). -/
def StnTheory.deep_walk (stn : StnTheory) (model : DiscreteModel) :
    Nat → Bound → List Bound → List Bound × Bound
  | 0, trigger, out => (out, trigger)
  | fuel + 1, trigger, out =>
    match stn.propagator_of model trigger with
    | none => (out, trigger)
    | some prop =>
      let c := stn.constraints.constraints.getD prop default
      StnTheory.deep_walk stn model fuel
        (Bound.from_parts c.source (trigger.bound_value - c.weight))
        (out ++ [c.enabler.getD default])

/-- `StnTheory::explain_bound_propagation(event, propagator, model, out)`:
push the edge's enabler and the cause literal on the source side
(`source ≤ event.value - weight`), deepened when configured. -/
def StnTheory.explain_bound_propagation (stn : StnTheory) (event : Bound)
    (propagator : Nat) (model : DiscreteModel) (out : List Bound) : List Bound :=
  let c := stn.constraints.constraints.getD propagator default
  let val := event.bound_value
  let literal := c.enabler.getD default
  let out := out ++ [literal]
  let cause := Bound.from_parts c.source (val - c.weight)
  if stn.config.deep_explanation then
    let r := stn.deep_walk model (model.domains.events.length + 1) cause out
    r.1 ++ [r.2]
  else out ++ [cause]

/-- Rebuild the path from the predecessors map of `shortest_path`. -/
def StnTheory.rebuild_path (stn : StnTheory) (preds : List (Nat × Nat)) :
    Nat → Nat → List Nat → List Nat
  | 0, _, path => path
  | fuel + 1, curr, path =>
    match preds.find? fun p => p.1 = curr with
    | none => path
    | some pr =>
      StnTheory.rebuild_path stn preds fuel
        (stn.constraints.constraints.getD pr.2 default).source (path ++ [pr.2])

/-- The Dijkstra loop of `StnTheory::shortest_path`: returns the
predecessors map once the target is settled, `None` when the queue runs
dry. -/
def StnTheory.shortest_path_loop (stn : StnTheory) (model : DiscreteModel)
    (origin target : Nat) :
    Nat → List (Int × Nat × Option Nat) → List (Nat × Nat) →
      Option (List (Nat × Nat))
  | 0, _, _ => none
  | fuel + 1, queue, preds =>
    match queue.foldl (fun acc x => match acc with
      | none => some x
      | some m => if x.1 < m.1 then some x else some m) none with
    | none => none
    | some curr =>
      let queue := queue.erase curr
      if (preds.find? fun p => p.1 = curr.2.1).isSome then
        StnTheory.shortest_path_loop stn model origin target fuel queue preds
      else
        let preds := match curr.2.2 with
          | some in_edge =>
            if curr.2.1 ≠ origin then preds ++ [(curr.2.1, in_edge)] else preds
          | none => preds
        if curr.2.1 = target then some preds
        else
          let curr_bound := model.domains.get_bound curr.2.1
          let queue := (stn.active_propagators.getD curr.2.1 []).foldl
            (fun q prop =>
              if (preds.find? fun p => p.1 = prop.target).isSome then q
              else
                let target_bound := model.domains.get_bound prop.target
                let reduced_cost := prop.weight + (curr_bound - target_bound)
                q ++ [(curr.1 + reduced_cost, prop.target, some prop.id)]) queue
          StnTheory.shortest_path_loop stn model origin target fuel queue preds

/-- `StnTheory::shortest_path(origin, target, model)`: shortest active
path as a set of directional edges (reduced-cost Dijkstra). -/
def StnTheory.shortest_path (stn : StnTheory) (model : DiscreteModel)
    (origin target : Nat) : Option (List Nat) :=
  if origin = target then some []
  else
    match stn.shortest_path_loop model origin target
        (stn.active_propagators.length + stn.constraints.constraints.length + 1)
        [((0 : Int), origin, none)] [] with
    | none => none
    | some preds =>
      some (stn.rebuild_path preds (preds.length + 1) target [])

/-- `StnTheory::explain_theory_propagation(cause, model, out)`. -/
def StnTheory.explain_theory_propagation (stn : StnTheory)
    (cause : TheoryPropagationCause) (model : DiscreteModel) (out : List Bound) :
    List Bound :=
  match cause with
  | TheoryPropagationCause.path source target =>
    let path := (stn.shortest_path model source target).getD []
    out ++ path.map fun e =>
      ((stn.constraints.constraints.getD e default).enabler).getD default
  | TheoryPropagationCause.bounds source target => out ++ [source, target]

/-- The rewind loop of `Theory::explain` for `TheoryPropagation` payloads:
undo theory events until the cause trail is back to length `cause_index`
(this also removes the cause record itself). -/
def StnTheory.explain_rewind (cause_index : Nat) : Nat → StnTheory → StnTheory
  | 0, stn => stn
  | fuel + 1, stn =>
    if cause_index < stn.theory_propagation_causes.length then
      StnTheory.explain_rewind cause_index fuel stn.undo_last_event
    else stn

/-- `Theory::explain(event, context, model, out_explanation)` for the STN:
dispatch on the payload; `TheoryPropagation` payloads first rewind the
theory to the point where the cause was recorded. -/
def StnTheory.explain (stn : StnTheory) (event : Bound) (context : Nat)
    (model : DiscreteModel) (out : List Bound) : StnTheory × List Bound :=
  match ModelUpdateCause.decode context with
  | ModelUpdateCause.edgePropagation edge_id =>
    (stn, stn.explain_bound_propagation event edge_id model out)
  | ModelUpdateCause.theoryPropagation cause_index =>
    let cause := stn.theory_propagation_causes.getD cause_index default
    let stn := StnTheory.explain_rewind cause_index (stn.trail.events.length + 1) stn
    (stn, stn.explain_theory_propagation cause model out)

/-! ## Claim C6: `explain` and theory state -/

/-- C6 scenario: `a = var 0`, `b = var 1` in `[0, 10]`, a boolean-like
enabler variable `e = var 2` in `[0, 1]`. -/
def c6_model0 : DiscreteModel :=
  ⟨⟨[0, 10, 0, 10, 0, 1], [none, none, none, none, none, none], [], []⟩⟩

/-- The edge `b - a ≤ -100` reified to the (unentailed) literal `e ≥ 1`. -/
def c6_stn1 : StnTheory :=
  ((StnTheory.new 0 StnConfig.default).add_reified_edge (Bound.geq 2 1) 0 1 (-100)
    c6_model0).2

/-- After `set_ub(a) = 9`. -/
def c6_model1 : DiscreteModel :=
  ⟨(c6_model0.domains.set_ub 0 9 Cause.decision).1⟩

/-- Propagation of the scenario: bound-driven theory propagation forces
the enabler to false, recording one `Bounds` cause on the theory trail. -/
def c6_run : Option PropRes := StnTheory.propagate_all 50 c6_stn1 c6_model1

/-- The theory state after the successful propagation. -/
def c6_stn2 : StnTheory := (c6_run.map (·.1)).getD c6_stn1

/-- The model after the successful propagation. -/
def c6_model2 : DiscreteModel := (c6_run.map (·.2.1)).getD c6_model1

/-- **C6 (counterexample).** Explaining the theory-propagated literal
(payload `TheoryPropagation(0)`, encoded as `1`) does NOT leave the
theory's state what it was: the run above ends with one recorded
theory-propagation cause and four trail events, and after `explain` the
cause trail is empty and only one trail event remains — the rewind is not
undone. -/
theorem stn_explain_restores_state_cex :
    (c6_run.map fun r => r.2.2.isOk) = some true ∧
      c6_stn2.theory_propagation_causes.length = 1 ∧
      c6_stn2.trail.events.length = 4 ∧
      (c6_stn2.explain (Bound.from_parts 5 0) 1 c6_model2 []).1.theory_propagation_causes.length
        = 0 ∧
      (c6_stn2.explain (Bound.from_parts 5 0) 1 c6_model2 []).1.trail.events.length = 1 := by
  refine ⟨rfl, rfl, rfl, rfl, rfl⟩

/-- `undo_last_event` pops exactly the last trail event; it shortens the
cause trail exactly on `AddedTheoryPropagationCause` events. -/
theorem undo_last_event_spec (stn : StnTheory) (ev : StnEvent)
    (h : stn.trail.events.getLast? = some ev) :
    stn.undo_last_event.trail.events = stn.trail.events.dropLast ∧
      stn.undo_last_event.theory_propagation_causes
        = (if ev = StnEvent.addedTheoryPropagationCause
           then stn.theory_propagation_causes.dropLast
           else stn.theory_propagation_causes) := by
  unfold StnTheory.undo_last_event
  rw [h]
  rcases ev with _ | e | _
  · exact ⟨rfl, rfl⟩
  · refine ⟨rfl, ?_⟩
    rw [if_neg (by intro hh; cases hh)]
  · exact ⟨rfl, rfl⟩

/-- The rewind loop of `explain` truncates the cause trail to exactly
`idx` entries, given the trail invariant that the theory trail holds one
`AddedTheoryPropagationCause` event per recorded cause. -/
theorem explain_rewind_spec :
    ∀ fuel (stn : StnTheory) (idx : Nat),
      (stn.trail.events.filter
          fun e => decide (e = StnEvent.addedTheoryPropagationCause)).length
        = stn.theory_propagation_causes.length →
      idx ≤ stn.theory_propagation_causes.length →
      stn.trail.events.length + 1 ≤ fuel →
      (StnTheory.explain_rewind idx fuel stn).theory_propagation_causes
        = stn.theory_propagation_causes.take idx := by
  intro fuel
  induction fuel with
  | zero => intro stn idx _ _ hf; omega
  | succ f ih =>
    intro stn idx hcount hidx hf
    unfold StnTheory.explain_rewind
    by_cases hlt : idx < stn.theory_propagation_causes.length
    · rw [if_pos hlt]
      -- the trail is non-empty: it holds at least one cause event
      have hne : stn.trail.events ≠ [] := by
        intro habs
        rw [habs] at hcount
        simp at hcount
        omega
      obtain ⟨ev, hev⟩ : ∃ ev, stn.trail.events.getLast? = some ev := by
        rcases hl : stn.trail.events.getLast? with _ | ev
        · exact absurd (List.getLast?_eq_none_iff.mp hl) hne
        · exact ⟨ev, rfl⟩
      have hsplit : stn.trail.events = stn.trail.events.dropLast ++ [ev] := by
        conv_lhs => rw [← List.dropLast_append_getLast hne]
        rw [List.getLast?_eq_getLast _ hne] at hev
        rw [Option.some.injEq] at hev
        rw [hev]
      obtain ⟨hte, htc⟩ := undo_last_event_spec stn ev hev
      have hlen_ev : stn.trail.events.length = stn.trail.events.dropLast.length + 1 := by
        conv_lhs => rw [hsplit]
        simp
      have hfilter : (stn.trail.events.filter
            fun e => decide (e = StnEvent.addedTheoryPropagationCause)).length
          = (stn.trail.events.dropLast.filter
              fun e => decide (e = StnEvent.addedTheoryPropagationCause)).length
            + (if ev = StnEvent.addedTheoryPropagationCause then 1 else 0) := by
        conv_lhs => rw [hsplit]
        rw [List.filter_append]
        simp only [List.length_append]
        by_cases hevc : ev = StnEvent.addedTheoryPropagationCause
        · rw [if_pos hevc, hevc]
          simp
        · rw [if_neg hevc]
          simp [List.filter, hevc]
      by_cases hevc : ev = StnEvent.addedTheoryPropagationCause
      · -- popping a cause event: both counters decrease by one
        rw [if_pos hevc] at htc
        have hclen : stn.theory_propagation_causes ≠ [] := by
          intro habs
          rw [habs] at hlt
          simp at hlt
        obtain ⟨l2, x, hx⟩ : ∃ l2 x, stn.theory_propagation_causes = l2 ++ [x] := by
          rcases List.eq_nil_or_concat stn.theory_propagation_causes with h0 | ⟨l2, x, hx⟩
          · exact absurd h0 hclen
          · exact ⟨l2, x, by rw [hx, List.concat_eq_append]⟩
        have hcl : stn.theory_propagation_causes.length
            = stn.theory_propagation_causes.dropLast.length + 1 := by
          rw [hx, List.dropLast_concat]
          simp
        have hg : stn.undo_last_event.theory_propagation_causes.length
            = stn.theory_propagation_causes.dropLast.length := by rw [htc]
        have := ih stn.undo_last_event idx
          (by
            rw [hte, htc]
            rw [if_pos hevc] at hfilter
            omega)
          (by rw [htc]; omega)
          (by rw [hte]; omega)
        rw [this, htc]
        -- take idx of dropLast = take idx of the full list since idx < length
        rw [hx, List.dropLast_concat, List.take_append_of_le_length]
        rw [hx] at hlt
        simp at hlt
        omega
      · -- popping a non-cause event: the cause trail is unchanged
        rw [if_neg hevc] at htc
        have := ih stn.undo_last_event idx
          (by
            rw [hte, htc]
            rw [if_neg hevc] at hfilter
            omega)
          (by rw [htc]; omega)
          (by rw [hte]; omega)
        rw [this, htc]
    · rw [if_neg hlt]
      have : idx = stn.theory_propagation_causes.length := by omega
      rw [this, List.take_length]

/-- **C6 (amended).** After `StnTheory::explain(lit, payload, model, out)`
the theory's state is NOT always what it was before the call: for
`EdgePropagation` payloads the call indeed leaves the state untouched, but
for a `TheoryPropagation(idx)` payload the theory rewinds itself — it pops
trail events (deactivating the edges activated since and dropping later
cause records, the explained record included) until the cause trail has
exactly `idx` entries, and does not re-apply them (the solver re-propagates
after the backjump).  The count hypothesis is the trail invariant: one
`AddedTheoryPropagationCause` trail event per recorded cause. -/
theorem stn_explain_rewind_contract (stn : StnTheory) (event : Bound) (context : Nat)
    (model : DiscreteModel) (out : List Bound) :
    (∀ e, ModelUpdateCause.decode context = ModelUpdateCause.edgePropagation e →
      (stn.explain event context model out).1 = stn) ∧
    (∀ idx, ModelUpdateCause.decode context = ModelUpdateCause.theoryPropagation idx →
      idx < stn.theory_propagation_causes.length →
      (stn.trail.events.filter
          fun e => decide (e = StnEvent.addedTheoryPropagationCause)).length
        = stn.theory_propagation_causes.length →
      (stn.explain event context model out).1.theory_propagation_causes
        = stn.theory_propagation_causes.take idx) := by
  constructor
  · intro e hdec
    unfold StnTheory.explain
    rw [hdec]
  · intro idx hdec hidx hcount
    unfold StnTheory.explain
    rw [hdec]
    exact explain_rewind_spec (stn.trail.events.length + 1) stn idx hcount
      (by omega) (by omega)

/-- Witness for the amended C6, on the concrete scenario: explaining the
`TheoryPropagation(0)` inference truncates the cause trail to zero
entries, and an `EdgePropagation` payload (encoded `0`) leaves the state
unchanged. -/
theorem stn_explain_rewind_contract_witness :
    (c6_stn2.explain (Bound.from_parts 5 0) 0 c6_model2 []).1 = c6_stn2 ∧
      (c6_stn2.explain (Bound.from_parts 5 0) 1 c6_model2 []).1.theory_propagation_causes
        = c6_stn2.theory_propagation_causes.take 0 :=
  ⟨(stn_explain_rewind_contract c6_stn2 (Bound.from_parts 5 0) 0 c6_model2 []).1
      0 (by decide),
   (stn_explain_rewind_contract c6_stn2 (Bound.from_parts 5 0) 1 c6_model2 []).2
      0 (by decide) (by decide) (by decide)⟩

/-! ## Claim C1: bound completeness of `propagate_all`

The statement quantifies over states satisfying the invariants that the
theory maintains between propagations: the well-formedness of the
adjacency structures (`StnWf`) and the pending-work invariant (every
active propagator is either already relaxed or covered by pending work:
an unconsumed model event on its source, recorded by `covered`). -/

/-- The directional constraint `source → (target, weight)` is relaxed in
the domain store: `bound(target) ≤ bound(source) + weight`. -/
def relaxedAt (m : DiscreteModel) (s : Nat) (p : Propagator) : Prop :=
  m.domains.get_bound p.target ≤ m.domains.get_bound s + p.weight

/-- The slot `s` has an unconsumed model event that the event-drain loop
will react to (any event not produced by this theory's own edge
propagation triggers `propagate_bound_change` on its slot). -/
def liveAt (cursor ident : Nat) (m : DiscreteModel) (s : Nat) : Prop :=
  ∃ i, cursor ≤ i ∧ i < m.domains.events.length ∧
    (m.domains.events.getD i default).affected_bound = s ∧
    Cause.is_own_edge_propagation ident (m.domains.events.getD i default).cause = false

/-- Every propagator of the adjacency lists is relaxed, excused by `E`,
or covered by a live event on its source. -/
def covered (ap : List (List Propagator)) (cursor ident : Nat) (m : DiscreteModel)
    (E : Nat → Prop) : Prop :=
  ∀ s, s < ap.length → ∀ p ∈ ap.getD s [], relaxedAt m s p ∨ E s ∨ liveAt cursor ident m s

/-- Well-formedness of an STN theory state against a model: the structural
invariants maintained by the theory's own operations. -/
structure StnWf (stn : StnTheory) (m : DiscreteModel) : Prop where
  ap_no_self : ∀ s, s < stn.active_propagators.length →
    ∀ p ∈ stn.active_propagators.getD s [], p.target ≠ s
  ap_target_in : ∀ s, s < stn.active_propagators.length →
    ∀ p ∈ stn.active_propagators.getD s [], p.target < m.domains.bounds.length
  active_prop : ∀ i, i < stn.constraints.constraints.length →
    (stn.constraints.constraints.getD i default).enabler.isSome = true →
    ((stn.constraints.constraints.getD i default).source
        = (stn.constraints.constraints.getD i default).target →
      0 ≤ (stn.constraints.constraints.getD i default).weight) ∧
    ((stn.constraints.constraints.getD i default).source
        ≠ (stn.constraints.constraints.getD i default).target →
      (⟨(stn.constraints.constraints.getD i default).target,
        (stn.constraints.constraints.getD i default).weight, i⟩ : Propagator)
        ∈ stn.active_propagators.getD (stn.constraints.constraints.getD i default).source [])
  c_source_in : ∀ i, i < stn.constraints.constraints.length →
    (stn.constraints.constraints.getD i default).source < stn.active_propagators.length
  c_target_in : ∀ i, i < stn.constraints.constraints.length →
    (stn.constraints.constraints.getD i default).target < m.domains.bounds.length
  ap_len_even : stn.active_propagators.length % 2 = 0
  cursor_le : stn.model_events ≤ m.domains.events.length
  dirty : ∀ v ∈ stn.pending_updates, v ∈ stn.internal_propagate_queue
  act_edges_in : ∀ e l, ActivationEvent.toActivate e l ∈ stn.pending_activations →
    e < stn.constraints.constraints.length
  watch_edges_in : ∀ p ∈ stn.constraints.watches.entries,
    p.1 < stn.constraints.constraints.length

/-- Basic effects of `set_bound` on the bound map and the trail. -/
theorem set_bound_effects (d : Domains) (a : Nat) (nv : Int) (c : Cause) :
    (d.set_bound a nv c).1.bounds.length = d.bounds.length ∧
    (∀ j, j ≠ a → (d.set_bound a nv c).1.get_bound j = d.get_bound j) ∧
    (d.set_bound a nv c).1.get_bound a ≤ d.get_bound a ∧
    ((d.set_bound a nv c).2 = Except.ok false → (d.set_bound a nv c).1 = d ∧
      d.get_bound a ≤ nv) ∧
    ((d.set_bound a nv c).2 ≠ Except.ok false →
      (d.set_bound a nv c).1.events
        = d.events ++ [⟨a, c, d.get_bound a, nv, d.causes_index.getD a none⟩] ∧
      (a < d.bounds.length → (d.set_bound a nv c).1.get_bound a = nv) ∧
      nv < d.get_bound a) := by
  by_cases h : BoundValue.stronger (d.get_bound a) nv = true
  · have hs := set_bound_already d a nv c h
    simp only [BoundValue.stronger, decide_eq_true_eq] at h
    rw [hs]
    refine ⟨rfl, fun j _ => rfl, Int.le_refl _, fun _ => ⟨rfl, h⟩,
      fun habs => absurd rfl habs⟩
  · have h' : BoundValue.stronger (d.get_bound a) nv = false := by simpa using h
    have hw := set_bound_write d a nv c h'
    simp only [BoundValue.stronger, decide_eq_false_iff_not, not_le] at h'
    have hgb : d.get_bound a = d.bounds.getD a 0 := rfl
    rw [hw]
    refine ⟨by simp, ?_, ?_, ?_, ?_⟩
    · intro j hj
      simp only [Domains.get_bound]
      exact list_getD_set_ne _ _ _ _ _ (fun he => hj he.symm)
    · by_cases hin : a < d.bounds.length
      · simp only [Domains.get_bound]
        rw [list_getD_set_self _ _ _ _ hin]
        omega
      · have hlen : (d.bounds.set a nv).length = d.bounds.length := by simp
        simp only [Domains.get_bound]
        rw [List.getD_eq_default _ _ (by omega : d.bounds.length ≤ a)]
        rw [List.getD_eq_default _ _ (by rw [hlen]; omega)]
    · intro habs
      exfalso
      by_cases hc : BoundValue.compatible_with_symmetric nv
          (d.bounds.getD (VarBound.symmetric_bound a) 0) = true
      · rw [if_pos hc] at habs
        simp at habs
      · rw [if_neg hc] at habs
        simp at habs
    · intro _
      refine ⟨rfl, ?_, h'⟩
      intro hin
      simp only [Domains.get_bound]
      rw [list_getD_set_self _ _ _ _ hin]

/-- A theory-propagation inference is never classified as the theory's own
edge propagation. -/
theorem is_own_ep_tp (ident w i : Nat) :
    Cause.is_own_edge_propagation ident
      (Cause.inference w (ModelUpdateCause.encode
        (ModelUpdateCause.theoryPropagation i))) = false := by
  simp only [Cause.is_own_edge_propagation, ModelUpdateCause.encode,
    ModelUpdateCause.decode]
  rw [if_neg (by omega : ¬ (2 * i + 1) % 2 = 0)]
  simp

/-- An edge-propagation inference by this theory is its own. -/
theorem is_own_ep_ep (ident i : Nat) :
    Cause.is_own_edge_propagation ident
      (Cause.inference ident (ModelUpdateCause.encode
        (ModelUpdateCause.edgePropagation i))) = true := by
  simp only [Cause.is_own_edge_propagation, ModelUpdateCause.encode,
    ModelUpdateCause.decode]
  rw [if_pos (by omega : (2 * i) % 2 = 0)]
  simp

/-- `getD` of an appended list agrees with the prefix below its length. -/
theorem list_getD_append_left {α : Type} (l1 l2 : List α) (i : Nat) (dflt : α)
    (h : i < l1.length) : (l1 ++ l2).getD i dflt = l1.getD i dflt := by
  induction l1 generalizing i with
  | nil => simp at h
  | cons a t ih =>
    cases i with
    | zero => rfl
    | succ j =>
      simp only [List.cons_append, List.getD_cons_succ]
      exact ih j (by simp at h; omega)

/-- `getD` of a one-element extension at the old length. -/
theorem list_getD_concat_length {α : Type} (l : List α) (x dflt : α) :
    (l ++ [x]).getD l.length dflt = x := by
  induction l with
  | nil => rfl
  | cons a t ih => simpa using ih

/-- Liveness of a slot survives appending events to the trail. -/
theorem liveAt_mono (cursor ident : Nat) (m m1 : DiscreteModel)
    (hext : ∃ tail, m1.domains.events = m.domains.events ++ tail) (s : Nat) :
    liveAt cursor ident m s → liveAt cursor ident m1 s := by
  rintro ⟨i, hc, hl, ha, hcau⟩
  obtain ⟨tail, ht⟩ := hext
  have hgd : m1.domains.events.getD i default = m.domains.events.getD i default := by
    rw [ht]; exact list_getD_append_left _ _ _ _ hl
  exact ⟨i, hc, by rw [ht]; simp; omega, by rw [hgd]; exact ha, by rw [hgd]; exact hcau⟩

/-- Relaxation of a propagator survives a global bound decrease that leaves
the source untouched. -/
theorem relaxedAt_mono (m m1 : DiscreteModel) (s : Nat) (p : Propagator)
    (hdec : ∀ j, m1.domains.get_bound j ≤ m.domains.get_bound j)
    (hsrc : m1.domains.get_bound s = m.domains.get_bound s) :
    relaxedAt m s p → relaxedAt m1 s p := by
  intro h
  unfold relaxedAt at h ⊢
  have := hdec p.target
  omega

/-- `set_bound` only appends to the event trail. -/
theorem set_bound_events_extend (d : Domains) (a : Nat) (nv : Int) (c : Cause) :
    ∃ tail, (d.set_bound a nv c).1.events = d.events ++ tail := by
  by_cases h : BoundValue.stronger (d.get_bound a) nv = true
  · exact ⟨[], by rw [set_bound_already d a nv c h]; simp⟩
  · refine ⟨[⟨a, c, d.get_bound a, nv, d.causes_index.getD a none⟩], ?_⟩
    rw [set_bound_write d a nv c (by simpa using h)]

/-- A bound write with a cause that is not this theory's own edge
propagation preserves coverage: propagators out of the written slot become
live through the pushed event, all others keep their previous status. -/
theorem covered_set_nonown (ap : List (List Propagator)) (cursor ident : Nat)
    (d : Domains) (a : Nat) (nv : Int) (c : Cause) (E : Nat → Prop)
    (hc : Cause.is_own_edge_propagation ident c = false)
    (hcur : cursor ≤ d.events.length)
    (hcov : covered ap cursor ident ⟨d⟩ E) :
    covered ap cursor ident ⟨(d.set_bound a nv c).1⟩ E := by
  by_cases hst : BoundValue.stronger (d.get_bound a) nv = true
  · rw [set_bound_already d a nv c hst]
    exact hcov
  · have hw := set_bound_write d a nv c (by simpa using hst)
    intro s hs p hp
    by_cases hsa : s = a
    · -- the pushed event makes the written slot live
      subst hsa
      have h1 : (d.set_bound s nv c).1.events
          = d.events ++ [⟨s, c, d.get_bound s, nv, d.causes_index.getD s none⟩] := by
        rw [hw]
      have hev : (d.set_bound s nv c).1.events.getD d.events.length default
          = ⟨s, c, d.get_bound s, nv, d.causes_index.getD s none⟩ := by
        rw [h1, list_getD_concat_length]
      refine Or.inr (Or.inr ⟨d.events.length, hcur, ?_, ?_, ?_⟩)
      · show d.events.length < (d.set_bound s nv c).1.events.length
        rw [h1]
        simp
      · show ((d.set_bound s nv c).1.events.getD d.events.length default).affected_bound = _
        rw [hev]
      · show Cause.is_own_edge_propagation ident
            ((d.set_bound s nv c).1.events.getD d.events.length default).cause = false
        rw [hev]
        exact hc
    · rcases hcov s hs p hp with hr | he | hl
      · refine Or.inl (relaxedAt_mono _ _ _ _ ?_ ?_ hr)
        · intro j
          obtain ⟨_, hframe, hdec, _, _⟩ := set_bound_effects d a nv c
          by_cases hj : j = a
          · subst hj; exact hdec
          · exact (hframe j hj).le
        · obtain ⟨_, hframe, _, _, _⟩ := set_bound_effects d a nv c
          exact hframe s hsa
      · exact Or.inr (Or.inl he)
      · exact Or.inr (Or.inr (liveAt_mono cursor ident ⟨d⟩ _
          (set_bound_events_extend d a nv c) s hl))

/-- Generic coverage transfer: a state change that only decreases bounds,
only touches slot `t`, only appends events, and grows the excuse set to
include `t`, preserves coverage. -/
theorem covered_step (ap : List (List Propagator)) (cursor ident : Nat)
    (m m1 : DiscreteModel) (t : Nat) (E E1 : Nat → Prop)
    (hdec : ∀ j, m1.domains.get_bound j ≤ m.domains.get_bound j)
    (hframe : ∀ j, j ≠ t → m1.domains.get_bound j = m.domains.get_bound j)
    (hext : ∃ tail, m1.domains.events = m.domains.events ++ tail)
    (hE : ∀ v, E v → E1 v) (hEt : E1 t)
    (hcov : covered ap cursor ident m E) :
    covered ap cursor ident m1 E1 := by
  intro s hs p hp
  rcases hcov s hs p hp with hr | he | hl
  · by_cases hst : s = t
    · exact Or.inr (Or.inl (hst ▸ hEt))
    · exact Or.inl (relaxedAt_mono _ _ _ _ hdec (hframe s hst) hr)
  · exact Or.inr (Or.inl (hE s he))
  · exact Or.inr (Or.inr (liveAt_mono cursor ident m m1 hext s hl))

/-- Membership in `RefSet.insert`. -/
theorem refSet_mem_insert_self (l : List Nat) (v : Nat) : v ∈ RefSet.insert l v := by
  unfold RefSet.insert
  split
  · assumption
  · simp

/-- `RefSet.insert` keeps the previous members. -/
theorem refSet_mem_insert_of_mem (l : List Nat) (v w : Nat) (h : w ∈ l) :
    w ∈ RefSet.insert l v := by
  unfold RefSet.insert
  split
  · exact h
  · simp [h]

/-- `RefSet.insert` adds nothing but `v`. -/
theorem refSet_mem_insert_elim (l : List Nat) (v w : Nat) (h : w ∈ RefSet.insert l v) :
    w ∈ l ∨ w = v := by
  unfold RefSet.insert at h
  split at h
  · exact Or.inl h
  · simpa using h

/-- Specification of the relaxation pass `prop_targets` over a propagator
list out of `s` (with read source bound `β`), for successful results: the
theory's graph structures are untouched, the bound map only decreases with
the source bound itself unchanged, the trail only grows, each processed
propagator ends relaxed, every newly dirty slot is queued, and coverage is
preserved (the excuse set moving with `pending_updates`). -/
theorem prop_targets_spec (l : List Propagator) (stn : StnTheory) (m : DiscreteModel)
    (cyc : Bool) (orig s : Nat) (β : Int) (stn' : StnTheory) (m' : DiscreteModel)
    (hres : StnTheory.prop_targets stn m cyc orig s β l = (stn', m', Except.ok ()))
    (hβ : β = m.domains.get_bound s)
    (hnt : ∀ e ∈ l, e.target ≠ s)
    (htin : ∀ e ∈ l, e.target < m.domains.bounds.length) :
    stn'.active_propagators = stn.active_propagators ∧
    stn'.constraints = stn.constraints ∧
    stn'.model_events = stn.model_events ∧
    stn'.identity = stn.identity ∧
    stn'.config = stn.config ∧
    stn'.pending_activations = stn.pending_activations ∧
    stn'.trail = stn.trail ∧
    stn'.theory_propagation_causes = stn.theory_propagation_causes ∧
    m'.domains.bounds.length = m.domains.bounds.length ∧
    (∃ tail, m'.domains.events = m.domains.events ++ tail) ∧
    (∀ j, m'.domains.get_bound j ≤ m.domains.get_bound j) ∧
    m'.domains.get_bound s = m.domains.get_bound s ∧
    (∃ qt, stn'.internal_propagate_queue = stn.internal_propagate_queue ++ qt) ∧
    (∀ v ∈ stn'.pending_updates, v ∈ stn.pending_updates ∨ v ∈ stn'.internal_propagate_queue) ∧
    (∀ v ∈ stn.pending_updates, v ∈ stn'.pending_updates) ∧
    (∀ e ∈ l, relaxedAt m' s e) ∧
    (∀ E : Nat → Prop,
      covered stn.active_propagators stn.model_events stn.identity m
        (fun v => v ∈ stn.pending_updates ∨ E v) →
      covered stn.active_propagators stn.model_events stn.identity m'
        (fun v => v ∈ stn'.pending_updates ∨ E v)) := by
  induction l generalizing stn m with
  | nil =>
    simp only [StnTheory.prop_targets, Prod.mk.injEq] at hres
    obtain ⟨rfl, rfl, -⟩ := hres
    refine ⟨rfl, rfl, rfl, rfl, rfl, rfl, rfl, rfl, rfl, ⟨[], by simp⟩,
      fun j => le_refl _, rfl, ⟨[], by simp⟩, fun v hv => Or.inl hv,
      fun v hv => hv, fun e he => absurd he (List.not_mem_nil e), fun E h => h⟩
  | cons e rest ih =>
    simp only [StnTheory.prop_targets] at hres
    rcases hsb : m.domains.set_bound e.target (β + e.weight)
        (Cause.inference stn.identity
          (ModelUpdateCause.encode (ModelUpdateCause.edgePropagation e.id))) with ⟨d, res⟩
    rw [hsb] at hres
    obtain ⟨hlen, hframe, hdecA, hokf, hwrite⟩ := set_bound_effects m.domains e.target
      (β + e.weight) (Cause.inference stn.identity
        (ModelUpdateCause.encode (ModelUpdateCause.edgePropagation e.id)))
    rw [hsb] at hlen hframe hdecA hokf hwrite
    have hext0 := set_bound_events_extend m.domains e.target (β + e.weight)
      (Cause.inference stn.identity
        (ModelUpdateCause.encode (ModelUpdateCause.edgePropagation e.id)))
    rw [hsb] at hext0
    dsimp only at hlen hframe hdecA hokf hwrite hext0
    have hdec0 : ∀ j, d.get_bound j ≤ m.domains.get_bound j := by
      intro j
      by_cases hj : j = e.target
      · subst hj; exact hdecA
      · exact (hframe j hj).le
    have hsrc0 : d.get_bound s = m.domains.get_bound s :=
      hframe s (fun h => hnt e (List.mem_cons_self e rest) h.symm)
    cases res with
    | error em => simp at hres
    | ok changed =>
      cases changed with
      | false =>
        simp only [Bool.false_eq_true, if_false] at hres
        have hd : d = m.domains := (hokf rfl).1
        have hle : m.domains.get_bound e.target ≤ β + e.weight := (hokf rfl).2
        subst hd
        have hmeta : (⟨m.domains⟩ : DiscreteModel) = m := rfl
        rw [hmeta] at hres
        obtain ⟨c1, c2, c3, c4, c5, c6, c7, c8, c9, c10, c11, c12, c13, c14, c15,
          c16, c17⟩ := ih stn m hres hβ
          (fun x hx => hnt x (List.mem_cons_of_mem e hx))
          (fun x hx => htin x (List.mem_cons_of_mem e hx))
        refine ⟨c1, c2, c3, c4, c5, c6, c7, c8, c9, c10, c11, c12, c13, c14, c15,
          ?_, c17⟩
        intro x hx
        rcases List.mem_cons.1 hx with rfl | hx
        · show m'.domains.get_bound x.target ≤ m'.domains.get_bound s + x.weight
          have := c11 x.target
          rw [hβ] at hle
          omega
        · exact c16 x hx
      | true =>
        simp only [if_true] at hres
        by_cases hco : (cyc && decide (e.target = orig)) = true
        · rw [if_pos hco] at hres
          simp at hres
        · rw [if_neg hco] at hres
          have hwr := hwrite (by simp)
          obtain ⟨-, hread, -⟩ := hwr
          have hreadv : d.get_bound e.target = β + e.weight :=
            hread (htin e (List.mem_cons_self e rest))
          obtain ⟨c1, c2, c3, c4, c5, c6, c7, c8, c9, c10, c11, c12, c13, c14, c15,
            c16, c17⟩ := ih _ ⟨d⟩ hres (by show β = d.get_bound s; rw [hsrc0, hβ])
            (fun x hx => hnt x (List.mem_cons_of_mem e hx))
            (fun x hx => by
              show x.target < d.bounds.length
              rw [hlen]
              exact htin x (List.mem_cons_of_mem e hx))
          refine ⟨c1, c2, c3, c4, c5, c6, c7, c8, ?_, ?_, ?_, ?_, ?_, ?_, ?_, ?_, ?_⟩
          · exact c9.trans hlen
          · obtain ⟨t1, ht1⟩ := hext0
            obtain ⟨t2, ht2⟩ := c10
            refine ⟨t1 ++ t2, ?_⟩
            rw [ht2]
            show d.events ++ t2 = m.domains.events ++ (t1 ++ t2)
            rw [← List.append_assoc, ← ht1]
          · intro j
            exact le_trans (c11 j) (hdec0 j)
          · rw [c12]
            show d.get_bound s = m.domains.get_bound s
            exact hsrc0
          · obtain ⟨qt, hqt⟩ := c13
            exact ⟨e.target :: qt, by rw [hqt]; simp⟩
          · intro v hv
            rcases c14 v hv with hv1 | hv2
            · rcases refSet_mem_insert_elim _ _ _ hv1 with hv3 | rfl
              · exact Or.inl hv3
              · right
                obtain ⟨qt, hqt⟩ := c13
                rw [hqt]
                simp
            · exact Or.inr hv2
          · intro v hv
            exact c15 v (refSet_mem_insert_of_mem _ _ _ hv)
          · intro x hx
            rcases List.mem_cons.1 hx with rfl | hx
            · show m'.domains.get_bound x.target ≤ m'.domains.get_bound s + x.weight
              have h1 := c11 x.target
              dsimp only at h1
              rw [hreadv] at h1
              have h2 : m'.domains.get_bound s = d.get_bound s := c12
              rw [hsrc0, ← hβ] at h2
              omega
            · exact c16 x hx
          · intro E hcov
            refine c17 E ?_
            refine covered_step _ _ _ m ⟨d⟩ e.target _ _ hdec0 (fun j hj => hframe j hj)
              hext0 ?_ ?_ hcov
            · rintro v (hv | hv)
              · exact Or.inl (refSet_mem_insert_of_mem _ _ _ hv)
              · exact Or.inr hv
            · exact Or.inl (refSet_mem_insert_self _ _)

/-- Specification of the worklist loop of `run_propagation_loop`: starting
from a well-formed state whose coverage excuses exactly the dirty slots
(`pending_updates`), a successful exit leaves a well-formed state in which
every active propagator is relaxed, live, or nothing (empty excuse set). -/
theorem prop_queue_loop_spec (fuel : Nat) (cyc : Bool) (orig : Nat)
    (stn : StnTheory) (m : DiscreteModel) (stn' : StnTheory) (m' : DiscreteModel)
    (hres : StnTheory.prop_queue_loop cyc orig fuel stn m = some (stn', m', Except.ok ()))
    (hwf : StnWf stn m)
    (hcov : covered stn.active_propagators stn.model_events stn.identity m
      (fun v => v ∈ stn.pending_updates)) :
    StnWf stn' m' ∧
    covered stn'.active_propagators stn'.model_events stn'.identity m' (fun _ => False) ∧
    stn'.active_propagators = stn.active_propagators ∧
    stn'.constraints = stn.constraints ∧
    stn'.model_events = stn.model_events ∧
    stn'.identity = stn.identity ∧
    stn'.config = stn.config ∧
    stn'.pending_activations = stn.pending_activations ∧
    stn'.trail = stn.trail ∧
    stn'.theory_propagation_causes = stn.theory_propagation_causes ∧
    m'.domains.bounds.length = m.domains.bounds.length ∧
    (∃ tail, m'.domains.events = m.domains.events ++ tail) ∧
    (∀ j, m'.domains.get_bound j ≤ m.domains.get_bound j) := by
  induction fuel generalizing stn m with
  | zero => simp [StnTheory.prop_queue_loop] at hres
  | succ fuel ih =>
    simp only [StnTheory.prop_queue_loop] at hres
    rcases hq : stn.internal_propagate_queue with _ | ⟨source, qrest⟩
    · rw [hq] at hres
      simp only [Option.some.injEq, Prod.mk.injEq] at hres
      obtain ⟨rfl, rfl, -⟩ := hres
      have hpe : stn.pending_updates = [] := by
        cases hpu : stn.pending_updates with
        | nil => rfl
        | cons a t =>
          have := hwf.dirty a (by rw [hpu]; simp)
          rw [hq] at this
          simp at this
      refine ⟨hwf, ?_, rfl, rfl, rfl, rfl, rfl, rfl, rfl, rfl, rfl, ⟨[], by simp⟩,
        fun j => le_refl _⟩
      intro s hs p hp
      rcases hcov s hs p hp with h | h | h
      · exact Or.inl h
      · rw [hpe] at h
        simp at h
      · exact Or.inr (Or.inr h)
    · rw [hq] at hres
      dsimp only at hres
      split at hres
      · -- the popped source is dirty: it is relaxed by prop_targets
        next hsp =>
        split at hres
        · next stnA mA heq =>
          obtain ⟨c1, c2, c3, c4, c5, c6, c7, c8, c9, c10, c11, c12, c13, c14, c15,
            c16, c17⟩ := prop_targets_spec _ _ _ _ _ _ _ _ _ heq rfl
            (fun e he => by
              by_cases hlt : source < stn.active_propagators.length
              · exact hwf.ap_no_self source hlt e he
              · rw [List.getD_eq_default _ _ (by omega)] at he
                cases he)
            (fun e he => by
              by_cases hlt : source < stn.active_propagators.length
              · exact hwf.ap_target_in source hlt e he
              · rw [List.getD_eq_default _ _ (by omega)] at he
                cases he)
          have hwfA : StnWf stnA mA := by
            refine ⟨?_, ?_, ?_, ?_, ?_, ?_, ?_, ?_, ?_, ?_⟩
            · rw [c1]; exact hwf.ap_no_self
            · rw [c1]
              intro s hs p hp
              rw [c9]
              exact hwf.ap_target_in s hs p hp
            · rw [c1, c2]; exact hwf.active_prop
            · rw [c1, c2]; exact hwf.c_source_in
            · rw [c2]
              intro i hi
              rw [c9]
              exact hwf.c_target_in i hi
            · rw [c1]; exact hwf.ap_len_even
            · rw [c3]
              obtain ⟨t, ht⟩ := c10
              rw [ht, List.length_append]
              have := hwf.cursor_le
              dsimp only
              omega
            · intro v hv
              rcases c14 v hv with hv1 | hv2
              · have hv3 : v ∈ stn.pending_updates ∧ v ≠ source := by
                  have := List.mem_filter.1 hv1
                  simpa using this
                have := hwf.dirty v hv3.1
                rw [hq] at this
                obtain ⟨qt, hqt⟩ := c13
                rw [hqt]
                rcases List.mem_cons.1 this with h | h
                · exact absurd h hv3.2
                · exact List.mem_append_left _ h
              · exact hv2
            · rw [c6, c2]; exact hwf.act_edges_in
            · rw [c2]; exact hwf.watch_edges_in
          have hcovA : covered stnA.active_propagators stnA.model_events stnA.identity mA
              (fun v => v ∈ stnA.pending_updates) := by
            rw [c1, c3, c4]
            have hin : covered stn.active_propagators stn.model_events stn.identity m
                (fun v => v ∈ (stn.pending_updates.filter
                  fun v => !(decide (v = source))) ∨ v = source) := by
              intro s hs p hp
              rcases hcov s hs p hp with h | h | h
              · exact Or.inl h
              · by_cases hvs : s = source
                · exact Or.inr (Or.inl (Or.inr hvs))
                · exact Or.inr (Or.inl (Or.inl (List.mem_filter.2 ⟨h, by simpa using hvs⟩)))
              · exact Or.inr (Or.inr h)
            have hout := c17 (fun v => v = source) hin
            intro s hs p hp
            rcases hout s hs p hp with h | h | h
            · exact Or.inl h
            · rcases h with h | rfl
              · exact Or.inr (Or.inl h)
              · exact Or.inl (c16 p hp)
            · exact Or.inr (Or.inr h)
          obtain ⟨d1, d2, d3, d4, d5, d6, d7, d8, d9, d10, d11, d12, d13⟩ :=
            ih stnA mA hres hwfA hcovA
          refine ⟨d1, d2, d3.trans c1, d4.trans c2, d5.trans c3, d6.trans c4,
            d7.trans c5, d8.trans c6, d9.trans c7, d10.trans c8, d11.trans c9,
            ?_, fun j => le_trans (d13 j) (c11 j)⟩
          obtain ⟨t1, ht1⟩ := c10
          obtain ⟨t2, ht2⟩ := d12
          exact ⟨t1 ++ t2, by rw [ht2, ht1, List.append_assoc]⟩
        · next herr =>
          exact absurd (Option.some.inj hres) (herr stn' m')
      · -- the popped source is clean: skip it
        next hsp =>
        have hwf1 : StnWf { stn with internal_propagate_queue := qrest } m := by
          refine ⟨hwf.ap_no_self, hwf.ap_target_in, hwf.active_prop, hwf.c_source_in,
            hwf.c_target_in, hwf.ap_len_even, hwf.cursor_le, ?_, hwf.act_edges_in,
            hwf.watch_edges_in⟩
          intro v hv
          have := hwf.dirty v hv
          rw [hq] at this
          rcases List.mem_cons.1 this with rfl | h
          · exact absurd hv hsp
          · exact h
        exact ih { stn with internal_propagate_queue := qrest } m hres hwf1 hcov

/-- Specification of `run_propagation_loop`: the cleaned-up state seeds the
worklist with `original`, so the loop invariant holds when the coverage of
the incoming state excuses only `original`; on success the result is
well-formed and fully covered without excuses. -/
theorem run_propagation_loop_spec (fuel : Nat) (stn : StnTheory) (m : DiscreteModel)
    (orig : Nat) (cyc : Bool) (stn' : StnTheory) (m' : DiscreteModel)
    (hres : StnTheory.run_propagation_loop fuel stn m orig cyc
      = some (stn', m', Except.ok ()))
    (hwf : StnWf stn m)
    (hcov : covered stn.active_propagators stn.model_events stn.identity m
      (fun v => v = orig)) :
    StnWf stn' m' ∧
    covered stn'.active_propagators stn'.model_events stn'.identity m' (fun _ => False) ∧
    stn'.active_propagators = stn.active_propagators ∧
    stn'.constraints = stn.constraints ∧
    stn'.model_events = stn.model_events ∧
    stn'.identity = stn.identity ∧
    stn'.config = stn.config ∧
    stn'.pending_activations = stn.pending_activations ∧
    stn'.trail = stn.trail ∧
    stn'.theory_propagation_causes = stn.theory_propagation_causes ∧
    m'.domains.bounds.length = m.domains.bounds.length ∧
    (∃ tail, m'.domains.events = m.domains.events ++ tail) ∧
    (∀ j, m'.domains.get_bound j ≤ m.domains.get_bound j) := by
  simp only [StnTheory.run_propagation_loop, StnTheory.clean_up_propagation_state] at hres
  have hpa : stn.pending_updates.filter
      (fun v => !(decide (v ∈ stn.internal_propagate_queue))) = [] := by
    rw [List.filter_eq_nil_iff]
    intro a ha
    simp [hwf.dirty a ha]
  rw [hpa] at hres
  have hnil : RefSet.insert ([] : List Nat) orig = [orig] := by simp [RefSet.insert]
  rw [hnil] at hres
  refine prop_queue_loop_spec fuel cyc orig
    { stn with
      pending_updates := [orig],
      stats := { num_propagations := stn.stats.num_propagations + 1,
                 distance_updates := stn.stats.distance_updates },
      internal_propagate_queue := [orig] }
    m stn' m' hres
    ⟨hwf.ap_no_self, hwf.ap_target_in, hwf.active_prop, hwf.c_source_in, hwf.c_target_in,
      hwf.ap_len_even, hwf.cursor_le, (fun v hv => hv),
      hwf.act_edges_in, hwf.watch_edges_in⟩
    (fun s hs p hp => ?_)
  rcases hcov s hs p hp with h | h | h
  · exact Or.inl h
  · refine Or.inr (Or.inl ?_)
    show s ∈ [orig]
    simp [h]
  · exact Or.inr (Or.inr h)

/-- Specification of the loop of `theory_propagate_bound`: it only records
theory-propagation causes and disables enablers through `set` calls whose
causes are `TheoryPropagation` payloads, so on success the propagation
graph is untouched, bounds only decrease, the model trail only grows, and
coverage is preserved for any excuse set. -/
theorem tpb_aux_spec (l : List EdgeTarget) (stn : StnTheory) (m : DiscreteModel)
    (bound : Bound) (dox : Int) (stn' : StnTheory) (m' : DiscreteModel)
    (hres : StnTheory.theory_propagate_bound_aux stn m bound dox l
      = (stn', m', Except.ok ())) :
    stn'.config = stn.config ∧
    stn'.constraints = stn.constraints ∧
    stn'.active_propagators = stn.active_propagators ∧
    stn'.pending_updates = stn.pending_updates ∧
    stn'.pending_activations = stn.pending_activations ∧
    stn'.identity = stn.identity ∧
    stn'.model_events = stn.model_events ∧
    stn'.internal_propagate_queue = stn.internal_propagate_queue ∧
    m'.domains.bounds.length = m.domains.bounds.length ∧
    (∃ tail, m'.domains.events = m.domains.events ++ tail) ∧
    (∀ j, m'.domains.get_bound j ≤ m.domains.get_bound j) ∧
    (∀ (ap : List (List Propagator)) (cursor ident : Nat) (E : Nat → Prop),
      cursor ≤ m.domains.events.length →
      covered ap cursor ident m E → covered ap cursor ident m' E) := by
  induction l generalizing stn m with
  | nil =>
    simp only [StnTheory.theory_propagate_bound_aux, Prod.mk.injEq] at hres
    obtain ⟨rfl, rfl, -⟩ := hres
    exact ⟨rfl, rfl, rfl, rfl, rfl, rfl, rfl, rfl, rfl, ⟨[], by simp⟩,
      fun j => le_refl _, fun ap cursor ident E _ h => h⟩
  | cons out rest ih =>
    simp only [StnTheory.theory_propagate_bound_aux] at hres
    split at hres
    · exact ih stn m hres
    · split at hres
      · split at hres
        · simp at hres
        · next d b heq =>
          have heq' : m.domains.set_bound (Bound.not out.enabler).affected_bound
              (Bound.not out.enabler).bound_value
              (Cause.inference stn.identity (ModelUpdateCause.encode
                (ModelUpdateCause.theoryPropagation stn.theory_propagation_causes.length)))
              = (d, Except.ok b) := heq
          obtain ⟨hlen, hframe, hdecA, -, -⟩ := set_bound_effects m.domains
            (Bound.not out.enabler).affected_bound (Bound.not out.enabler).bound_value
            (Cause.inference stn.identity (ModelUpdateCause.encode
              (ModelUpdateCause.theoryPropagation stn.theory_propagation_causes.length)))
          rw [heq'] at hlen hframe hdecA
          dsimp only at hlen hframe hdecA
          have hext0 := set_bound_events_extend m.domains
            (Bound.not out.enabler).affected_bound (Bound.not out.enabler).bound_value
            (Cause.inference stn.identity (ModelUpdateCause.encode
              (ModelUpdateCause.theoryPropagation stn.theory_propagation_causes.length)))
          rw [heq'] at hext0
          dsimp only at hext0
          have hdec0 : ∀ j, d.get_bound j ≤ m.domains.get_bound j := by
            intro j
            by_cases hj : j = (Bound.not out.enabler).affected_bound
            · subst hj; exact hdecA
            · exact (hframe j hj).le
          obtain ⟨c1, c2, c3, c4, c5, c6, c7, c8, c9, c10, c11, c12⟩ := ih _ ⟨d⟩ hres
          refine ⟨c1, c2, c3, c4, c5, c6, c7, c8, c9.trans hlen, ?_, ?_, ?_⟩
          · obtain ⟨t1, ht1⟩ := hext0
            obtain ⟨t2, ht2⟩ := c10
            refine ⟨t1 ++ t2, ?_⟩
            rw [ht2]
            show d.events ++ t2 = m.domains.events ++ (t1 ++ t2)
            rw [← List.append_assoc, ← ht1]
          · intro j
            exact le_trans (c11 j) (hdec0 j)
          · intro ap cursor ident E hcur hcov
            have h1 := covered_set_nonown ap cursor ident m.domains
              (Bound.not out.enabler).affected_bound (Bound.not out.enabler).bound_value
              (Cause.inference stn.identity (ModelUpdateCause.encode
                (ModelUpdateCause.theoryPropagation stn.theory_propagation_causes.length)))
              E (is_own_ep_tp ident stn.identity stn.theory_propagation_causes.length)
              hcur hcov
            rw [heq'] at h1
            refine c12 ap cursor ident E ?_ h1
            obtain ⟨t1, ht1⟩ := hext0
            show cursor ≤ d.events.length
            rw [ht1, List.length_append]
            omega
      · exact ih stn m hres

/-- Specification of the inner loop of `theory_propagate_edge`: as for
bound-driven theory propagation, only `TheoryPropagation`-caused `set`
calls touch the model, so coverage is preserved for any excuse set. -/
theorem tpe_inner_spec (l : List EdgeTarget) (stn : StnTheory) (m : DiscreteModel)
    (cweight : Int) (pred : Nat) (pred_dist : Int) (successors : DijkstraState)
    (stn' : StnTheory) (m' : DiscreteModel)
    (hres : StnTheory.tpe_inner stn m cweight pred pred_dist successors l
      = (stn', m', Except.ok ())) :
    stn'.config = stn.config ∧
    stn'.constraints = stn.constraints ∧
    stn'.active_propagators = stn.active_propagators ∧
    stn'.pending_updates = stn.pending_updates ∧
    stn'.pending_activations = stn.pending_activations ∧
    stn'.identity = stn.identity ∧
    stn'.model_events = stn.model_events ∧
    stn'.internal_propagate_queue = stn.internal_propagate_queue ∧
    m'.domains.bounds.length = m.domains.bounds.length ∧
    (∃ tail, m'.domains.events = m.domains.events ++ tail) ∧
    (∀ j, m'.domains.get_bound j ≤ m.domains.get_bound j) ∧
    (∀ (ap : List (List Propagator)) (cursor ident : Nat) (E : Nat → Prop),
      cursor ≤ m.domains.events.length →
      covered ap cursor ident m E → covered ap cursor ident m' E) := by
  induction l generalizing stn m with
  | nil =>
    simp only [StnTheory.tpe_inner, Prod.mk.injEq] at hres
    obtain ⟨rfl, rfl, -⟩ := hres
    exact ⟨rfl, rfl, rfl, rfl, rfl, rfl, rfl, rfl, rfl, ⟨[], by simp⟩,
      fun j => le_refl _, fun ap cursor ident E _ h => h⟩
  | cons potential rest ih =>
    simp only [StnTheory.tpe_inner] at hres
    split at hres
    · exact ih stn m hres
    · split at hres
      · split at hres
        · simp at hres
        · next d b heq =>
          have heq' : m.domains.set_bound (Bound.not potential.enabler).affected_bound
              (Bound.not potential.enabler).bound_value
              (Cause.inference stn.identity (ModelUpdateCause.encode
                (ModelUpdateCause.theoryPropagation stn.theory_propagation_causes.length)))
              = (d, Except.ok b) := heq
          obtain ⟨hlen, hframe, hdecA, -, -⟩ := set_bound_effects m.domains
            (Bound.not potential.enabler).affected_bound
            (Bound.not potential.enabler).bound_value
            (Cause.inference stn.identity (ModelUpdateCause.encode
              (ModelUpdateCause.theoryPropagation stn.theory_propagation_causes.length)))
          rw [heq'] at hlen hframe hdecA
          dsimp only at hlen hframe hdecA
          have hext0 := set_bound_events_extend m.domains
            (Bound.not potential.enabler).affected_bound
            (Bound.not potential.enabler).bound_value
            (Cause.inference stn.identity (ModelUpdateCause.encode
              (ModelUpdateCause.theoryPropagation stn.theory_propagation_causes.length)))
          rw [heq'] at hext0
          dsimp only at hext0
          have hdec0 : ∀ j, d.get_bound j ≤ m.domains.get_bound j := by
            intro j
            by_cases hj : j = (Bound.not potential.enabler).affected_bound
            · subst hj; exact hdecA
            · exact (hframe j hj).le
          obtain ⟨c1, c2, c3, c4, c5, c6, c7, c8, c9, c10, c11, c12⟩ := ih _ ⟨d⟩ hres
          refine ⟨c1, c2, c3, c4, c5, c6, c7, c8, c9.trans hlen, ?_, ?_, ?_⟩
          · obtain ⟨t1, ht1⟩ := hext0
            obtain ⟨t2, ht2⟩ := c10
            refine ⟨t1 ++ t2, ?_⟩
            rw [ht2]
            show d.events ++ t2 = m.domains.events ++ (t1 ++ t2)
            rw [← List.append_assoc, ← ht1]
          · intro j
            exact le_trans (c11 j) (hdec0 j)
          · intro ap cursor ident E hcur hcov
            have h1 := covered_set_nonown ap cursor ident m.domains
              (Bound.not potential.enabler).affected_bound
              (Bound.not potential.enabler).bound_value
              (Cause.inference stn.identity (ModelUpdateCause.encode
                (ModelUpdateCause.theoryPropagation stn.theory_propagation_causes.length)))
              E (is_own_ep_tp ident stn.identity stn.theory_propagation_causes.length)
              hcur hcov
            rw [heq'] at h1
            refine c12 ap cursor ident E ?_ h1
            obtain ⟨t1, ht1⟩ := hext0
            show cursor ≤ d.events.length
            rw [ht1, List.length_append]
            omega
      · exact ih stn m hres

/-- Specification of the outer loop of `theory_propagate_edge`. -/
theorem tpe_outer_spec (l : List (Nat × Int)) (stn : StnTheory) (m : DiscreteModel)
    (cweight : Int) (successors : DijkstraState) (stn' : StnTheory) (m' : DiscreteModel)
    (hres : StnTheory.tpe_outer stn m cweight successors l = (stn', m', Except.ok ())) :
    stn'.config = stn.config ∧
    stn'.constraints = stn.constraints ∧
    stn'.active_propagators = stn.active_propagators ∧
    stn'.pending_updates = stn.pending_updates ∧
    stn'.pending_activations = stn.pending_activations ∧
    stn'.identity = stn.identity ∧
    stn'.model_events = stn.model_events ∧
    stn'.internal_propagate_queue = stn.internal_propagate_queue ∧
    m'.domains.bounds.length = m.domains.bounds.length ∧
    (∃ tail, m'.domains.events = m.domains.events ++ tail) ∧
    (∀ j, m'.domains.get_bound j ≤ m.domains.get_bound j) ∧
    (∀ (ap : List (List Propagator)) (cursor ident : Nat) (E : Nat → Prop),
      cursor ≤ m.domains.events.length →
      covered ap cursor ident m E → covered ap cursor ident m' E) := by
  induction l generalizing stn m with
  | nil =>
    simp only [StnTheory.tpe_outer, Prod.mk.injEq] at hres
    obtain ⟨rfl, rfl, -⟩ := hres
    exact ⟨rfl, rfl, rfl, rfl, rfl, rfl, rfl, rfl, rfl, ⟨[], by simp⟩,
      fun j => le_refl _, fun ap cursor ident E _ h => h⟩
  | cons pd rest ih =>
    simp only [StnTheory.tpe_outer] at hres
    split at hres
    · next stnA mA heq =>
      obtain ⟨b1, b2, b3, b4, b5, b6, b7, b8, b9, b10, b11, b12⟩ :=
        tpe_inner_spec _ _ _ _ _ _ _ _ _ heq
      obtain ⟨c1, c2, c3, c4, c5, c6, c7, c8, c9, c10, c11, c12⟩ := ih stnA mA hres
      refine ⟨c1.trans b1, c2.trans b2, c3.trans b3, c4.trans b4, c5.trans b5,
        c6.trans b6, c7.trans b7, c8.trans b8, c9.trans b9, ?_, ?_, ?_⟩
      · obtain ⟨t1, ht1⟩ := b10
        obtain ⟨t2, ht2⟩ := c10
        exact ⟨t1 ++ t2, by rw [ht2, ht1, List.append_assoc]⟩
      · intro j
        exact le_trans (c11 j) (b11 j)
      · intro ap cursor ident E hcur hcov
        refine c12 ap cursor ident E ?_ (b12 ap cursor ident E hcur hcov)
        obtain ⟨t1, ht1⟩ := b10
        rw [ht1, List.length_append]
        omega
    · next herr =>
      exact absurd hres (herr stn' m')

/-- Specification of `propagate_bound_change`: with coverage excusing only
the changed slot, a successful run restores full (excuse-free) coverage.
When the slot's variable has no edges there is nothing to do — every
propagator lives on an allocated timepoint slot, so the excused slot is
out of range of the adjacency lists. -/
theorem propagate_bound_change_spec (fuel : Nat) (stn : StnTheory) (m : DiscreteModel)
    (bound : Bound) (stn' : StnTheory) (m' : DiscreteModel)
    (hres : StnTheory.propagate_bound_change fuel stn m bound
      = some (stn', m', Except.ok ()))
    (hwf : StnWf stn m)
    (hcov : covered stn.active_propagators stn.model_events stn.identity m
      (fun v => v = bound.affected_bound)) :
    StnWf stn' m' ∧
    covered stn'.active_propagators stn'.model_events stn'.identity m' (fun _ => False) ∧
    stn'.active_propagators = stn.active_propagators ∧
    stn'.constraints = stn.constraints ∧
    stn'.model_events = stn.model_events ∧
    stn'.identity = stn.identity ∧
    stn'.config = stn.config ∧
    stn'.pending_activations = stn.pending_activations ∧
    stn'.trail = stn.trail ∧
    stn'.theory_propagation_causes = stn.theory_propagation_causes ∧
    m'.domains.bounds.length = m.domains.bounds.length ∧
    (∃ tail, m'.domains.events = m.domains.events ++ tail) ∧
    (∀ j, m'.domains.get_bound j ≤ m.domains.get_bound j) := by
  simp only [StnTheory.propagate_bound_change] at hres
  split at hres
  · next hne =>
    simp only [Bool.not_eq_true', StnTheory.has_edges, StnTheory.num_nodes,
      decide_eq_false_iff_not, Bound.var, VarBound.var] at hne
    simp only [Option.some.injEq, Prod.mk.injEq] at hres
    obtain ⟨rfl, rfl, -⟩ := hres
    refine ⟨hwf, ?_, rfl, rfl, rfl, rfl, rfl, rfl, rfl, rfl, rfl, ⟨[], by simp⟩,
      fun j => le_refl _⟩
    intro s hs p hp
    rcases hcov s hs p hp with h | h | h
    · exact Or.inl h
    · exfalso
      have heven := hwf.ap_len_even
      omega
    · exact Or.inr (Or.inr h)
  · exact run_propagation_loop_spec fuel stn m bound.affected_bound false stn' m'
      hres hwf hcov

/-- Specification of `propagate_new_edge` ([Cesta96]): called right after
the new edge's propagator was appended to the adjacency lists (the one
propagator that coverage may not yet account for, singled out in the
hypothesis), on success it re-establishes full coverage: the initial
relaxation write either changes nothing (the propagator was already
relaxed) or makes the target dirty and runs the propagation loop on it. -/
theorem propagate_new_edge_spec (fuel : Nat) (stn : StnTheory) (m : DiscreteModel)
    (new_edge : Nat) (stn' : StnTheory) (m' : DiscreteModel)
    (hres : StnTheory.propagate_new_edge fuel stn m new_edge
      = some (stn', m', Except.ok ()))
    (hwf : StnWf stn m)
    (hnst : (stn.constraints.constraints.getD new_edge default).source
      ≠ (stn.constraints.constraints.getD new_edge default).target)
    (htlt : (stn.constraints.constraints.getD new_edge default).target
      < m.domains.bounds.length)
    (hcov : ∀ s, s < stn.active_propagators.length →
      ∀ p ∈ stn.active_propagators.getD s [],
        (s = (stn.constraints.constraints.getD new_edge default).source ∧
         p.target = (stn.constraints.constraints.getD new_edge default).target ∧
         p.weight = (stn.constraints.constraints.getD new_edge default).weight) ∨
        relaxedAt m s p ∨ liveAt stn.model_events stn.identity m s) :
    StnWf stn' m' ∧
    covered stn'.active_propagators stn'.model_events stn'.identity m' (fun _ => False) ∧
    stn'.active_propagators = stn.active_propagators ∧
    stn'.constraints = stn.constraints ∧
    stn'.model_events = stn.model_events ∧
    stn'.identity = stn.identity ∧
    stn'.config = stn.config ∧
    stn'.pending_activations = stn.pending_activations ∧
    stn'.trail = stn.trail ∧
    stn'.theory_propagation_causes = stn.theory_propagation_causes ∧
    m'.domains.bounds.length = m.domains.bounds.length ∧
    (∃ tail, m'.domains.events = m.domains.events ++ tail) ∧
    (∀ j, m'.domains.get_bound j ≤ m.domains.get_bound j) := by
  simp only [StnTheory.propagate_new_edge] at hres
  split at hres
  · simp at hres
  · next d changed heq =>
    have heq' : m.domains.set_bound
        (stn.constraints.constraints.getD new_edge default).target
        (m.domains.get_bound (stn.constraints.constraints.getD new_edge default).source
          + (stn.constraints.constraints.getD new_edge default).weight)
        (Cause.inference stn.identity (ModelUpdateCause.encode
          (ModelUpdateCause.edgePropagation new_edge)))
        = (d, Except.ok changed) := heq
    obtain ⟨hlen, hframe, hdecA, hokf, hwrite⟩ := set_bound_effects m.domains
      (stn.constraints.constraints.getD new_edge default).target
      (m.domains.get_bound (stn.constraints.constraints.getD new_edge default).source
        + (stn.constraints.constraints.getD new_edge default).weight)
      (Cause.inference stn.identity (ModelUpdateCause.encode
        (ModelUpdateCause.edgePropagation new_edge)))
    rw [heq'] at hlen hframe hdecA hokf hwrite
    dsimp only at hlen hframe hdecA hokf hwrite
    have hext0 := set_bound_events_extend m.domains
      (stn.constraints.constraints.getD new_edge default).target
      (m.domains.get_bound (stn.constraints.constraints.getD new_edge default).source
        + (stn.constraints.constraints.getD new_edge default).weight)
      (Cause.inference stn.identity (ModelUpdateCause.encode
        (ModelUpdateCause.edgePropagation new_edge)))
    rw [heq'] at hext0
    dsimp only at hext0
    have hdec0 : ∀ j, d.get_bound j ≤ m.domains.get_bound j := by
      intro j
      by_cases hj : j = (stn.constraints.constraints.getD new_edge default).target
      · subst hj; exact hdecA
      · exact (hframe j hj).le
    cases changed with
    | false =>
      simp only [Bool.false_eq_true, if_false, Option.some.injEq, Prod.mk.injEq] at hres
      obtain ⟨rfl, hm, -⟩ := hres
      obtain ⟨hd, hle⟩ := hokf rfl
      subst hd
      have hm' : m' = m := by rw [← hm]
      subst hm'
      refine ⟨hwf, ?_, rfl, rfl, rfl, rfl, rfl, rfl, rfl, rfl, rfl, ⟨[], by simp⟩,
        fun j => le_refl _⟩
      intro s hs p hp
      rcases hcov s hs p hp with ⟨h1, h2, h3⟩ | h | h
      · refine Or.inl ?_
        unfold relaxedAt
        rw [h1, h2, h3]
        exact hle
      · exact Or.inl h
      · exact Or.inr (Or.inr h)
    | true =>
      simp only [if_true] at hres
      have hread : d.get_bound (stn.constraints.constraints.getD new_edge default).target
          = m.domains.get_bound (stn.constraints.constraints.getD new_edge default).source
            + (stn.constraints.constraints.getD new_edge default).weight :=
        (hwrite (by simp)).2.1 htlt
      have hwf1 : StnWf stn ⟨d⟩ := by
        refine ⟨hwf.ap_no_self, ?_, hwf.active_prop, hwf.c_source_in, ?_,
          hwf.ap_len_even, ?_, hwf.dirty, hwf.act_edges_in, hwf.watch_edges_in⟩
        · intro s hs p hp
          show p.target < d.bounds.length
          rw [hlen]
          exact hwf.ap_target_in s hs p hp
        · intro i hi
          show (stn.constraints.constraints.getD i default).target < d.bounds.length
          rw [hlen]
          exact hwf.c_target_in i hi
        · show stn.model_events ≤ d.events.length
          obtain ⟨t1, ht1⟩ := hext0
          rw [ht1, List.length_append]
          have := hwf.cursor_le
          omega
      have hcov1 : covered stn.active_propagators stn.model_events stn.identity ⟨d⟩
          (fun v => v = (stn.constraints.constraints.getD new_edge default).target) := by
        intro s hs p hp
        rcases hcov s hs p hp with ⟨h1, h2, h3⟩ | h | h
        · refine Or.inl ?_
          show d.get_bound p.target ≤ d.get_bound s + p.weight
          rw [h1, h2, h3, hread, hframe _ hnst]
        · by_cases hst : s = (stn.constraints.constraints.getD new_edge default).target
          · exact Or.inr (Or.inl hst)
          · exact Or.inl (relaxedAt_mono m ⟨d⟩ s p hdec0 (hframe s hst) h)
        · exact Or.inr (Or.inr (liveAt_mono _ _ m ⟨d⟩ hext0 s h))
      have := run_propagation_loop_spec fuel stn ⟨d⟩
        (stn.constraints.constraints.getD new_edge default).target true stn' m'
        hres hwf1 hcov1
      obtain ⟨c1, c2, c3, c4, c5, c6, c7, c8, c9, c10, c11, c12, c13⟩ := this
      refine ⟨c1, c2, c3, c4, c5, c6, c7, c8, c9, c10, c11.trans hlen, ?_, ?_⟩
      · obtain ⟨t1, ht1⟩ := hext0
        obtain ⟨t2, ht2⟩ := c12
        refine ⟨t1 ++ t2, ?_⟩
        rw [ht2]
        show d.events ++ t2 = m.domains.events ++ (t1 ++ t2)
        rw [← List.append_assoc, ← ht1]
      · intro j
        exact le_trans (c13 j) (hdec0 j)

/-- A non-tightening delta is non-negative. -/
theorem not_tightening_nonneg (w : Int) (h : BoundValueAdd.is_tightening w = false) :
    0 ≤ w := by
  simpa [BoundValueAdd.is_tightening] using h

/-- Specification of the activation-drain loop of `propagate_all`: under
full coverage, a successful drain preserves well-formedness and full
coverage — each newly activated edge's propagator is appended to the
adjacency lists and immediately accounted for by `propagate_new_edge`. -/
theorem drain_activations_spec (fuel : Nat) (stn : StnTheory) (m : DiscreteModel)
    (stn' : StnTheory) (m' : DiscreteModel)
    (hres : StnTheory.drain_activations fuel stn m = some (stn', m', Except.ok ()))
    (hwf : StnWf stn m)
    (hcov : covered stn.active_propagators stn.model_events stn.identity m
      (fun _ => False)) :
    StnWf stn' m' ∧
    covered stn'.active_propagators stn'.model_events stn'.identity m' (fun _ => False) ∧
    stn'.model_events = stn.model_events ∧
    stn'.identity = stn.identity ∧
    stn'.config = stn.config ∧
    m'.domains.bounds.length = m.domains.bounds.length ∧
    (∃ tail, m'.domains.events = m.domains.events ++ tail) ∧
    (∀ j, m'.domains.get_bound j ≤ m.domains.get_bound j) := by
  induction fuel generalizing stn m with
  | zero => simp [StnTheory.drain_activations] at hres
  | succ fuel ih =>
    simp only [StnTheory.drain_activations] at hres
    rcases hq : stn.pending_activations with _ | ⟨⟨edge, enabler⟩, rest⟩
    · rw [hq] at hres
      simp only [Option.some.injEq, Prod.mk.injEq] at hres
      obtain ⟨rfl, rfl, -⟩ := hres
      exact ⟨hwf, hcov, rfl, rfl, rfl, rfl, ⟨[], by simp⟩, fun j => le_refl _⟩
    · rw [hq] at hres
      dsimp only at hres
      have hedge_lt : edge < stn.constraints.constraints.length :=
        hwf.act_edges_in edge enabler (by rw [hq]; exact List.mem_cons_self _ _)
      have hwf0 : StnWf { stn with pending_activations := rest } m :=
        ⟨hwf.ap_no_self, hwf.ap_target_in, hwf.active_prop, hwf.c_source_in,
          hwf.c_target_in, hwf.ap_len_even, hwf.cursor_le, hwf.dirty,
          (fun e l h => hwf.act_edges_in e l
            (by rw [hq]; exact List.mem_cons_of_mem _ h)),
          hwf.watch_edges_in⟩
      split at hres
      · next hnone =>
        set c := stn.constraints.constraints.getD edge default with hc
        split at hres
        · -- self-loop
          next hst =>
          split at hres
          · simp at hres
          · next htight =>
            have hwfA : StnWf { stn with
                constraints := { stn.constraints with
                  constraints := stn.constraints.constraints.set edge
                    { source := c.source, target := c.target, weight := c.weight,
                      enabler := some enabler, enablers := c.enablers } },
                pending_activations := rest } m := by
              refine ⟨hwf.ap_no_self, hwf.ap_target_in, ?_, ?_, ?_, hwf.ap_len_even,
                hwf.cursor_le, hwf.dirty, ?_, ?_⟩
              · intro i hi hen
                rw [List.length_set] at hi
                by_cases hie : i = edge
                · subst hie
                  rw [list_getD_set_self _ _ _ _ hedge_lt]
                  refine ⟨fun _ => ?_, fun hne2 => absurd hst hne2⟩
                  exact not_tightening_nonneg _ (by simpa using htight)
                · rw [list_getD_set_ne _ _ _ _ _ (fun h => hie h.symm)] at hen ⊢
                  exact hwf.active_prop i hi hen
              · intro i hi
                rw [List.length_set] at hi
                by_cases hie : i = edge
                · subst hie
                  rw [list_getD_set_self _ _ _ _ hedge_lt]
                  exact hwf.c_source_in _ hedge_lt
                · rw [list_getD_set_ne _ _ _ _ _ (fun h => hie h.symm)]
                  exact hwf.c_source_in i hi
              · intro i hi
                rw [List.length_set] at hi
                by_cases hie : i = edge
                · subst hie
                  rw [list_getD_set_self _ _ _ _ hedge_lt]
                  exact hwf.c_target_in _ hedge_lt
                · rw [list_getD_set_ne _ _ _ _ _ (fun h => hie h.symm)]
                  exact hwf.c_target_in i hi
              · intro e l h
                rw [List.length_set]
                exact hwf.act_edges_in e l (by rw [hq]; exact List.mem_cons_of_mem _ h)
              · intro p hp
                rw [List.length_set]
                exact hwf.watch_edges_in p hp
            have hrec := ih _ m hres hwfA hcov
            exact hrec
        · -- a real directed edge is activated
          next hst =>
          have hsrc_lt : c.source < stn.active_propagators.length :=
            hwf.c_source_in edge hedge_lt
          have hget2 : (stn.constraints.constraints.set edge
              { source := c.source, target := c.target, weight := c.weight,
                enabler := some enabler, enablers := c.enablers }).getD edge default
              = { source := c.source, target := c.target, weight := c.weight,
                  enabler := some enabler, enablers := c.enablers } :=
            list_getD_set_self _ _ _ _ hedge_lt
          have hwfB : StnWf { stn with
              constraints := { stn.constraints with
                constraints := stn.constraints.constraints.set edge
                  { source := c.source, target := c.target, weight := c.weight,
                    enabler := some enabler, enablers := c.enablers } },
              active_propagators := stn.active_propagators.set c.source
                (stn.active_propagators.getD c.source []
                  ++ [{ target := c.target, weight := c.weight, id := edge }]),
              trail := stn.trail.push (StnEvent.edgeActivated edge),
              pending_activations := rest } m := by
            refine ⟨?_, ?_, ?_, ?_, ?_, ?_, hwf.cursor_le, hwf.dirty, ?_, ?_⟩
            · intro s hs p hp
              rw [List.length_set] at hs
              by_cases hsc : s = c.source
              · subst hsc
                rw [list_getD_set_self _ _ _ _ hsrc_lt] at hp
                rcases List.mem_append.1 hp with h | h
                · exact hwf.ap_no_self _ hs p h
                · rw [List.mem_singleton.1 h]
                  exact fun h2 => hst h2.symm
              · rw [list_getD_set_ne _ _ _ _ _ (fun h => hsc h.symm)] at hp
                exact hwf.ap_no_self s hs p hp
            · intro s hs p hp
              rw [List.length_set] at hs
              by_cases hsc : s = c.source
              · subst hsc
                rw [list_getD_set_self _ _ _ _ hsrc_lt] at hp
                rcases List.mem_append.1 hp with h | h
                · exact hwf.ap_target_in _ hs p h
                · rw [List.mem_singleton.1 h]
                  exact hwf.c_target_in edge hedge_lt
              · rw [list_getD_set_ne _ _ _ _ _ (fun h => hsc h.symm)] at hp
                exact hwf.ap_target_in s hs p hp
            · intro i hi hen
              rw [List.length_set] at hi
              by_cases hie : i = edge
              · subst hie
                rw [hget2] at hen ⊢
                refine ⟨fun h => absurd h hst, fun _ => ?_⟩
                rw [list_getD_set_self _ _ _ _ hsrc_lt]
                exact List.mem_append.2 (Or.inr (List.mem_singleton.2 rfl))
              · rw [list_getD_set_ne _ _ _ _ _ (fun h => hie h.symm)] at hen ⊢
                obtain ⟨h1, h2⟩ := hwf.active_prop i hi hen
                refine ⟨h1, fun hne2 => ?_⟩
                by_cases hsc : (stn.constraints.constraints.getD i default).source = c.source
                · rw [hsc, list_getD_set_self _ _ _ _ hsrc_lt]
                  exact List.mem_append.2 (Or.inl (by rw [← hsc]; exact h2 hne2))
                · rw [list_getD_set_ne _ _ _ _ _ (fun h => hsc h.symm)]
                  exact h2 hne2
            · intro i hi
              rw [List.length_set] at hi
              rw [List.length_set]
              by_cases hie : i = edge
              · subst hie
                rw [hget2]
                exact hsrc_lt
              · rw [list_getD_set_ne _ _ _ _ _ (fun h => hie h.symm)]
                exact hwf.c_source_in i hi
            · intro i hi
              rw [List.length_set] at hi
              by_cases hie : i = edge
              · subst hie
                rw [hget2]
                exact hwf.c_target_in _ hedge_lt
              · rw [list_getD_set_ne _ _ _ _ _ (fun h => hie h.symm)]
                exact hwf.c_target_in i hi
            · show (stn.active_propagators.set _ _).length % 2 = 0
              rw [List.length_set]
              exact hwf.ap_len_even
            · intro e l h
              rw [List.length_set]
              exact hwf.act_edges_in e l (by rw [hq]; exact List.mem_cons_of_mem _ h)
            · intro p hp
              rw [List.length_set]
              exact hwf.watch_edges_in p hp
          have hcovB : ∀ s, s < (stn.active_propagators.set c.source
                (stn.active_propagators.getD c.source []
                  ++ [{ target := c.target, weight := c.weight, id := edge }])).length →
              ∀ p ∈ (stn.active_propagators.set c.source
                (stn.active_propagators.getD c.source []
                  ++ [{ target := c.target, weight := c.weight, id := edge }])).getD s [],
                (s = ((stn.constraints.constraints.set edge
                    { source := c.source, target := c.target, weight := c.weight,
                      enabler := some enabler, enablers := c.enablers }).getD
                      edge default).source ∧
                 p.target = ((stn.constraints.constraints.set edge
                    { source := c.source, target := c.target, weight := c.weight,
                      enabler := some enabler, enablers := c.enablers }).getD
                      edge default).target ∧
                 p.weight = ((stn.constraints.constraints.set edge
                    { source := c.source, target := c.target, weight := c.weight,
                      enabler := some enabler, enablers := c.enablers }).getD
                      edge default).weight) ∨
                relaxedAt m s p ∨ liveAt stn.model_events stn.identity m s := by
            intro s hs p hp
            rw [List.length_set] at hs
            by_cases hsc : s = c.source
            · subst hsc
              rw [list_getD_set_self _ _ _ _ hsrc_lt] at hp
              rcases List.mem_append.1 hp with h | h
              · rcases hcov _ hs p h with h2 | h2 | h2
                · exact Or.inr (Or.inl h2)
                · cases h2
                · exact Or.inr (Or.inr h2)
              · rw [List.mem_singleton.1 h, hget2]
                exact Or.inl ⟨rfl, rfl, rfl⟩
            · rw [list_getD_set_ne _ _ _ _ _ (fun h => hsc h.symm)] at hp
              rcases hcov s hs p hp with h2 | h2 | h2
              · exact Or.inr (Or.inl h2)
              · cases h2
              · exact Or.inr (Or.inr h2)
          split at hres
          · exact absurd hres (by simp)
          · next stnC mC heq =>
            have hnstB : ((stn.constraints.constraints.set edge
                { source := c.source, target := c.target, weight := c.weight,
                  enabler := some enabler, enablers := c.enablers }).getD edge
                  default).source
                ≠ ((stn.constraints.constraints.set edge
                { source := c.source, target := c.target, weight := c.weight,
                  enabler := some enabler, enablers := c.enablers }).getD edge
                  default).target := by
              rw [hget2]
              exact hst
            have htltB : ((stn.constraints.constraints.set edge
                { source := c.source, target := c.target, weight := c.weight,
                  enabler := some enabler, enablers := c.enablers }).getD edge
                  default).target < m.domains.bounds.length := by
              rw [hget2]
              exact hwf.c_target_in edge hedge_lt
            obtain ⟨w1, w2, w3, w4, w5, w6, w7, w8, w9, w10, w11, w12, w13⟩ :=
              propagate_new_edge_spec fuel _ m edge stnC mC heq hwfB hnstB htltB hcovB
            split at hres
            · -- edge-driven theory propagation enabled
              split at hres
              · next stnD mD heq2 =>
                have heq2A : StnTheory.tpe_outer stnC mC
                    (stnC.constraints.constraints.getD edge default).weight
                    (stnC.distances_from mC
                      (stnC.constraints.constraints.getD edge default).target)
                    (stnC.distances_from mC (VarBound.symmetric_bound
                      (stnC.constraints.constraints.getD edge default).source)).distances
                    = (stnD, mD, Except.ok ()) := heq2
                obtain ⟨e1, e2, e3, e4, e5, e6, e7, e8, e9, e10, e11, e12⟩ :=
                  tpe_outer_spec _ _ _ _ _ _ _ heq2A
                have hwfD : StnWf stnD mD := by
                  refine ⟨?_, ?_, ?_, ?_, ?_, ?_, ?_, ?_, ?_, ?_⟩
                  · rw [e3]; exact w1.ap_no_self
                  · rw [e3]
                    intro s hs p hp
                    rw [e9]
                    exact w1.ap_target_in s hs p hp
                  · rw [e2, e3]; exact w1.active_prop
                  · rw [e2, e3]; exact w1.c_source_in
                  · rw [e2]
                    intro i hi
                    rw [e9]
                    exact w1.c_target_in i hi
                  · rw [e3]; exact w1.ap_len_even
                  · rw [e7]
                    obtain ⟨t, ht⟩ := e10
                    rw [ht, List.length_append]
                    have := w1.cursor_le
                    omega
                  · rw [e4, e8]; exact w1.dirty
                  · rw [e5, e2]; exact w1.act_edges_in
                  · rw [e2]; exact w1.watch_edges_in
                have hcovD : covered stnD.active_propagators stnD.model_events
                    stnD.identity mD (fun _ => False) := by
                  rw [e3, e7, e6]
                  exact e12 stnC.active_propagators stnC.model_events stnC.identity _
                    w1.cursor_le w2
                have hrec := ih _ mD hres hwfD hcovD
                obtain ⟨d1, d2, d3, d4, d5, d6, d7, d8⟩ := hrec
                refine ⟨d1, d2, (d3.trans e7).trans w5, (d4.trans e6).trans w6,
                  (d5.trans e1).trans w7, (d6.trans e9).trans w11, ?_,
                  fun j => ((d8 j).trans (e11 j)).trans (w13 j)⟩
                obtain ⟨t1, ht1⟩ := w12
                obtain ⟨t2, ht2⟩ := e10
                obtain ⟨t3, ht3⟩ := d7
                refine ⟨t1 ++ (t2 ++ t3), ?_⟩
                rw [ht3, ht2, ht1, List.append_assoc, List.append_assoc]
              · next herr =>
                exact absurd (Option.some.inj hres) (herr stn' m')
            · -- edge-driven theory propagation disabled
              have hrec := ih _ mC hres w1 w2
              obtain ⟨d1, d2, d3, d4, d5, d6, d7, d8⟩ := hrec
              refine ⟨d1, d2, d3.trans w5, d4.trans w6, d5.trans w7, d6.trans w11, ?_,
                fun j => (d8 j).trans (w13 j)⟩
              obtain ⟨t1, ht1⟩ := w12
              obtain ⟨t2, ht2⟩ := d7
              refine ⟨t1 ++ t2, ?_⟩
              rw [ht2, ht1, List.append_assoc]
          · next err hnomatch heq2 =>
            exact (hnomatch stn' m' (Option.some.inj hres)).elim
      · next hnone =>
        exact ih { stn with pending_activations := rest } m hres hwf0 hcov

/-- Specification of the event-drain loop of `propagate_all`: consuming an
event moves the cursor past it; an event produced by this theory's own
edge propagation was never needed for coverage (liveness requires a
foreign cause), and any other event's slot is re-covered by running
`propagate_bound_change` on it. -/
theorem drain_events_spec (fuel : Nat) (stn : StnTheory) (m : DiscreteModel)
    (stn' : StnTheory) (m' : DiscreteModel)
    (hres : StnTheory.drain_events fuel stn m = some (stn', m', Except.ok ()))
    (hwf : StnWf stn m)
    (hcov : covered stn.active_propagators stn.model_events stn.identity m
      (fun _ => False)) :
    StnWf stn' m' ∧
    covered stn'.active_propagators stn'.model_events stn'.identity m' (fun _ => False) := by
  induction fuel generalizing stn m with
  | zero => simp [StnTheory.drain_events] at hres
  | succ fuel ih =>
    simp only [StnTheory.drain_events] at hres
    split at hres
    · next hlt =>
      split at hres
      · next stn3 m3 heqM =>
        have hB : stn3.config = stn.config ∧ stn3.constraints = stn.constraints ∧
            stn3.active_propagators = stn.active_propagators ∧
            stn3.pending_updates = stn.pending_updates ∧
            stn3.pending_activations = stn.pending_activations ++
              ((stn.constraints.watches.watches_on
                  (m.domains.events.getD stn.model_events default).new_literal).map
                fun edge => ActivationEvent.toActivate edge
                  (m.domains.events.getD stn.model_events default).new_literal) ∧
            stn3.identity = stn.identity ∧
            stn3.model_events = stn.model_events + 1 ∧
            stn3.internal_propagate_queue = stn.internal_propagate_queue ∧
            m3.domains.bounds.length = m.domains.bounds.length ∧
            (∃ tail, m3.domains.events = m.domains.events ++ tail) ∧
            (∀ j, m3.domains.get_bound j ≤ m.domains.get_bound j) ∧
            (∀ (ap : List (List Propagator)) (cursor ident : Nat) (E : Nat → Prop),
              cursor ≤ m.domains.events.length →
              covered ap cursor ident m E → covered ap cursor ident m3 E) := by
          by_cases hbe : stn.config.theory_propagation.boundsEnabled = true
          · rw [if_pos hbe] at heqM
            obtain ⟨b1, b2, b3, b4, b5, b6, b7, b8, b9, b10, b11, b12⟩ :=
              tpb_aux_spec _ _ _ _ _ _ _ heqM
            exact ⟨b1, b2, b3, b4, b5, b6, b7, b8, b9, b10, b11, b12⟩
          · rw [if_neg hbe] at heqM
            simp only [Prod.mk.injEq] at heqM
            obtain ⟨h1, h2, -⟩ := heqM
            subst h1
            subst h2
            exact ⟨rfl, rfl, rfl, rfl, rfl, rfl, rfl, rfl, rfl, ⟨[], by simp⟩,
              fun j => le_refl _, fun ap c i E _ h => h⟩
        obtain ⟨b1, b2, b3, b4, b5, b6, b7, b8, b9, b10, b11, b12⟩ := hB
        have hwf3 : StnWf stn3 m3 := by
          refine ⟨?_, ?_, ?_, ?_, ?_, ?_, ?_, ?_, ?_, ?_⟩
          · rw [b3]; exact hwf.ap_no_self
          · rw [b3]
            intro s hs p hp
            rw [b9]
            exact hwf.ap_target_in s hs p hp
          · rw [b2, b3]; exact hwf.active_prop
          · rw [b2, b3]; exact hwf.c_source_in
          · rw [b2]
            intro i hi
            rw [b9]
            exact hwf.c_target_in i hi
          · rw [b3]; exact hwf.ap_len_even
          · rw [b7]
            obtain ⟨t, ht⟩ := b10
            rw [ht, List.length_append]
            omega
          · rw [b4, b8]; exact hwf.dirty
          · rw [b5, b2]
            intro e l h
            rcases List.mem_append.1 h with h | h
            · exact hwf.act_edges_in e l h
            · obtain ⟨de, hde1, hde2⟩ := List.mem_map.1 h
              obtain ⟨hde3, -⟩ := ActivationEvent.toActivate.inj hde2
              subst hde3
              obtain ⟨pr, hpr1, hpr2⟩ :=
                List.mem_map.1 (by exact hde1 :
                  de ∈ (stn.constraints.watches.entries.filter fun en =>
                    Bound.entails
                      (m.domains.events.getD stn.model_events default).new_literal
                      en.2).map (fun x => x.1))
              rw [← hpr2]
              exact hwf.watch_edges_in pr (List.mem_of_mem_filter hpr1)
          · rw [b2]; exact hwf.watch_edges_in
        by_cases hown : Cause.is_own_edge_propagation stn.identity
            (m.domains.events.getD stn.model_events default).cause = true
        · have hcond : stn3.own_edge_propagation
              (m.domains.events.getD stn.model_events default).cause = true := by
            unfold StnTheory.own_edge_propagation
            rw [b6]
            exact hown
          rw [if_pos hcond] at hres
          have hcov1 : covered stn.active_propagators (stn.model_events + 1)
              stn.identity m (fun _ => False) := by
            intro s hs p hp
            rcases hcov s hs p hp with h | h | h
            · exact Or.inl h
            · cases h
            · obtain ⟨i, hi1, hi2, hi3, hi4⟩ := h
              refine Or.inr (Or.inr ⟨i, ?_, hi2, hi3, hi4⟩)
              rcases Nat.eq_or_lt_of_le hi1 with heqi | hlt2
              · exfalso
                rw [← heqi] at hi4
                rw [hown] at hi4
                cases hi4
              · omega
          have hcov3 : covered stn3.active_propagators stn3.model_events stn3.identity
              m3 (fun _ => False) := by
            rw [b3, b7, b6]
            exact b12 _ _ _ _ (by omega) hcov1
          exact ih _ m3 hres hwf3 hcov3
        · have hcond : ¬(stn3.own_edge_propagation
              (m.domains.events.getD stn.model_events default).cause = true) := by
            unfold StnTheory.own_edge_propagation
            rw [b6]
            exact hown
          rw [if_neg hcond] at hres
          have hcovE : covered stn.active_propagators (stn.model_events + 1)
              stn.identity m
              (fun v => v = (m.domains.events.getD stn.model_events default).affected_bound) := by
            intro s hs p hp
            rcases hcov s hs p hp with h | h | h
            · exact Or.inl h
            · cases h
            · obtain ⟨i, hi1, hi2, hi3, hi4⟩ := h
              rcases Nat.eq_or_lt_of_le hi1 with heqi | hlt2
              · refine Or.inr (Or.inl ?_)
                rw [← heqi] at hi3
                exact hi3.symm
              · exact Or.inr (Or.inr ⟨i, by omega, hi2, hi3, hi4⟩)
          have hcov3E : covered stn3.active_propagators stn3.model_events stn3.identity
              m3 (fun v => v
                = (m.domains.events.getD stn.model_events default).affected_bound) := by
            rw [b3, b7, b6]
            exact b12 _ _ _ _ (by omega) hcovE
          split at hres
          · simp at hres
          · next stn4 m4 heqP =>
            obtain ⟨p1, p2, p3, p4, p5, p6, p7, p8, p9, p10, p11, p12, p13⟩ :=
              propagate_bound_change_spec fuel stn3 m3 _ stn4 m4 heqP hwf3 hcov3E
            exact ih _ m4 hres p1 p2
          · next err hnomatch heqP =>
            exact (hnomatch stn' m' (Option.some.inj hres)).elim
      · next herr =>
        exact absurd (Option.some.inj hres) (herr stn' m')
    · next hge =>
      simp only [Option.some.injEq, Prod.mk.injEq] at hres
      obtain ⟨rfl, rfl, -⟩ := hres
      exact ⟨hwf, hcov⟩

/-- Specification of `propagate_all`: starting from a well-formed, fully
covered state, a successful run ends well-formed with no pending events or
activations, so every active propagator is relaxed in the final domains. -/
theorem propagate_all_spec (fuel : Nat) (stn : StnTheory) (m : DiscreteModel)
    (stn' : StnTheory) (m' : DiscreteModel)
    (hres : StnTheory.propagate_all fuel stn m = some (stn', m', Except.ok ()))
    (hwf : StnWf stn m)
    (hcov : covered stn.active_propagators stn.model_events stn.identity m
      (fun _ => False)) :
    StnWf stn' m' ∧
    ∀ s, s < stn'.active_propagators.length →
      ∀ p ∈ stn'.active_propagators.getD s [], relaxedAt m' s p := by
  induction fuel generalizing stn m with
  | zero => simp [StnTheory.propagate_all] at hres
  | succ fuel ih =>
    simp only [StnTheory.propagate_all] at hres
    split at hres
    · split at hres
      · simp at hres
      · next stnA mA heqE =>
        obtain ⟨a1, a2⟩ := drain_events_spec fuel stn m stnA mA heqE hwf hcov
        split at hres
        · simp at hres
        · next stnB mB heqA =>
          obtain ⟨g1, g2, -, -, -, -, -, -⟩ :=
            drain_activations_spec fuel stnA mA stnB mB heqA a1 a2
          exact ih _ mB hres g1 g2
        · next err hnomatch heqA =>
          exact (hnomatch stn' m' (Option.some.inj hres)).elim
      · next err hnomatch heqE =>
        exact (hnomatch stn' m' (Option.some.inj hres)).elim
    · next hdone =>
      simp only [Option.some.injEq, Prod.mk.injEq] at hres
      obtain ⟨rfl, rfl, -⟩ := hres
      refine ⟨hwf, ?_⟩
      intro s hs p hp
      rcases hcov s hs p hp with h | h | h
      · exact h
      · cases h
      · obtain ⟨i, hi1, hi2, -, -⟩ := h
        exfalso
        have h1 : ¬(stn.model_events < m.domains.events.length) :=
          fun hx => hdone (Or.inl hx)
        omega

/-- Witness state for the completeness theorem: one active constraint
`ub(x1) − w·5 → ub(x2)` (slots 3 and 5), its propagator registered, no
pending events or activations, and bounds already pairwise consistent. -/
def c1w_stn : StnTheory :=
  ⟨StnConfig.default,
   ⟨[⟨3, 5, 5, some ⟨0, 0⟩, []⟩], [], ⟨[]⟩, []⟩,
   [[], [], [], [⟨5, 5, 0⟩], [], []],
   [], ⟨[], []⟩, [], ⟨0, 0⟩, 0, 0, [], [], []⟩

/-- The witness model: three variables with `x0 = 0`, `x1, x2 ∈ [0, 10]`. -/
def c1w_m : DiscreteModel :=
  ⟨⟨[0, 0, 0, 10, 0, 10], [none, none, none, none, none, none], [], []⟩⟩

/-- **C1.** STN bound completeness: for every well-formed STN state and
model in which every active propagator is relaxed or has pending work (a
live model event on its source slot; pending activations are processed in
full by the call), after a successful `StnTheory::propagate_all` — which
drains all model events and activations — every active directional
constraint `source −w→ target` satisfies
`bound(target) ≤ bound(source) + w` in the final domain store.  Read on
upper-bound slots this is `ub(t) ≤ ub(s) + w`; read on the (negated)
lower-bound slots of the same edge it is `−lb(s) ≤ −lb(t) + w`, i.e.
`lb(s) ≥ lb(t) − w`: together the two inequalities of the claim, one per
directional view of each active edge. -/
theorem stn_propagate_all_bound_complete (fuel : Nat) (stn : StnTheory)
    (m : DiscreteModel) (stn' : StnTheory) (m' : DiscreteModel)
    (hwf : StnWf stn m)
    (hcov : covered stn.active_propagators stn.model_events stn.identity m
      (fun _ => False))
    (hres : StnTheory.propagate_all fuel stn m = some (stn', m', Except.ok ()))
    (i : Nat) (hi : i < stn'.constraints.constraints.length)
    (hen : (stn'.constraints.constraints.getD i default).enabler.isSome = true) :
    m'.domains.get_bound (stn'.constraints.constraints.getD i default).target
      ≤ m'.domains.get_bound (stn'.constraints.constraints.getD i default).source
        + (stn'.constraints.constraints.getD i default).weight := by
  obtain ⟨hwf', hrel⟩ := propagate_all_spec fuel stn m stn' m' hres hwf hcov
  by_cases hst : (stn'.constraints.constraints.getD i default).source
      = (stn'.constraints.constraints.getD i default).target
  · have h0 := (hwf'.active_prop i hi hen).1 hst
    rw [hst]
    omega
  · have hmem := (hwf'.active_prop i hi hen).2 hst
    have hslt := hwf'.c_source_in i hi
    exact hrel _ hslt _ hmem

/-- Witness for C1: on the concrete single-edge state (active constraint
slot 3 → slot 5 with weight 5, bounds `10` and `10`), `propagate_all`
returns immediately and the completeness inequality `10 ≤ 10 + 5` holds. -/
theorem stn_propagate_all_bound_complete_witness :
    c1w_m.domains.get_bound
        (c1w_stn.constraints.constraints.getD 0 default).target
      ≤ c1w_m.domains.get_bound
          (c1w_stn.constraints.constraints.getD 0 default).source
        + (c1w_stn.constraints.constraints.getD 0 default).weight :=
  stn_propagate_all_bound_complete 1 c1w_stn c1w_m c1w_stn c1w_m
    ⟨by decide, by decide, by decide, by decide, by decide, by decide, by decide,
      by decide, fun e l h => absurd h (List.not_mem_nil _), by decide⟩
    (fun s hs p hp => by
      have hs6 : s < 6 := hs
      interval_cases s <;> simp [c1w_stn] at hp
      subst hp
      exact Or.inl (by unfold relaxedAt; decide))
    rfl 0 (by decide) (by decide)
